import Mathlib

/-! # bubbles-tree: the tree builder, the cursor controller and the renderer of
`pkg/cli_tree.go`

A shallow embedding of the Go code.

* Memory.  A `*Node` is modelled by the address at which `newNode` allocated the
  node (`Node.addr`, handed out sequentially).  `Children` owns its nodes, so a
  node carries its children inline; `Parent` is a non-owning pointer and is kept
  as an address, dereferenced by `Node.deref` in the tree that the session holds.
* Domain objects.  A `NodeInterface` value is a reference (a number) into a store
  `Nat → V` of caller-owned objects; `Name`, `Print` and `Update` act on the
  state `V` of the referenced object.  `Update` rewrites the store in place, as
  the Go method with a pointer receiver does.
* Panics (nil dereference, index out of range) are the `none` of an `Option`.
* Input.  The object graph handed to `NewTree` is a finite tree of objects (an
  inductive type), on which the recursion of `newTree` is structural; a cyclic
  graph, on which `newTree` does not return, is outside it.  An element may be
  nil or of a type without the three methods, on which the type assertion
  `childValue.(NodeInterface)` panics, and a `Children` method may panic when
  called without arguments: `newTree` then fails.
* The session holds a copy of the root node (`tree: *tree`).  The parent pointers
  of the top-level nodes refer to the original root, whose fields are those of the
  copy; the copy stands for both.
-/

namespace BubblesTree

/-! ## Domain objects -/

/-- Common interface for all nodes (`NodeInterface`): `Name`, `Print`, `Update`. -/
class NodeInterface (V : Type) where
  Name : V → String
  Print : V → String
  Update : V → V

/-- How `reflect` sees a child provider: a value of slice kind; a value with a
`Children` method that has one result, which is a slice, and whose call without
arguments returns; a value with neither (an array, a value with no such method, a
method with another number of results, or a result that is no slice); a value with a `Children` method
that has one result and whose call without arguments panics (the method takes a
parameter, or it panics itself, as on a nil receiver); and a nil interface or a
value of a type that does not implement `NodeInterface`, on which the assertion
`childValue.(NodeInterface)` panics. -/
inductive Shape where
  | slice
  | accessor
  | plain
  | badAccessor
  | foreign
deriving DecidableEq, Repr

/-- A caller-supplied object: the reference `value` is its `NodeInterface` view,
`shape` and `elems` are what reflection discovers on it (`elems` are the slice
elements or the result of `Children()`; with shape `plain` nothing is discovered
and `elems` stays invisible to the builder). -/
inductive Obj where
  | mk (value : Nat) (shape : Shape) (elems : List Obj)

/-- The `NodeInterface` reference of an object. -/
def Obj.value : Obj → Nat
  | .mk v _ _ => v

/-- The reflected shape of an object. -/
def Obj.shape : Obj → Shape
  | .mk _ s _ => s

/-- The raw element list of an object. -/
def Obj.elems : Obj → List Obj
  | .mk _ _ es => es

/-- The top-level argument of `NewTree` (an `interface{}`): nil, a slice of
objects, a value with a `Children` accessor that returns a slice, a value with a
`Children` method whose call panics, or any other value. -/
inductive ChildProvider where
  | nil
  | slice (elems : List Obj)
  | accessor (children : List Obj)
  | plain
  | badAccessor

/-- The child sequence the builder discovers on a provider. -/
def ChildProvider.children : ChildProvider → List Obj
  | .nil => []
  | .slice es => es
  | .accessor es => es
  | .plain => []
  | .badAccessor => []

/-- An object seen as the child provider of the recursive call (which a `foreign`
element does not reach). -/
def Obj.provider : Obj → ChildProvider
  | .mk _ .slice es => .slice es
  | .mk _ .accessor es => .accessor es
  | .mk _ .plain _ => .plain
  | .mk _ .badAccessor _ => .badAccessor
  | .mk _ .foreign _ => .plain

/-- The child sequence the builder discovers on an object. -/
def Obj.children (o : Obj) : List Obj :=
  o.provider.children

/-- The object reached from `o` along a path of child indices. -/
def Obj.get? : Obj → List Nat → Option Obj
  | o, [] => some o
  | o, i :: p => (o.children[i]?).bind (fun c => Obj.get? c p)

/-- The object reached from a sequence of objects along a non-empty path of child
indices. -/
def objAt (os : List Obj) : List Nat → Option Obj
  | [] => none
  | i :: p => (os[i]?).bind (fun o => o.get? p)

/-! ## Nodes -/

/-- Node represents a node in the tree (`type Node struct`), with the address it
was allocated at. -/
inductive Node where
  | mk (addr : Nat) (ID : String) (Value : Option Nat) (Children : List Node)
      (Parent : Option Nat)

/-- Address of the node. -/
def Node.addr : Node → Nat
  | .mk a _ _ _ _ => a

/-- Field `ID`. -/
def Node.ID : Node → String
  | .mk _ i _ _ _ => i

/-- Field `Value` (`none` is the nil interface). -/
def Node.Value : Node → Option Nat
  | .mk _ _ v _ _ => v

/-- Field `Children`. -/
def Node.Children : Node → List Node
  | .mk _ _ _ c _ => c

/-- Field `Parent` (`none` is the nil pointer). -/
def Node.Parent : Node → Option Nat
  | .mk _ _ _ _ p => p

/-- The decimal text `fmt.Sprint` prints for a non-negative `int`. -/
def Sprint (i : Nat) : String :=
  Nat.repr i

/-- Allocation `newNode(value)` at a fresh address. -/
def newNode (addr : Nat) (value : Option Nat) : Node :=
  .mk addr "" value [] none

/-- Assignment `n.ID = ID`. -/
def Node.setID (n : Node) (ID : String) : Node :=
  .mk n.addr ID n.Value n.Children n.Parent

/-- Method `addChild`: sets the child's parent pointer and ID, appends it. -/
def Node.addChild (n child : Node) (index : Nat) : Node :=
  .mk n.addr n.ID n.Value
    (n.Children ++ [.mk child.addr (n.ID ++ Sprint index) child.Value child.Children
      (some n.addr)])
    n.Parent

mutual
/-- The recursive call `newTree(childValue.(NodeInterface), childValue, id)` on a
child object; `next` is the next free address, returned updated.  The result is
`none` when the call panics: in the type assertion of its first argument, in
`childMethod.Call(nil)`, or further down. -/
def newTreeObj (next : Nat) (o : Obj) (ID : String) : Option (Node × Nat) :=
  match o with
  | .mk _ .foreign _ => none
  | .mk v .slice es => newTreeLoop (next + 1) ((newNode next (some v)).setID ID) es 0
  | .mk _ .badAccessor _ => none
  | .mk v .accessor es => newTreeLoop (next + 1) ((newNode next (some v)).setID ID) es 0
  | .mk v .plain _ => some ((newNode next (some v)).setID ID, next + 1)
/-- The loop `for i := ...; i < Len(); i++` of `newTree` from index `i` on. -/
def newTreeLoop (next : Nat) (parentNode : Node) (elems : List Obj) (i : Nat) :
    Option (Node × Nat) :=
  match elems with
  | [] => some (parentNode, next)
  | childValue :: rest =>
    let id := parentNode.ID ++ Sprint i
    match newTreeObj next childValue id with
    | none => none
    | some r => newTreeLoop r.2 (parentNode.addChild r.1 i) rest (i + 1)
end

/-- Function `newTree(parent, childProvider, ID)` at the top level; `none` is a
panic. -/
def newTree (next : Nat) (parent : Option Nat) (childProvider : ChildProvider)
    (ID : String) : Option (Node × Nat) :=
  let parentNode := (newNode next parent).setID ID
  match childProvider with
  | .nil => some (parentNode, next + 1)
  | .slice es => newTreeLoop (next + 1) parentNode es 0
  | .badAccessor => none
  | .accessor es => newTreeLoop (next + 1) parentNode es 0
  | .plain => some (parentNode, next + 1)

mutual
/-- Method `find`: the first node in depth-first order whose ID is `id`. -/
def Node.find (n : Node) (id : String) : Option Node :=
  match n with
  | .mk a i v cs p => if i = id then some (.mk a i v cs p) else Node.findIn cs id
/-- The loop of `find` over the children. -/
def Node.findIn (cs : List Node) (id : String) : Option Node :=
  match cs with
  | [] => none
  | c :: rest =>
    match Node.find c id with
    | some r => some r
    | none => Node.findIn rest id
end

mutual
/-- Dereference of a node pointer: the node allocated at address `a` in the tree
under `n`. -/
def Node.lookup (n : Node) (a : Nat) : Option Node :=
  match n with
  | .mk b i v cs p => if b = a then some (.mk b i v cs p) else Node.lookupIn cs a
/-- Lookup of an address among a list of subtrees. -/
def Node.lookupIn (cs : List Node) (a : Nat) : Option Node :=
  match cs with
  | [] => none
  | c :: rest =>
    match Node.lookup c a with
    | some r => some r
    | none => Node.lookupIn rest a
end

/-- Dereference of a possibly nil pointer in the memory `mem`; nil panics. -/
def Node.deref (mem : Node) (p : Option Nat) : Option Node :=
  p.bind (fun a => mem.lookup a)

/-- Method `isRoot`. -/
def Node.isRoot (n : Node) : Bool :=
  n.Parent.isNone

/-- Method `isLeaf`. -/
def Node.isLeaf (n : Node) : Bool :=
  n.Children.length == 0

/-- The loop of `next` over `n.Parent.Children` from index `i` on (`rest` is the
part of `siblings` not yet visited). -/
def Node.nextLoop (siblings : List Node) (id : String) : List Node → Nat → Option Node
  | [], _ => none
  | c :: rest, i =>
    if c.ID = id then
      if i = siblings.length - 1 then none else siblings[i + 1]?
    else Node.nextLoop siblings id rest (i + 1)

/-- Method `next` in the memory `mem`; the outer `none` is a panic, the inner one
the nil result. -/
def Node.next (n : Node) (mem : Node) : Option (Option Node) :=
  match mem.deref n.Parent with
  | none => none
  | some parent => some (Node.nextLoop parent.Children n.ID parent.Children 0)

/-- The loop of `previous` over `n.Parent.Children` from index `i` on. -/
def Node.previousLoop (siblings : List Node) (id : String) :
    List Node → Nat → Option Node
  | [], _ => none
  | c :: rest, i =>
    if c.ID = id then
      if i = 0 then none else siblings[i - 1]?
    else Node.previousLoop siblings id rest (i + 1)

/-- Method `previous` in the memory `mem`; the outer `none` is a panic, the inner
one the nil result. -/
def Node.previous (n : Node) (mem : Node) : Option (Option Node) :=
  if n.isRoot then some none
  else
    match mem.deref n.Parent with
    | none => none
    | some parent => some (Node.previousLoop parent.Children n.ID parent.Children 0)

/-- Method `Node.Update`: calls `Update` on the node's value; a nil value panics. -/
def Node.Update {V : Type} [NodeInterface V] (n : Node) (objs : Nat → V) :
    Option (Nat → V) :=
  match n.Value with
  | none => none
  | some r => some (Function.update objs r (NodeInterface.Update (objs r)))

/-! ## The session -/

/-- The model `CLITree`: the root node and the cursor. -/
structure CLITree where
  tree : Node
  cursor : String

/-- Function `NewTree`; a panic of `newTree` is passed on, and indexing
`tree.Children[0]` of an empty list panics. -/
def NewTree (childProvider : ChildProvider) : Option CLITree :=
  match newTree 0 none childProvider "" with
  | none => none
  | some r =>
    let tree := r.1
    match tree.Children with
    | [] => none
    | c :: _ => some ⟨tree, c.ID⟩

/-- A message of the runtime: a key press, given by its `String()`, or anything
else. -/
inductive Msg where
  | KeyMsg (key : String)
  | other

/-- The commands `Update` returns besides nil. -/
inductive Cmd where
  | Quit
deriving DecidableEq, Repr

/-- Method `CLITree.Update` on the object store `objs`: the new store, the new
model and the command; `none` is a panic. -/
def CLITree.Update {V : Type} [NodeInterface V] (objs : Nat → V) (m : CLITree)
    (msg : Msg) : Option ((Nat → V) × CLITree × Option Cmd) :=
  match msg with
  | .KeyMsg key =>
    let curr := m.tree.find m.cursor
    if key = "ctrl+c" ∨ key = "q" ∨ key = "enter" then
      some (objs, m, some .Quit)
    else if key = "up" ∨ key = "k" then
      match curr with
      | none => none
      | some curr =>
        match curr.previous m.tree with
        | none => none
        | some none => some (objs, m, none)
        | some (some previous) => some (objs, { m with cursor := previous.ID }, none)
    else if key = "down" ∨ key = "j" then
      match curr with
      | none => none
      | some curr =>
        match curr.next m.tree with
        | none => none
        | some none => some (objs, m, none)
        | some (some previous) => some (objs, { m with cursor := previous.ID }, none)
    else if key = "l" ∨ key = "right" then
      match curr with
      | none => none
      | some curr =>
        if curr.isLeaf then
          match curr.Update objs with
          | none => none
          | some objs1 => some (objs1, m, none)
        else
          match curr.Children with
          | [] => none
          | c :: _ => some (objs, { m with cursor := c.ID }, none)
    else if key = "delete" ∨ key = "left" ∨ key = "h" ∨ key = "backspace" then
      match curr with
      | none => none
      | some curr =>
        match m.tree.deref curr.Parent with
        | none => none
        | some parent =>
          if parent.isRoot then some (objs, m, none)
          else some (objs, { m with cursor := parent.ID }, none)
    else some (objs, m, none)
  | .other => some (objs, m, none)

/-! ## The renderer -/

/-- Constant `SPACE`. -/
def SPACE : String :=
  " "

/-- Call `n.Value.Name()`; a nil value panics. -/
def Node.Name {V : Type} [NodeInterface V] (n : Node) (objs : Nat → V) : Option String :=
  n.Value.map (fun r => NodeInterface.Name (objs r))

/-- Call `n.Value.Print()`; a nil value panics. -/
def Node.Print {V : Type} [NodeInterface V] (n : Node) (objs : Nat → V) : Option String :=
  n.Value.map (fun r => NodeInterface.Print (objs r))

/-- Method `branch` in the memory `mem`, with `fuel` bounding the number of calls
(`none` when the bound is hit or on a panic). -/
def Node.branch (n : Node) (mem : Node) (fuel : Nat) : Option Node :=
  match fuel with
  | 0 => none
  | fuel + 1 =>
    match mem.deref n.Parent with
    | none => none
    | some parent => if parent.isRoot then some n else parent.branch mem fuel

/-- Function `getDirectAncestors`. -/
def getDirectAncestors (mem : Node) (n : Node) : Option (List Node) :=
  match mem.deref n.Parent with
  | none => none
  | some parent =>
    if parent.isRoot then some n.Children
    else
      match mem.deref parent.Parent with
      | none => none
      | some grand => some grand.Children

/-- The loop of `biggestAncestor`: `len` of a string is its number of bytes. -/
def biggestLoop {V : Type} [NodeInterface V] (objs : Nat → V) :
    Node → List Node → Option Node
  | identNode, [] => some identNode
  | identNode, sibling :: rest =>
    match sibling.Name objs, identNode.Name objs with
    | some s, some i =>
      if s.utf8ByteSize > i.utf8ByteSize then biggestLoop objs sibling rest
      else biggestLoop objs identNode rest
    | _, _ => none

/-- Function `biggestAncestor`. -/
def biggestAncestor {V : Type} [NodeInterface V] (objs : Nat → V) (mem : Node) (n : Node) :
    Option Node :=
  match getDirectAncestors mem n with
  | none => none
  | some directAncestors =>
    match mem.deref n.Parent with
    | none => none
    | some identNode => biggestLoop objs identNode directAncestors

/-- Function `sameSizeStrWhiteSpaces`: `for range s` runs once for each character. -/
def sameSizeStrWhiteSpaces (s : String) : String :=
  s.data.foldl (fun ret _ => ret ++ SPACE) " "

/-- Function `identation`. -/
def identation {V : Type} [NodeInterface V] (objs : Nat → V) (mem : Node) (n : Node) :
    Option String :=
  match mem.deref n.Parent with
  | none => none
  | some parent =>
    if parent.isRoot then some ""
    else
      match biggestAncestor objs mem n with
      | none => none
      | some identationNode => (identationNode.Name objs).map sameSizeStrWhiteSpaces

/-- Function `parentIdentation`: the loop runs `len(identation)-len(Name())-1`
times, not at all when that is negative. -/
def parentIdentation {V : Type} [NodeInterface V] (objs : Nat → V) (n : Node)
    (identation : String) : Option String :=
  if n.isRoot then some ""
  else
    match n.Name objs with
    | none => none
    | some name =>
      some ((List.range (identation.utf8ByteSize - name.utf8ByteSize - 1)).foldl
        (fun parentIdentation _ => parentIdentation ++ SPACE) "")

/-- Function `recursiveIdentation`, with `fuel` bounding the depth of the calls. -/
def recursiveIdentation {V : Type} [NodeInterface V] (objs : Nat → V) (mem : Node)
    (fuel : Nat) (n : Node) : Option String :=
  match fuel with
  | 0 => none
  | fuel + 1 =>
    match mem.deref n.Parent with
    | none => none
    | some parent =>
      if parent.isRoot then some ""
      else
        match biggestAncestor objs mem n with
        | none => none
        | some identationNode =>
          match recursiveIdentation objs mem fuel identationNode, identationNode.Name objs with
          | some identation, some name => some (identation ++ sameSizeStrWhiteSpaces name)
          | _, _ => none

mutual
/-- Function `displayChildren`; `fuel` is passed to `recursiveIdentation`. -/
def displayChildren {V : Type} [NodeInterface V] (objs : Nat → V) (mem : Node) (fuel : Nat)
    (cursor : String) (n : Node) : Option String :=
  match n with
  | .mk a i v cs p =>
    let ret := if i = cursor then ">" else " "
    if cs.length == 0 then
      ((Node.mk a i v cs p).Print objs).map (fun pr => ret ++ pr ++ "\n")
    else
      (displayLoop objs mem fuel cursor (.mk a i v cs p) cs 0 ret).map (fun r => r ++ "\n")
/-- The loop of `displayChildren` over the children of `n` from index `i` on. -/
def displayLoop {V : Type} [NodeInterface V] (objs : Nat → V) (mem : Node) (fuel : Nat)
    (cursor : String) (n : Node) (children : List Node) (i : Nat) (ret : String) :
    Option String :=
  match children with
  | [] => some ret
  | child :: rest =>
    match displayChildren objs mem fuel cursor child with
    | none => none
    | some name =>
      if i = 0 then
        match identation objs mem child, mem.deref child.Parent with
        | some identation, some parent =>
          match parentIdentation objs parent identation, n.Print objs with
          | some parentIdentation, some pr =>
            displayLoop objs mem fuel cursor n rest (i + 1) (ret ++ (pr ++ parentIdentation ++ name))
          | _, _ => none
        | _, _ => none
      else
        match recursiveIdentation objs mem fuel child with
        | none => none
        | some identation =>
          displayLoop objs mem fuel cursor n rest (i + 1) (ret ++ (identation ++ name))
end

/-- The loop of `View` over the top-level nodes. -/
def viewLoop {V : Type} [NodeInterface V] (objs : Nat → V) (mem : Node) (fuel : Nat)
    (cursor : String) (curr : Option Node) : List Node → String → Option String
  | [], s => some s
  | choice :: rest, s =>
    match curr with
    | none => none
    | some c =>
      match c.branch mem fuel with
      | none => none
      | some b =>
        if choice.ID = b.ID then
          match displayChildren objs mem fuel cursor choice with
          | none => none
          | some d => viewLoop objs mem fuel cursor curr rest (s ++ (d ++ "\n"))
        else
          match choice.Name objs with
          | none => none
          | some name => viewLoop objs mem fuel cursor curr rest (s ++ ("" ++ " " ++ name ++ "\n"))

/-- Method `CLITree.View`. -/
def CLITree.View {V : Type} [NodeInterface V] (objs : Nat → V) (fuel : Nat) (m : CLITree) :
    Option String :=
  (viewLoop objs m.tree fuel m.cursor (m.tree.find m.cursor) m.tree.Children
    ("Select items: " ++ m.cursor ++ " \n\n")).map
    (fun s => s ++ "\nPress q or ctrl-c to quit.\n")

/-! ## Measures used by the statements on the renderer -/

/-- A run of `k` spaces. -/
def spaces (k : Nat) : String :=
  ⟨List.replicate k ' '⟩

mutual
/-- Number of levels of the tree under `n`, `n` included. -/
def Node.height : Node → Nat
  | .mk _ _ _ cs _ => 1 + Node.heightIn cs
/-- Greatest height among the trees of a list. -/
def Node.heightIn : List Node → Nat
  | [] => 0
  | c :: cs => max c.height (Node.heightIn cs)
end

/-! ## Paths, sizes and the closed form of the builder -/

/-- The node reached from `n` along a path of child indices. -/
def Node.get? : Node → List Nat → Option Node
  | n, [] => some n
  | n, i :: p => (n.Children[i]?).bind (fun c => Node.get? c p)

mutual
/-- The input is one `newTree` takes without a panic: no discovered object is
`foreign` or has a `Children` method whose call panics. -/
def Obj.sound : Obj → Bool
  | .mk _ .slice es => soundAll es
  | .mk _ .accessor es => soundAll es
  | .mk _ .plain _ => true
  | .mk _ .badAccessor _ => false
  | .mk _ .foreign _ => false
/-- Every object of the sequence is one `newTree` takes without a panic. -/
def soundAll : List Obj → Bool
  | [] => true
  | e :: es => e.sound && soundAll es
end

/-- The top-level input is one `newTree` takes without a panic. -/
def ChildProvider.sound : ChildProvider → Bool
  | .nil => true
  | .slice es => soundAll es
  | .accessor es => soundAll es
  | .plain => true
  | .badAccessor => false

mutual
/-- The node `newTreeObj` returns when it returns: the same recursion without the
panics (an object `newTree` panics on is given a node without children). -/
def buildTreeObj (next : Nat) (o : Obj) (ID : String) : Node × Nat :=
  match o with
  | .mk v .slice es => buildTreeLoop (next + 1) ((newNode next (some v)).setID ID) es 0
  | .mk v .accessor es => buildTreeLoop (next + 1) ((newNode next (some v)).setID ID) es 0
  | .mk v .plain _ => ((newNode next (some v)).setID ID, next + 1)
  | .mk v .badAccessor _ => ((newNode next (some v)).setID ID, next + 1)
  | .mk v .foreign _ => ((newNode next (some v)).setID ID, next + 1)
/-- The node `newTreeLoop` returns when it returns. -/
def buildTreeLoop (next : Nat) (parentNode : Node) (elems : List Obj) (i : Nat) :
    Node × Nat :=
  match elems with
  | [] => (parentNode, next)
  | childValue :: rest =>
    let id := parentNode.ID ++ Sprint i
    let r := buildTreeObj next childValue id
    buildTreeLoop r.2 (parentNode.addChild r.1 i) rest (i + 1)
end

/-- The node `newTree` returns when it returns. -/
def buildTree (next : Nat) (parent : Option Nat) (childProvider : ChildProvider)
    (ID : String) : Node × Nat :=
  let parentNode := (newNode next parent).setID ID
  match childProvider with
  | .nil => (parentNode, next + 1)
  | .slice es => buildTreeLoop (next + 1) parentNode es 0
  | .accessor es => buildTreeLoop (next + 1) parentNode es 0
  | .plain => (parentNode, next + 1)
  | .badAccessor => (parentNode, next + 1)

mutual
/-- Number of nodes the builder allocates for an object. -/
def Obj.size : Obj → Nat
  | .mk _ .slice es => 1 + sizeAll es
  | .mk _ .accessor es => 1 + sizeAll es
  | .mk _ .plain _ => 1
  | .mk _ .badAccessor _ => 1
  | .mk _ .foreign _ => 1
/-- Number of nodes the builder allocates for a sequence of objects. -/
def sizeAll : List Obj → Nat
  | [] => 0
  | e :: es => e.size + sizeAll es
end

mutual
/-- Closed form of the node built for object `o` at address `a`, once attached
under a parent pointer `par`. -/
def layout (a : Nat) (par : Option Nat) (o : Obj) (ID : String) : Node :=
  match o with
  | .mk v .slice es => .mk a ID (some v) (layoutAll (a + 1) a es ID 0) par
  | .mk v .accessor es => .mk a ID (some v) (layoutAll (a + 1) a es ID 0) par
  | .mk v .plain _ => .mk a ID (some v) [] par
  | .mk v .badAccessor _ => .mk a ID (some v) [] par
  | .mk v .foreign _ => .mk a ID (some v) [] par
/-- Closed form of the children built from index `i` on for the parent at address
`pa` with ID `pid`, allocating from address `a`. -/
def layoutAll (a : Nat) (pa : Nat) (es : List Obj) (pid : String) (i : Nat) : List Node :=
  match es with
  | [] => []
  | e :: rest => layout a (some pa) e (pid ++ Sprint i) :: layoutAll (a + e.size) pa rest pid (i + 1)
end

mutual
/-- Addresses of the nodes of a tree, in depth-first order. -/
def Node.addrs : Node → List Nat
  | .mk a _ _ cs _ => a :: Node.addrsIn cs
/-- Addresses of the nodes of a list of trees. -/
def Node.addrsIn : List Node → List Nat
  | [] => []
  | c :: cs => c.addrs ++ Node.addrsIn cs
end

/-! ## The path of `find` -/

mutual
/-- The path of the node `find` returns: the first node in depth-first order whose
ID is `id`. -/
def Node.findPath (n : Node) (id : String) : Option (List Nat) :=
  match n with
  | .mk _ i _ cs _ => if i = id then some [] else Node.findPathIn cs id 0
/-- The path of the node the loop of `find` returns, the children being numbered
from `k` on. -/
def Node.findPathIn (cs : List Node) (id : String) (k : Nat) : Option (List Nat) :=
  match cs with
  | [] => none
  | c :: rest =>
    match Node.findPath c id with
    | some t => some (k :: t)
    | none => Node.findPathIn rest id (k + 1)
end

/-! ## Inputs with at most ten children per node -/

mutual
/-- No object under `o`, `o` included, has more than ten discovered children. -/
def Obj.fanoutOK : Obj → Bool
  | .mk _ .slice es => decide (es.length ≤ 10) && fanoutAll es
  | .mk _ .accessor es => decide (es.length ≤ 10) && fanoutAll es
  | .mk _ .plain _ => true
  | .mk _ .badAccessor _ => true
  | .mk _ .foreign _ => true
/-- No object under the objects of a sequence has more than ten discovered
children. -/
def fanoutAll : List Obj → Bool
  | [] => true
  | e :: es => e.fanoutOK && fanoutAll es
end

/-- An input in which no node has more than ten children. -/
def ChildProvider.fanoutOK (cp : ChildProvider) : Bool :=
  decide (cp.children.length ≤ 10) && fanoutAll cp.children

/-- No node under `n`, `n` included, has more than ten children. -/
def Narrow (n : Node) : Prop :=
  ∀ (p : List Nat) (m : Node), n.get? p = some m → m.Children.length ≤ 10

/-! ## Invariants and reachable states -/

/-- Children of a node as `addChild` leaves them: the ID derived from the node's
ID and the index, the parent pointer set to the node, a non-nil value. -/
def ChildrenOK (n : Node) : Prop :=
  ∀ (i : Nat) (c : Node), n.Children[i]? = some c →
    c.ID = n.ID ++ Sprint i ∧ c.Parent = some n.addr ∧ c.Value ≠ none

/-- Every node under `n` has children as `addChild` leaves them. -/
def SubOK (n : Node) : Prop :=
  ∀ (p : List Nat) (m : Node), n.get? p = some m → ChildrenOK m

/-- Invariant of the tree a session holds: the root has the empty ID and no parent,
every node's children are as `addChild` leaves them, and no two nodes share an
address. -/
structure WellFormed (root : Node) : Prop where
  rootID : root.ID = ""
  rootParent : root.Parent = none
  children : ∀ (p : List Nat) (n : Node), root.get? p = some n → ChildrenOK n
  addrs : root.addrs.Nodup

/-- Cursor invariant: the cursor resolves, through `find`, to a node of the tree
that sits off the root. -/
def CursorOK (m : CLITree) : Prop :=
  ∃ (p : List Nat) (curr : Node), p ≠ [] ∧ m.tree.get? p = some curr ∧
    m.tree.find m.cursor = some curr

/-- Invariant of a session state: a well-formed tree and a cursor that resolves
off the root. -/
def Inv (m : CLITree) : Prop :=
  WellFormed m.tree ∧ CursorOK m

/-- The node at path `p` is the node `find` returns for its ID. -/
def Canon (root : Node) (p : List Nat) : Prop :=
  ∃ n, root.get? p = some n ∧ root.findPath n.ID = some p

/-- Along the path `p`, every node and every earlier sibling of it is the node
`find` returns for its ID. -/
def GoodPath (root : Node) (p : List Nat) : Prop :=
  ∀ (t : List Nat) (k j : Nat), t ++ [k] <+: p → j ≤ k → Canon root (t ++ [j])

/-- Invariant of the reachable states: the tree is well formed, and the path `find`
follows for the cursor leads off the root, through nodes that are, with their
earlier siblings, the nodes `find` returns for their IDs. -/
def Good (m : CLITree) : Prop :=
  WellFormed m.tree ∧
    ∃ p : List Nat, p ≠ [] ∧ GoodPath m.tree p ∧ m.tree.findPath m.cursor = some p

/-- The states a session goes through: the one `NewTree` returns for the input
`cp`, and every state `Update` returns from one of them. -/
inductive Reachable {V : Type} [NodeInterface V] (cp : ChildProvider) :
    (Nat → V) → CLITree → Prop where
  | start (objs : Nat → V) (m : CLITree) : NewTree cp = some m → Reachable cp objs m
  | step (objs objs1 : Nat → V) (m m1 : CLITree) (msg : Msg) (cmd : Option Cmd) :
      Reachable cp objs m → m.Update objs msg = some (objs1, m1, cmd) →
      Reachable cp objs1 m1

/-! ## The sample hierarchy of `cmd/menu.go` -/

/-- The state of a sample object: a `Namespace`, a `Secrets` or a `Values`. -/
inductive MenuObj where
  | Namespace (name : String)
  | Secrets (name : String)
  | Values (name : String) (Selected : Bool)
deriving DecidableEq, Repr

/-- Method `Name` of the three sample types. -/
def MenuObj.Name : MenuObj → String
  | .Namespace name => name
  | .Secrets name => name
  | .Values name true => name ++ " (x)"
  | .Values name false => name ++ " ( )"

/-- Method `Update` of the three sample types: only `Values` toggles `Selected`. -/
def MenuObj.Update : MenuObj → MenuObj
  | .Namespace name => .Namespace name
  | .Secrets name => .Secrets name
  | .Values name sel => .Values name (!sel)

/-- The sample types as `NodeInterface`.  `Print` is `Name` passed through a
lipgloss style, a library outside the repository; the style is taken to add no
printable text. -/
instance : NodeInterface MenuObj where
  Name := MenuObj.Name
  Print := MenuObj.Name
  Update := MenuObj.Update

/-- The object store of `namespaceCmd`: two namespaces, each with one `Secrets`
holding two `Values`, nothing selected. -/
def menuObjs : Nat → MenuObj
  | 0 => .Namespace "namespace 1"
  | 1 => .Secrets "secrets"
  | 2 => .Values "value1" false
  | 3 => .Values "value2" false
  | 4 => .Namespace "namespace 2"
  | 5 => .Secrets "secrets"
  | 6 => .Values "valu3" false
  | _ => .Values "value4" false

/-- The slice `namespace` that `namespaceCmd` passes to `NewTree`: `*Namespace` and
`*Secrets` have a `Children` method, `*Values` has none. -/
def menu : ChildProvider :=
  .slice
    [.mk 0 .accessor [.mk 1 .accessor [.mk 2 .plain [], .mk 3 .plain []]],
     .mk 4 .accessor [.mk 5 .accessor [.mk 6 .plain [], .mk 7 .plain []]]]

/-- The state `NewTree` returns for `menu`, an input without a failing object. -/
def menuStart : CLITree :=
  ⟨(buildTree 0 none menu "").1, "0"⟩

/-- The keys of the scenario: descend, activate, next sibling, activate, ascend,
ascend, next sibling, quit. -/
def scenarioKeys : List Msg :=
  [.KeyMsg "right", .KeyMsg "right", .KeyMsg "down", .KeyMsg "right", .KeyMsg "left",
   .KeyMsg "left", .KeyMsg "down", .KeyMsg "q"]

/-- The store of the sample menu once `value2` is selected. -/
def menuObjsAfter : Nat → MenuObj :=
  Function.update menuObjs 3 (NodeInterface.Update (menuObjs 3))

/-- The store of the sample menu once `value1` is selected. -/
def menuObjsOne : Nat → MenuObj :=
  Function.update menuObjs 2 (NodeInterface.Update (menuObjs 2))

/-- The store of the sample menu once `value1` and `value2` are selected. -/
def menuObjsBoth : Nat → MenuObj :=
  Function.update menuObjsOne 3 (NodeInterface.Update (menuObjsOne 3))

/-! ## Inputs with more than ten children -/

/-- An object without a `Children` accessor. -/
def leafObj (v : Nat) : Obj :=
  .mk v .plain []

/-- Eleven top-level objects, the second of which has three children. -/
def elevenItems : ChildProvider :=
  .slice
    [leafObj 0, .mk 1 .accessor [leafObj 11, leafObj 12, leafObj 13], leafObj 2, leafObj 3,
     leafObj 4, leafObj 5, leafObj 6, leafObj 7, leafObj 8, leafObj 9, leafObj 10]

/-- An object store for `elevenItems`: every object an unselected `Values`. -/
def elevenObjs : Nat → MenuObj :=
  fun _ => .Values "item" false

/-- The state `NewTree` returns for `elevenItems`, an input without a failing
object. -/
def elevenStart : CLITree :=
  ⟨(buildTree 0 none elevenItems "").1, "0"⟩

/-- A run of the session: `Update` applied to the messages in turn; `none` when a
step panics. -/
def run {V : Type} [NodeInterface V] (objs : Nat → V) (m : CLITree) :
    List Msg → Option ((Nat → V) × CLITree)
  | [] => some (objs, m)
  | msg :: rest =>
    match m.Update objs msg with
    | none => none
    | some r => run r.1 r.2.1 rest

/-! # Lemmas and theorems -/

/-! ## Decimal printing -/

theorem toDigitsCore_acc (fuel : Nat) : ∀ (n : Nat) (ds : List Char),
    Nat.toDigitsCore 10 fuel n ds = Nat.toDigitsCore 10 fuel n [] ++ ds := by
  induction fuel with
  | zero => intro n ds; simp [Nat.toDigitsCore]
  | succ f ih =>
    intro n ds
    simp only [Nat.toDigitsCore]
    by_cases h : n / 10 = 0
    · simp [h]
    · simp only [h, if_false]
      rw [ih (n / 10) (Nat.digitChar (n % 10) :: ds), ih (n / 10) [Nat.digitChar (n % 10)]]
      simp

theorem toDigitsCore_fuel (f1 : Nat) : ∀ (f2 n : Nat) (ds : List Char), n < f1 → n < f2 →
    Nat.toDigitsCore 10 f1 n ds = Nat.toDigitsCore 10 f2 n ds := by
  induction f1 with
  | zero => intro f2 n ds h; omega
  | succ f ih =>
    intro f2 n ds h1 h2
    cases f2 with
    | zero => omega
    | succ g =>
      simp only [Nat.toDigitsCore]
      by_cases h0 : n / 10 = 0
      · simp [h0]
      · simp only [h0, if_false]
        exact ih g (n / 10) _ (by omega) (by omega)

theorem toDigits_small (n : Nat) (h : n < 10) : Nat.toDigits 10 n = [Nat.digitChar n] := by
  unfold Nat.toDigits
  simp only [Nat.toDigitsCore]
  have h0 : n / 10 = 0 := by omega
  have h1 : n % 10 = n := by omega
  simp [h0, h1]

theorem toDigits_big (n : Nat) (h : 10 ≤ n) :
    Nat.toDigits 10 n = Nat.toDigits 10 (n / 10) ++ [Nat.digitChar (n % 10)] := by
  have h0 : ¬ n / 10 = 0 := by omega
  conv_lhs => unfold Nat.toDigits
  simp only [Nat.toDigitsCore, h0, if_false]
  rw [toDigitsCore_acc]
  congr 1
  unfold Nat.toDigits
  exact toDigitsCore_fuel _ _ _ _ (by omega) (by omega)

theorem toDigits_ne_nil (n : Nat) : Nat.toDigits 10 n ≠ [] := by
  by_cases h : n < 10
  · simp [toDigits_small n h]
  · rw [toDigits_big n (by omega)]; simp

theorem digitChar_inj (a b : Nat) (ha : a < 10) (hb : b < 10)
    (h : Nat.digitChar a = Nat.digitChar b) : a = b := by
  interval_cases a <;> interval_cases b <;> first | rfl | (exfalso; revert h; decide)

theorem toDigits_inj : ∀ (n m : Nat), Nat.toDigits 10 n = Nat.toDigits 10 m → n = m := by
  intro n
  induction n using Nat.strong_induction_on with
  | _ n ih =>
    intro m h
    by_cases hn : n < 10
    · by_cases hm : m < 10
      · rw [toDigits_small n hn, toDigits_small m hm] at h
        exact digitChar_inj n m hn hm (by simpa using h)
      · rw [toDigits_small n hn, toDigits_big m (by omega)] at h
        have h2 := congrArg List.length h
        have h3 : (Nat.toDigits 10 (m / 10)).length ≠ 0 := by
          intro hl; exact toDigits_ne_nil (m / 10) (List.length_eq_zero.mp hl)
        simp only [List.length_append, List.length_cons, List.length_nil] at h2
        omega
    · by_cases hm : m < 10
      · rw [toDigits_small m hm, toDigits_big n (by omega)] at h
        have h2 := congrArg List.length h
        have h3 : (Nat.toDigits 10 (n / 10)).length ≠ 0 := by
          intro hl; exact toDigits_ne_nil (n / 10) (List.length_eq_zero.mp hl)
        simp only [List.length_append, List.length_cons, List.length_nil] at h2
        omega
      · rw [toDigits_big n (by omega), toDigits_big m (by omega)] at h
        have h1 := List.append_inj' h (by simp)
        have e1 := ih (n / 10) (by omega) (m / 10) h1.1
        have e2 := digitChar_inj (n % 10) (m % 10) (Nat.mod_lt _ (by omega))
          (Nat.mod_lt _ (by omega)) (by simpa using h1.2)
        omega

theorem Sprint_injective (i j : Nat) (h : Sprint i = Sprint j) : i = j := by
  unfold Sprint Nat.repr at h
  apply toDigits_inj
  have := congrArg String.data h
  simpa [List.asString] using this

theorem Sprint_ne_empty (i : Nat) : Sprint i ≠ "" := by
  unfold Sprint Nat.repr
  intro h
  have := congrArg String.data h
  exact toDigits_ne_nil i (by simpa [List.asString] using this)

theorem String.append_left_cancel (s a b : String) (h : s ++ a = s ++ b) : a = b := by
  have := congrArg String.data h
  simp at this
  exact String.ext this

theorem String.append_ne_self (s a : String) (ha : a ≠ "") : s ++ a ≠ s := by
  intro h
  apply ha
  have := congrArg String.data h
  simp at this
  exact String.ext (by simpa using this)

/-! ## The builder in closed form -/

theorem Node.induct {P : Node → Prop}
    (h : ∀ a i v cs p, (∀ c ∈ cs, P c) → P (.mk a i v cs p)) (n : Node) : P n :=
  @Node.rec P (fun cs => ∀ c ∈ cs, P c)
    (fun a i v cs p ih => h a i v cs p ih)
    (by intro c hc; cases hc)
    (fun c cs ihc ihcs => by
      intro d hd
      rcases List.mem_cons.mp hd with rfl | hd
      · exact ihc
      · exact ihcs d hd) n

theorem Obj.induct_elems {P : Obj → Prop}
    (h : ∀ v s es, (∀ e ∈ es, P e) → P (.mk v s es)) (o : Obj) : P o :=
  @Obj.rec P (fun es => ∀ e ∈ es, P e)
    (fun v s es ih => h v s es ih)
    (by intro c hc; cases hc)
    (fun c cs ihc ihcs => by
      intro d hd
      rcases List.mem_cons.mp hd with rfl | hd
      · exact ihc
      · exact ihcs d hd) o

theorem layout_fields (a : Nat) (par : Option Nat) (o : Obj) (ID : String) :
    (layout a par o ID).addr = a ∧ (layout a par o ID).ID = ID ∧
    (layout a par o ID).Value = some o.value ∧ (layout a par o ID).Parent = par ∧
    (layout a par o ID).Children = layoutAll (a + 1) a o.children ID 0 := by
  cases o with
  | mk v s es =>
    cases s <;> simp [layout, Node.addr, Node.ID, Node.Value, Node.Parent, Node.Children,
      Obj.value, Obj.children, Obj.provider, ChildProvider.children, layoutAll]

theorem layout_eq (a : Nat) (par : Option Nat) (o : Obj) (ID : String) :
    layout a par o ID = .mk a ID (some o.value) (layoutAll (a + 1) a o.children ID 0) par := by
  cases o with
  | mk v s es =>
    cases s <;> simp [layout, Obj.value, Obj.children, Obj.provider, ChildProvider.children, layoutAll]

theorem Obj.size_eq (o : Obj) : o.size = 1 + sizeAll o.children := by
  cases o with
  | mk v s es =>
    cases s <;> simp [Obj.size, Obj.children, Obj.provider, ChildProvider.children, sizeAll]

theorem buildTreeLoop_eq (es : List Obj)
    (ih : ∀ e ∈ es, ∀ a ID, buildTreeObj a e ID = (layout a none e ID, a + e.size)) :
    ∀ (a : Nat) (pn : Node) (i : Nat), buildTreeLoop a pn es i =
      (.mk pn.addr pn.ID pn.Value (pn.Children ++ layoutAll a pn.addr es pn.ID i) pn.Parent,
        a + sizeAll es) := by
  induction es with
  | nil => intro a pn i; cases pn; simp [buildTreeLoop, layoutAll, sizeAll, Node.addr, Node.ID, Node.Value, Node.Children, Node.Parent]
  | cons e rest ihr =>
    intro a pn i
    rw [buildTreeLoop]
    rw [ih e (List.mem_cons_self _ _)]
    rw [ihr (fun e he => ih e (List.mem_cons_of_mem _ he))]
    simp only [layoutAll, sizeAll]
    rw [layout_eq a none, layout_eq a (some pn.addr)]
    simp [Node.addChild, Node.addr, Node.ID, Node.Value, Node.Children, Node.Parent, Nat.add_assoc]

theorem buildTreeObj_eq (o : Obj) : ∀ a ID, buildTreeObj a o ID = (layout a none o ID, a + o.size) := by
  induction o using Obj.induct_elems with
  | h v s es ih =>
    intro a ID
    cases s
    · rw [buildTreeObj, buildTreeLoop_eq es ih]
      simp [layout, Obj.size, newNode, Node.setID, Node.addr, Node.ID, Node.Value, Node.Children, Node.Parent, Nat.add_assoc]
    · rw [buildTreeObj, buildTreeLoop_eq es ih]
      simp [layout, Obj.size, newNode, Node.setID, Node.addr, Node.ID, Node.Value, Node.Children, Node.Parent, Nat.add_assoc]
    · simp [buildTreeObj, layout, Obj.size, newNode, Node.setID, Node.addr, Node.ID, Node.Value, Node.Children, Node.Parent]
    · simp [buildTreeObj, layout, Obj.size, newNode, Node.setID, Node.addr, Node.ID, Node.Value, Node.Children, Node.Parent]
    · simp [buildTreeObj, layout, Obj.size, newNode, Node.setID, Node.addr, Node.ID, Node.Value, Node.Children, Node.Parent]

theorem buildTree_eq (a : Nat) (parent : Option Nat) (cp : ChildProvider) (ID : String) :
    buildTree a parent cp ID =
      (.mk a ID parent (layoutAll (a + 1) a cp.children ID 0) none, a + 1 + sizeAll cp.children) := by
  cases cp <;>
    simp [buildTree, buildTreeLoop_eq _ (fun e _ => buildTreeObj_eq e), ChildProvider.children, layoutAll,
      sizeAll, newNode, Node.setID, Node.addr, Node.ID, Node.Value, Node.Children, Node.Parent]

/-! ## The builder returns exactly on the inputs without a failing object -/

theorem newTreeLoop_eq (es : List Obj)
    (ih : ∀ e ∈ es, ∀ a ID,
      newTreeObj a e ID = if e.sound = true then some (buildTreeObj a e ID) else none) :
    ∀ (a : Nat) (pn : Node) (i : Nat), newTreeLoop a pn es i =
      if soundAll es = true then some (buildTreeLoop a pn es i) else none := by
  induction es with
  | nil => intro a pn i; simp [newTreeLoop, buildTreeLoop, soundAll]
  | cons e rest ihr =>
    intro a pn i
    rw [newTreeLoop, buildTreeLoop, soundAll]
    simp only [ih e (List.mem_cons_self _ _)]
    cases he : e.sound with
    | false => simp
    | true =>
      simp only [if_true, Bool.true_and]
      exact ihr (fun e he => ih e (List.mem_cons_of_mem _ he)) _ _ _

/-- Function `newTreeObj` returns exactly on the objects without a failing object
under them, and then the node of `buildTreeObj`. -/
theorem newTreeObj_eq (o : Obj) : ∀ a ID,
    newTreeObj a o ID = if o.sound = true then some (buildTreeObj a o ID) else none := by
  induction o using Obj.induct_elems with
  | h v s es ih =>
    intro a ID
    cases s
    · rw [newTreeObj, buildTreeObj, Obj.sound]
      exact newTreeLoop_eq es ih _ _ _
    · rw [newTreeObj, buildTreeObj, Obj.sound]
      exact newTreeLoop_eq es ih _ _ _
    · simp [newTreeObj, buildTreeObj, Obj.sound]
    · simp [newTreeObj, Obj.sound]
    · simp [newTreeObj, Obj.sound]

/-- Function `newTree` returns exactly on the inputs without a failing object, and
then the node of `buildTree`. -/
theorem newTree_eq (a : Nat) (parent : Option Nat) (cp : ChildProvider) (ID : String) :
    newTree a parent cp ID =
      if cp.sound = true then some (buildTree a parent cp ID) else none := by
  cases cp with
  | nil => simp [newTree, buildTree, ChildProvider.sound]
  | slice es =>
    simp only [newTree, buildTree, ChildProvider.sound]
    exact newTreeLoop_eq es (fun e _ => newTreeObj_eq e) _ _ _
  | accessor es =>
    simp only [newTree, buildTree, ChildProvider.sound]
    exact newTreeLoop_eq es (fun e _ => newTreeObj_eq e) _ _ _
  | plain => simp [newTree, buildTree, ChildProvider.sound]
  | badAccessor => simp [newTree, ChildProvider.sound]

theorem newTree_some (a : Nat) (parent : Option Nat) (cp : ChildProvider) (ID : String)
    (r : Node × Nat) (h : newTree a parent cp ID = some r) :
    cp.sound = true ∧ r = buildTree a parent cp ID := by
  rw [newTree_eq] at h
  cases hs : cp.sound with
  | false => simp [hs] at h
  | true =>
    simp only [hs, if_true, Option.some.injEq] at h
    exact ⟨rfl, h.symm⟩

theorem newTree_of_sound (a : Nat) (parent : Option Nat) (cp : ChildProvider) (ID : String)
    (h : cp.sound = true) : newTree a parent cp ID = some (buildTree a parent cp ID) := by
  rw [newTree_eq, h]; rfl

/-- Function `NewTree` on an input without a failing object. -/
theorem NewTree_of_sound (cp : ChildProvider) (h : cp.sound = true) :
    NewTree cp =
      match (buildTree 0 none cp "").1.Children with
      | [] => none
      | c :: _ => some ⟨(buildTree 0 none cp "").1, c.ID⟩ := by
  unfold NewTree
  rw [newTree_of_sound 0 none cp "" h]

theorem NewTree_sound (cp : ChildProvider) (m : CLITree) (h : NewTree cp = some m) :
    cp.sound = true := by
  unfold NewTree at h
  cases hn : newTree 0 none cp "" with
  | none => simp [hn] at h
  | some r => exact (newTree_some 0 none cp "" r hn).1

/-! ## Generic facts on trees -/

@[simp] theorem Node.get?_nil (n : Node) : n.get? [] = some n := by
  cases n; rfl

theorem Node.get?_cons (n : Node) (i : Nat) (p : List Nat) :
    n.get? (i :: p) = (n.Children[i]?).bind (fun c => c.get? p) := by
  cases n; rfl

theorem Node.get?_append (n : Node) (p q : List Nat) :
    n.get? (p ++ q) = (n.get? p).bind (fun m => m.get? q) := by
  induction p generalizing n with
  | nil => simp
  | cons i p ih =>
    simp only [List.cons_append, Node.get?_cons]
    cases h : n.Children[i]? with
    | none => simp
    | some c => simp [ih]

theorem Node.get?_snoc (n m : Node) (p : List Nat) (i : Nat) (h : n.get? p = some m) :
    n.get? (p ++ [i]) = m.Children[i]? := by
  rw [Node.get?_append, h]
  simp only [Option.some_bind, Node.get?_cons]
  cases m.Children[i]? <;> simp

theorem Node.eta (n : Node) : Node.mk n.addr n.ID n.Value n.Children n.Parent = n := by
  cases n; rfl

theorem Node.find_eq (n : Node) (id : String) :
    n.find id = if n.ID = id then some n else Node.findIn n.Children id := by
  cases n; simp [Node.find, Node.ID, Node.Children]

theorem Node.lookup_eq (n : Node) (a : Nat) :
    n.lookup a = if n.addr = a then some n else Node.lookupIn n.Children a := by
  cases n; simp [Node.lookup, Node.addr, Node.Children]

theorem Node.addrs_eq (n : Node) : n.addrs = n.addr :: Node.addrsIn n.Children := by
  cases n; simp [Node.addrs, Node.addr, Node.Children]

theorem Node.findIn_some (cs : List Node) (id : String) (r : Node)
    (h : Node.findIn cs id = some r) :
    ∃ (k : Nat) (c : Node), cs[k]? = some c ∧ c.find id = some r := by
  induction cs with
  | nil => simp [Node.findIn] at h
  | cons c rest ih =>
    rw [Node.findIn] at h
    cases hc : c.find id with
    | some r1 =>
      rw [hc] at h
      exact ⟨0, c, by simp, by simpa [hc] using h⟩
    | none =>
      rw [hc] at h
      obtain ⟨k, d, hk, hd⟩ := ih h
      exact ⟨k + 1, d, by simpa using hk, hd⟩

theorem Node.findIn_isSome (cs : List Node) (id : String) (k : Nat) (c : Node)
    (hk : cs[k]? = some c) (hc : (c.find id).isSome) : (Node.findIn cs id).isSome := by
  induction cs generalizing k with
  | nil => simp at hk
  | cons d rest ih =>
    rw [Node.findIn]
    cases hd : d.find id with
    | some r1 => simp
    | none =>
      cases k with
      | zero =>
        simp at hk
        subst hk
        simp [hd] at hc
      | succ k => exact ih k (by simpa using hk)

/-- What `find` returns carries the ID asked for and sits in the tree. -/
theorem Node.find_some (n : Node) : ∀ (id : String) (r : Node), n.find id = some r →
    r.ID = id ∧ ∃ p, n.get? p = some r := by
  induction n using Node.induct with
  | h a i v cs p ih =>
    intro id r h
    rw [Node.find_eq] at h
    by_cases e : (Node.mk a i v cs p).ID = id
    · simp only [e, if_true, Option.some.injEq] at h
      subst h
      exact ⟨e, [], by simp⟩
    · simp only [e, if_false] at h
      obtain ⟨k, c, hk, hc⟩ := Node.findIn_some _ _ _ h
      have hmem : c ∈ cs := List.getElem?_mem hk
      obtain ⟨h1, q, hq⟩ := ih c hmem id r hc
      refine ⟨h1, k :: q, ?_⟩
      rw [Node.get?_cons]
      simp only [Node.Children] at hk
      simp [Node.Children, hk, hq]

/-- Every ID present in the tree is found. -/
theorem Node.find_isSome (n : Node) : ∀ (p : List Nat) (m : Node), n.get? p = some m →
    (n.find m.ID).isSome := by
  induction n using Node.induct with
  | h a i v cs par ih =>
    intro p m h
    rw [Node.find_eq]
    by_cases e : (Node.mk a i v cs par).ID = m.ID
    · simp [e]
    · simp only [e, if_false]
      cases p with
      | nil => simp at h; subst h; exact absurd rfl e
      | cons k q =>
        rw [Node.get?_cons] at h
        cases hk : (Node.mk a i v cs par).Children[k]? with
        | none => simp [hk] at h
        | some c =>
          simp only [hk, Option.some_bind] at h
          have hmem : c ∈ cs := List.getElem?_mem hk
          exact Node.findIn_isSome _ _ k c hk (ih c hmem q m h)

theorem Node.mem_addrsIn (cs : List Node) (k : Nat) (c : Node) (hk : cs[k]? = some c)
    (a : Nat) (ha : a ∈ c.addrs) : a ∈ Node.addrsIn cs := by
  induction cs generalizing k with
  | nil => simp at hk
  | cons d rest ih =>
    rw [Node.addrsIn]
    cases k with
    | zero => simp at hk; subst hk; exact List.mem_append_left _ ha
    | succ k => exact List.mem_append_right _ (ih k (by simpa using hk))

theorem Node.addr_mem_addrs (n : Node) : ∀ (p : List Nat) (m : Node), n.get? p = some m →
    m.addr ∈ n.addrs := by
  induction n using Node.induct with
  | h a i v cs par ih =>
    intro p m h
    rw [Node.addrs_eq]
    cases p with
    | nil => simp at h; subst h; simp
    | cons k q =>
      rw [Node.get?_cons] at h
      cases hk : (Node.mk a i v cs par).Children[k]? with
      | none => simp [hk] at h
      | some c =>
        simp only [hk, Option.some_bind] at h
        have hmem : c ∈ cs := List.getElem?_mem hk
        exact List.mem_cons_of_mem _ (Node.mem_addrsIn _ k c hk _ (ih c hmem q m h))

theorem Node.lookupIn_none (cs : List Node) (a : Nat)
    (ih : ∀ c ∈ cs, a ∉ c.addrs → c.lookup a = none) (ha : a ∉ Node.addrsIn cs) :
    Node.lookupIn cs a = none := by
  induction cs with
  | nil => simp [Node.lookupIn]
  | cons d rest ihr =>
    rw [Node.addrsIn, List.mem_append, not_or] at ha
    rw [Node.lookupIn, ih d (List.mem_cons_self _ _) ha.1]
    exact ihr (fun c hc => ih c (List.mem_cons_of_mem _ hc)) ha.2

theorem Node.lookup_none (n : Node) : ∀ (a : Nat), a ∉ n.addrs → n.lookup a = none := by
  induction n using Node.induct with
  | h b i v cs par ih =>
    intro a ha
    rw [Node.addrs_eq, List.mem_cons, not_or] at ha
    rw [Node.lookup_eq]
    have hne : ¬ (Node.mk b i v cs par).addr = a := fun e => ha.1 e.symm
    simp only [hne, if_false]
    exact Node.lookupIn_none _ _ (fun c hc => ih c hc a) ha.2

theorem Node.lookupIn_get (cs : List Node) (hnd : (Node.addrsIn cs).Nodup)
    (ih : ∀ c ∈ cs, c.addrs.Nodup → ∀ q m, c.get? q = some m → c.lookup m.addr = some m)
    (k : Nat) (c : Node) (hk : cs[k]? = some c) (q : List Nat) (m : Node)
    (hm : c.get? q = some m) : Node.lookupIn cs m.addr = some m := by
  induction cs generalizing k with
  | nil => simp at hk
  | cons d rest ihr =>
    rw [Node.addrsIn] at hnd
    rw [Node.lookupIn]
    cases k with
    | zero =>
      simp at hk; subst hk
      rw [ih d (List.mem_cons_self _ _) (List.Nodup.of_append_left hnd) q m hm]
    | succ k =>
      have hk1 : rest[k]? = some c := by simpa using hk
      have hin : m.addr ∈ Node.addrsIn rest :=
        Node.mem_addrsIn rest k c hk1 _ (Node.addr_mem_addrs c q m hm)
      have hnot : m.addr ∉ d.addrs := fun hd =>
        (List.nodup_append.mp hnd).2.2 hd hin
      rw [Node.lookup_none d _ hnot]
      exact ihr (List.Nodup.of_append_right hnd)
        (fun c hc => ih c (List.mem_cons_of_mem _ hc)) k hk1

/-- With pairwise distinct addresses, a pointer to a node of the tree dereferences
to that node. -/
theorem Node.lookup_get (n : Node) : n.addrs.Nodup → ∀ (p : List Nat) (m : Node),
    n.get? p = some m → n.lookup m.addr = some m := by
  induction n using Node.induct with
  | h b i v cs par ih =>
    intro hnd p m h
    rw [Node.lookup_eq]
    cases p with
    | nil => simp at h; subst h; simp
    | cons k q =>
      rw [Node.get?_cons] at h
      rw [Node.addrs_eq] at hnd
      cases hk : (Node.mk b i v cs par).Children[k]? with
      | none => simp [hk] at h
      | some c =>
        simp only [hk, Option.some_bind] at h
        have hin : m.addr ∈ Node.addrsIn (Node.mk b i v cs par).Children :=
          Node.mem_addrsIn _ k c hk _ (Node.addr_mem_addrs c q m h)
        have hne : ¬ (Node.mk b i v cs par).addr = m.addr := by
          intro e
          exact (List.nodup_cons.mp hnd).1 (e ▸ hin)
        simp only [hne, if_false]
        exact Node.lookupIn_get _ (List.nodup_cons.mp hnd).2 (fun c hc => ih c hc) k c hk q m h

/-! ## The shape of the built tree -/

theorem Obj.induct_children {P : Obj → Prop}
    (h : ∀ o : Obj, (∀ e ∈ o.children, P e) → P o) (o : Obj) : P o := by
  induction o using Obj.induct_elems with
  | h v s es ih =>
    apply h
    intro e he
    cases s <;> simp [Obj.children, Obj.provider, ChildProvider.children] at he
    · exact ih e he
    · exact ih e he

@[simp] theorem Obj.get?_nil_obj (o : Obj) : o.get? [] = some o := by
  cases o; rfl

theorem Obj.get?_cons_obj (o : Obj) (i : Nat) (p : List Nat) :
    o.get? (i :: p) = (o.children[i]?).bind (fun c => c.get? p) := by
  cases o; rfl

theorem layoutAll_getElem? (es : List Obj) : ∀ (b pa : Nat) (pid : String) (i k : Nat),
    (layoutAll b pa es pid i)[k]? =
      (es[k]?).map (fun e => layout (b + sizeAll (es.take k)) (some pa) e (pid ++ Sprint (i + k))) := by
  induction es with
  | nil => intro b pa pid i k; simp [layoutAll]
  | cons e rest ih =>
    intro b pa pid i k
    rw [layoutAll]
    cases k with
    | zero => simp [sizeAll]
    | succ k =>
      simp only [List.getElem?_cons_succ, ih, List.take_succ_cons, sizeAll]
      cases rest[k]? with
      | none => simp
      | some x => simp [Nat.add_assoc, Nat.add_comm 1 k]

theorem layoutAll_length (es : List Obj) : ∀ (b pa : Nat) (pid : String) (i : Nat),
    (layoutAll b pa es pid i).length = es.length := by
  induction es with
  | nil => intro b pa pid i; simp [layoutAll]
  | cons e rest ih => intro b pa pid i; simp [layoutAll, ih]

theorem addrsIn_layoutAll (es : List Obj)
    (ih : ∀ e ∈ es, ∀ a par ID, (layout a par e ID).addrs = List.range' a e.size) :
    ∀ (b pa : Nat) (pid : String) (i : Nat),
      Node.addrsIn (layoutAll b pa es pid i) = List.range' b (sizeAll es) := by
  induction es with
  | nil => intro b pa pid i; simp [layoutAll, Node.addrsIn, sizeAll]
  | cons e rest ihr =>
    intro b pa pid i
    rw [layoutAll, Node.addrsIn, ih e (List.mem_cons_self _ _),
      ihr (fun e he => ih e (List.mem_cons_of_mem _ he)), sizeAll]
    rw [List.range'_append_1, Nat.add_comm]

theorem addrs_layout (o : Obj) : ∀ (a : Nat) (par : Option Nat) (ID : String),
    (layout a par o ID).addrs = List.range' a o.size := by
  induction o using Obj.induct_children with
  | h o ih =>
    intro a par ID
    rw [layout_eq, Node.addrs, addrsIn_layoutAll _ ih, Obj.size_eq, Nat.add_comm 1,
      List.range'_succ]

/-- A node of the built tree wraps the object it was built from: same value,
same number of children. -/
theorem layout_get? (o : Obj) : ∀ (a : Nat) (par : Option Nat) (ID : String) (p : List Nat),
    ((layout a par o ID).get? p).map (fun n => (n.Value, n.Children.length)) =
      (o.get? p).map (fun x => (some x.value, x.children.length)) := by
  induction o using Obj.induct_children with
  | h o ih =>
    intro a par ID p
    cases p with
    | nil => simp [layout_eq, Node.Value, Node.Children, layoutAll_length]
    | cons k q =>
      rw [Node.get?_cons, Obj.get?_cons_obj, (layout_fields a par o ID).2.2.2.2, layoutAll_getElem?]
      cases hk : o.children[k]? with
      | none => simp
      | some e =>
        simp only [Option.map_some', Option.some_bind]
        exact ih e (List.getElem?_mem hk) _ _ _ q

theorem childrenOK_of_layoutAll (n : Node) (es : List Obj)
    (h : n.Children = layoutAll (n.addr + 1) n.addr es n.ID 0) : ChildrenOK n := by
  intro i c hc
  rw [h, layoutAll_getElem?] at hc
  cases hk : es[i]? with
  | none => simp [hk] at hc
  | some e =>
    simp only [hk, Option.map_some', Option.some.injEq] at hc
    subst hc
    have hf := layout_fields (n.addr + 1 + sizeAll (List.take i es)) (some n.addr) e
      (n.ID ++ Sprint (0 + i))
    simp only [Nat.zero_add] at hf
    simp [hf.2.1, hf.2.2.1, hf.2.2.2.1]

theorem layout_childrenOK (o : Obj) : ∀ (a : Nat) (par : Option Nat) (ID : String)
    (p : List Nat) (n : Node), (layout a par o ID).get? p = some n → ChildrenOK n := by
  induction o using Obj.induct_children with
  | h o ih =>
    intro a par ID p n h
    cases p with
    | nil =>
      simp at h
      subst h
      have hf := layout_fields a par o ID
      apply childrenOK_of_layoutAll _ o.children
      rw [hf.2.2.2.2, hf.1, hf.2.1]
    | cons k q =>
      rw [Node.get?_cons, (layout_fields a par o ID).2.2.2.2, layoutAll_getElem?] at h
      cases hk : o.children[k]? with
      | none => simp [hk] at h
      | some e =>
        simp only [hk, Option.map_some', Option.some_bind] at h
        exact ih e (List.getElem?_mem hk) _ _ _ q n h

/-! ## Well-formedness of the built tree -/

theorem buildTree_wellFormed (cp : ChildProvider) : WellFormed (buildTree 0 none cp "").1 := by
  rw [buildTree_eq]
  refine ⟨rfl, rfl, ?_, ?_⟩
  · intro p n h
    cases p with
    | nil =>
      simp at h
      subst h
      exact childrenOK_of_layoutAll _ cp.children rfl
    | cons k q =>
      rw [Node.get?_cons] at h
      simp only [Node.Children, layoutAll_getElem?] at h
      cases hk : cp.children[k]? with
      | none => simp [hk] at h
      | some e =>
        simp only [hk, Option.map_some', Option.some_bind] at h
        exact layout_childrenOK e _ _ _ q n h
  · simp only [Node.addrs]
    rw [addrsIn_layoutAll _ (fun e _ => addrs_layout e), ← List.range'_succ]
    exact List.nodup_range' _ _

theorem newTree_wellFormed (cp : ChildProvider) (root : Node) (next : Nat)
    (hb : newTree 0 none cp "" = some (root, next)) : WellFormed root := by
  have h := (newTree_some 0 none cp "" (root, next) hb).2
  have hr : root = (buildTree 0 none cp "").1 := congrArg Prod.fst h
  rw [hr]
  exact buildTree_wellFormed cp

theorem newTree_menu : newTree 0 none menu "" = some (menuStart.tree, 9) := by
  rw [newTree_of_sound 0 none menu "" (by decide), buildTree_eq]
  rfl

theorem NewTree_eleven : NewTree elevenItems = some elevenStart := by
  rw [NewTree_of_sound elevenItems (by decide)]
  rfl

theorem NewTree_tree (cp : ChildProvider) (m : CLITree) (h : NewTree cp = some m) :
    m.tree = (buildTree 0 none cp "").1 ∧
      ∃ c, m.tree.Children[0]? = some c ∧ m.cursor = c.ID := by
  rw [NewTree_of_sound cp (NewTree_sound cp m h)] at h
  cases hc : (buildTree 0 none cp "").1.Children with
  | nil => simp [hc] at h
  | cons c rest =>
    simp only [hc, Option.some.injEq] at h
    subst h
    exact ⟨rfl, c, by simp [hc], rfl⟩

theorem NewTree_isSome (cp : ChildProvider) (hs : cp.sound = true) (h : cp.children ≠ []) :
    ∃ m, NewTree cp = some m := by
  rw [NewTree_of_sound cp hs]
  simp only [buildTree_eq, Node.Children]
  cases hc : cp.children with
  | nil => exact absurd hc h
  | cons e rest => simp [layoutAll]

/-! ## Navigation in a well-formed tree -/

theorem String.append_ne_empty (s t : String) (ht : t ≠ "") : s ++ t ≠ "" := by
  intro h
  apply ht
  have := congrArg String.data h
  simp at this
  exact String.ext (by simpa using this.2)

theorem List.exists_snoc_of_ne_nil {α : Type} (p : List α) (h : p ≠ []) :
    ∃ q i, p = q ++ [i] :=
  ⟨p.dropLast, p.getLast h, (List.dropLast_append_getLast h).symm⟩

/-- A node off the root: its parent node, seen through the path, the parent
pointer and the ID. -/
theorem WellFormed.parent {root : Node} (wf : WellFormed root) (q : List Nat) (i : Nat)
    (c : Node) (h : root.get? (q ++ [i]) = some c) :
    ∃ par, root.get? q = some par ∧ par.Children[i]? = some c ∧
      c.Parent = some par.addr ∧ root.deref c.Parent = some par ∧
      c.ID = par.ID ++ Sprint i ∧ c.Value ≠ none := by
  rw [Node.get?_append] at h
  cases hq : root.get? q with
  | none => simp [hq] at h
  | some par =>
    simp only [hq, Option.some_bind, Node.get?_cons] at h
    cases hi : par.Children[i]? with
    | none => simp [hi] at h
    | some d =>
      simp only [hi, Option.some_bind, Node.get?_nil, Option.some.injEq] at h
      subst h
      obtain ⟨h1, h2, h3⟩ := wf.children q par hq i d hi
      refine ⟨par, rfl, hi, h2, ?_, h1, h3⟩
      rw [h2]
      simp only [Node.deref, Option.some_bind]
      exact Node.lookup_get root wf.addrs q par hq

theorem WellFormed.id_ne_empty {root : Node} (wf : WellFormed root) (p : List Nat)
    (n : Node) (h : root.get? p = some n) (hp : p ≠ []) : n.ID ≠ "" := by
  obtain ⟨q, i, rfl⟩ := List.exists_snoc_of_ne_nil p hp
  obtain ⟨par, -, -, -, -, hid, -⟩ := wf.parent q i n h
  rw [hid]
  exact String.append_ne_empty _ _ (Sprint_ne_empty i)

theorem WellFormed.isRoot_false {root : Node} (wf : WellFormed root) (p : List Nat)
    (n : Node) (h : root.get? p = some n) (hp : p ≠ []) : n.isRoot = false := by
  obtain ⟨q, i, rfl⟩ := List.exists_snoc_of_ne_nil p hp
  obtain ⟨par, -, -, hpar, -, -, -⟩ := wf.parent q i n h
  simp [Node.isRoot, hpar]

/-- In a well-formed tree the ID of a node off the root resolves to a node off the
root. -/
theorem WellFormed.find_off_root {root : Node} (wf : WellFormed root) (p : List Nat)
    (n : Node) (h : root.get? p = some n) (hp : p ≠ []) :
    ∃ r q, root.find n.ID = some r ∧ q ≠ [] ∧ root.get? q = some r ∧ r.ID = n.ID := by
  have hs := Node.find_isSome root p n h
  cases hf : root.find n.ID with
  | none => simp [hf] at hs
  | some r =>
    obtain ⟨hid, q, hq⟩ := Node.find_some root n.ID r hf
    refine ⟨r, q, rfl, ?_, hq, hid⟩
    rintro rfl
    simp at hq
    subst hq
    exact wf.id_ne_empty p n h hp (hid ▸ wf.rootID)

theorem Node.nextLoop_mem (siblings : List Node) (id : String) (rest : List Node) (i : Nat)
    (d : Node) (h : Node.nextLoop siblings id rest i = some d) : ∃ j : Nat, siblings[j]? = some d := by
  induction rest generalizing i with
  | nil => simp [Node.nextLoop] at h
  | cons c rest ih =>
    rw [Node.nextLoop] at h
    split at h
    · split at h
      · simp at h
      · exact ⟨i + 1, h⟩
    · exact ih (i + 1) h

theorem Node.previousLoop_mem (siblings : List Node) (id : String) (rest : List Node) (i : Nat)
    (d : Node) (h : Node.previousLoop siblings id rest i = some d) :
    ∃ j : Nat, siblings[j]? = some d := by
  induction rest generalizing i with
  | nil => simp [Node.previousLoop] at h
  | cons c rest ih =>
    rw [Node.previousLoop] at h
    split at h
    · split at h
      · simp at h
      · exact ⟨i - 1, h⟩
    · exact ih (i + 1) h

/-! ## The transitions of `Update` -/

variable {V : Type} [NodeInterface V]

theorem Update_other (objs : Nat → V) (m : CLITree) :
    m.Update objs .other = some (objs, m, none) := rfl

theorem Update_quit (objs : Nat → V) (m : CLITree) (key : String)
    (h : key = "ctrl+c" ∨ key = "q" ∨ key = "enter") :
    m.Update objs (.KeyMsg key) = some (objs, m, some .Quit) := by
  simp [CLITree.Update, h]

theorem Update_up (objs : Nat → V) (m : CLITree) (key : String)
    (h : key = "up" ∨ key = "k") :
    m.Update objs (.KeyMsg key) =
      match m.tree.find m.cursor with
      | none => none
      | some curr =>
        match curr.previous m.tree with
        | none => none
        | some none => some (objs, m, none)
        | some (some previous) => some (objs, { m with cursor := previous.ID }, none) := by
  rcases h with rfl | rfl <;> simp [CLITree.Update]

theorem Update_down (objs : Nat → V) (m : CLITree) (key : String)
    (h : key = "down" ∨ key = "j") :
    m.Update objs (.KeyMsg key) =
      match m.tree.find m.cursor with
      | none => none
      | some curr =>
        match curr.next m.tree with
        | none => none
        | some none => some (objs, m, none)
        | some (some previous) => some (objs, { m with cursor := previous.ID }, none) := by
  rcases h with rfl | rfl <;> simp [CLITree.Update]

theorem Update_right (objs : Nat → V) (m : CLITree) (key : String)
    (h : key = "l" ∨ key = "right") :
    m.Update objs (.KeyMsg key) =
      match m.tree.find m.cursor with
      | none => none
      | some curr =>
        if curr.isLeaf then
          match curr.Update objs with
          | none => none
          | some objs1 => some (objs1, m, none)
        else
          match curr.Children with
          | [] => none
          | c :: _ => some (objs, { m with cursor := c.ID }, none) := by
  rcases h with rfl | rfl <;> simp [CLITree.Update]

theorem Update_left (objs : Nat → V) (m : CLITree) (key : String)
    (h : key = "delete" ∨ key = "left" ∨ key = "h" ∨ key = "backspace") :
    m.Update objs (.KeyMsg key) =
      match m.tree.find m.cursor with
      | none => none
      | some curr =>
        match m.tree.deref curr.Parent with
        | none => none
        | some parent =>
          if parent.isRoot then some (objs, m, none)
          else some (objs, { m with cursor := parent.ID }, none) := by
  rcases h with rfl | rfl | rfl | rfl <;> simp [CLITree.Update]

theorem Update_ignored (objs : Nat → V) (m : CLITree) (key : String)
    (h1 : ¬ (key = "ctrl+c" ∨ key = "q" ∨ key = "enter"))
    (h2 : ¬ (key = "up" ∨ key = "k")) (h3 : ¬ (key = "down" ∨ key = "j"))
    (h4 : ¬ (key = "l" ∨ key = "right"))
    (h5 : ¬ (key = "delete" ∨ key = "left" ∨ key = "h" ∨ key = "backspace")) :
    m.Update objs (.KeyMsg key) = some (objs, m, none) := by
  simp only [CLITree.Update, h1, h2, h3, h4, h5, if_false]

/-! ## The cursor invariant -/

/-- The current node of a state that satisfies the invariant, with its parent. -/
theorem Inv.curr {m : CLITree} (hI : Inv m) :
    ∃ (q : List Nat) (i : Nat) (curr par : Node),
      m.tree.find m.cursor = some curr ∧ m.tree.get? (q ++ [i]) = some curr ∧
      m.tree.get? q = some par ∧ par.Children[i]? = some curr ∧
      curr.Parent = some par.addr ∧ m.tree.deref curr.Parent = some par ∧
      curr.ID = par.ID ++ Sprint i ∧ curr.Value ≠ none ∧ curr.isRoot = false ∧
      curr.ID = m.cursor := by
  obtain ⟨wf, p, curr, hp, hget, hfind⟩ := hI
  obtain ⟨q, i, rfl⟩ := List.exists_snoc_of_ne_nil p hp
  obtain ⟨par, h1, h2, h3, h4, h5, h6⟩ := wf.parent q i curr hget
  exact ⟨q, i, curr, par, hfind, hget, h1, h2, h3, h4, h5, h6,
    wf.isRoot_false _ _ hget hp, (Node.find_some _ _ _ hfind).1⟩

/-- Moving the cursor to the ID of a node off the root keeps the invariant. -/
theorem Inv.move {m : CLITree} (hI : Inv m) (p : List Nat) (n : Node)
    (h : m.tree.get? p = some n) (hp : p ≠ []) : Inv { m with cursor := n.ID } := by
  obtain ⟨r, q, h1, h2, h3, -⟩ := hI.1.find_off_root p n h hp
  exact ⟨hI.1, q, r, h2, h3, h1⟩

theorem Node.previous_eq (n mem par : Node) (h1 : n.isRoot = false)
    (h2 : mem.deref n.Parent = some par) :
    n.previous mem = some (Node.previousLoop par.Children n.ID par.Children 0) := by
  simp [Node.previous, h1, h2]

theorem Node.next_eq (n mem par : Node) (h2 : mem.deref n.Parent = some par) :
    n.next mem = some (Node.nextLoop par.Children n.ID par.Children 0) := by
  simp [Node.next, h2]

theorem WellFormed.root_isRoot {root : Node} (wf : WellFormed root) : root.isRoot = true := by
  simp [Node.isRoot, wf.rootParent]

/-- From a state that satisfies the invariant `Update` never panics, keeps the
tree and lands in a state that satisfies the invariant. -/
theorem Inv.step {m : CLITree} (hI : Inv m) (objs : Nat → V) (msg : Msg) :
    ∃ objs1 m1 cmd, m.Update objs msg = some (objs1, m1, cmd) ∧ m1.tree = m.tree ∧ Inv m1 := by
  obtain ⟨q, i, curr, par, hfind, hget, hpar, hchild, hparent, hderef, hid, hval, hroot, -⟩ :=
    hI.curr
  cases msg with
  | other => exact ⟨objs, m, none, rfl, rfl, hI⟩
  | KeyMsg key =>
    by_cases h1 : key = "ctrl+c" ∨ key = "q" ∨ key = "enter"
    · exact ⟨objs, m, some .Quit, Update_quit objs m key h1, rfl, hI⟩
    by_cases h2 : key = "up" ∨ key = "k"
    · rw [Update_up objs m key h2, hfind]
      simp only [Node.previous_eq curr m.tree par hroot hderef]
      cases hl : Node.previousLoop par.Children curr.ID par.Children 0 with
      | none => exact ⟨objs, m, none, rfl, rfl, hI⟩
      | some d =>
        obtain ⟨j, hj⟩ := Node.previousLoop_mem _ _ _ _ _ hl
        refine ⟨objs, _, none, rfl, rfl, hI.move (q ++ [j]) d ?_ (by simp)⟩
        rw [Node.get?_snoc _ _ _ _ hpar, hj]
    by_cases h3 : key = "down" ∨ key = "j"
    · rw [Update_down objs m key h3, hfind]
      simp only [Node.next_eq curr m.tree par hderef]
      cases hl : Node.nextLoop par.Children curr.ID par.Children 0 with
      | none => exact ⟨objs, m, none, rfl, rfl, hI⟩
      | some d =>
        obtain ⟨j, hj⟩ := Node.nextLoop_mem _ _ _ _ _ hl
        refine ⟨objs, _, none, rfl, rfl, hI.move (q ++ [j]) d ?_ (by simp)⟩
        rw [Node.get?_snoc _ _ _ _ hpar, hj]
    by_cases h4 : key = "l" ∨ key = "right"
    · rw [Update_right objs m key h4, hfind]
      simp only
      by_cases hleaf : curr.isLeaf = true
      · cases hv : curr.Value with
        | none => exact absurd hv hval
        | some r =>
          simp only [hleaf, if_true, Node.Update, hv]
          exact ⟨_, m, none, rfl, rfl, hI⟩
      · simp only [hleaf]
        cases hc : curr.Children with
        | nil => simp [Node.isLeaf, hc] at hleaf
        | cons c rest =>
          refine ⟨objs, _, none, rfl, rfl, hI.move ((q ++ [i]) ++ [0]) c ?_ (by simp)⟩
          rw [Node.get?_snoc _ _ _ _ hget, hc]
          simp
    by_cases h5 : key = "delete" ∨ key = "left" ∨ key = "h" ∨ key = "backspace"
    · rw [Update_left objs m key h5, hfind]
      simp only [hderef]
      by_cases hr : par.isRoot = true
      · simp only [hr, if_true]
        exact ⟨objs, m, none, rfl, rfl, hI⟩
      · simp only [hr]
        refine ⟨objs, _, none, rfl, rfl, hI.move q par hpar ?_⟩
        rintro rfl
        simp at hpar
        subst hpar
        exact hr hI.1.root_isRoot
    · exact ⟨objs, m, none, Update_ignored objs m key h1 h2 h3 h4 h5, rfl, hI⟩

/-- The state `NewTree` returns satisfies the invariant. -/
theorem NewTree_inv (cp : ChildProvider) (m : CLITree) (h : NewTree cp = some m) : Inv m := by
  obtain ⟨ht, c, hc, hcur⟩ := NewTree_tree cp m h
  have wf : WellFormed m.tree := ht ▸ buildTree_wellFormed cp
  have hget : m.tree.get? [0] = some c := by
    rw [Node.get?_cons, hc]; simp
  obtain ⟨r, q, h1, h2, h3, -⟩ := wf.find_off_root [0] c hget (by simp)
  exact ⟨wf, q, r, h2, h3, hcur ▸ h1⟩

/-- Every reachable state satisfies the invariant. -/
theorem Reachable.inv {cp : ChildProvider} {objs : Nat → V} {m : CLITree}
    (h : Reachable cp objs m) : Inv m := by
  induction h with
  | start objs m h => exact NewTree_inv cp m h
  | step objs objs1 m m1 msg cmd _ hstep ih =>
    obtain ⟨o2, m2, c2, h2, -, hI⟩ := ih.step objs msg
    rw [h2] at hstep
    simp only [Option.some.injEq, Prod.mk.injEq] at hstep
    rw [← hstep.2.1]
    exact hI

/-! ## Runs -/

theorem run_cons (objs o1 : Nat → V) (m m1 : CLITree) (msg : Msg) (cmd : Option Cmd)
    (rest : List Msg) (h : m.Update objs msg = some (o1, m1, cmd)) :
    run objs m (msg :: rest) = run o1 m1 rest := by
  simp [run, h]

/-- A run from a state that satisfies the invariant never panics and ends in a
state that satisfies the invariant, on the same tree. -/
theorem Inv.run {m : CLITree} (hI : Inv m) (msgs : List Msg) : ∀ (objs : Nat → V),
    ∃ objs1 m1, run objs m msgs = some (objs1, m1) ∧ m1.tree = m.tree ∧ Inv m1 := by
  induction msgs generalizing m with
  | nil => intro objs; exact ⟨objs, m, rfl, rfl, hI⟩
  | cons msg rest ih =>
    intro objs
    obtain ⟨o1, m1, cmd, h1, h2, h3⟩ := hI.step objs msg
    obtain ⟨o2, m2, h4, h5, h6⟩ := ih h3 o1
    exact ⟨o2, m2, by rw [run_cons objs o1 m m1 msg cmd rest h1, h4], h5.trans h2, h6⟩

theorem run_append (objs o1 : Nat → V) (m m1 : CLITree) (xs ys : List Msg)
    (h : run objs m xs = some (o1, m1)) : run objs m (xs ++ ys) = run o1 m1 ys := by
  induction xs generalizing objs m with
  | nil =>
    simp only [run, Option.some.injEq, Prod.mk.injEq] at h
    rw [← h.1, ← h.2]; rfl
  | cons x xs ih =>
    rw [run] at h
    rw [List.cons_append, run]
    cases hu : m.Update objs x with
    | none => simp [hu] at h
    | some r =>
      simp only [hu] at h ⊢
      exact ih _ _ h

/-- The end of a run from a reachable state is reachable. -/
theorem Reachable.of_run {cp : ChildProvider} (msgs : List Msg) :
    ∀ (objs objs1 : Nat → V) (m m1 : CLITree), Reachable cp objs m →
      run objs m msgs = some (objs1, m1) → Reachable cp objs1 m1 := by
  induction msgs with
  | nil =>
    intro objs objs1 m m1 hr h
    simp only [run, Option.some.injEq, Prod.mk.injEq] at h
    rw [← h.1, ← h.2]
    exact hr
  | cons msg rest ih =>
    intro objs objs1 m m1 hr h
    rw [run] at h
    cases hu : m.Update objs msg with
    | none => simp [hu] at h
    | some r =>
      obtain ⟨o2, m2, cmd⟩ := r
      simp only [hu] at h
      exact ih o2 objs1 m2 m1 (Reachable.step objs o2 m m2 msg cmd hr hu) h

/-! ## C1: IDs are not unique -/

/-- C1 (the code breaks it): in the tree `NewTree` builds for eleven top-level
objects, the second of which has three children, the node at path 1,0 (address 3)
and the node at path 10 (address 14) are two nodes with the same ID "10". -/
theorem c1_id_collision :
    NewTree elevenItems = some elevenStart ∧
    (elevenStart.tree.get? [1, 0]).map (fun n => (n.addr, n.ID)) = some (3, "10") ∧
    (elevenStart.tree.get? [10]).map (fun n => (n.addr, n.ID)) = some (14, "10") := by
  refine ⟨NewTree_eleven, ?_, ?_⟩ <;> decide

/-! ## C2: the ID of a child -/

theorem String.data_prefix_append (s t : String) : s.data <+: (s ++ t).data := by
  rw [String.data_append]
  exact List.prefix_append _ _

/-- C2: in the tree of a session `NewTree` returns, the root has the empty ID, and
a node that is child `i` of a node `par` has the ID of `par` followed by the
decimal text of `i`; its parent pointer leads to `par`, the ID of `par` is a strict
prefix of its ID, and no other child of `par` has its ID. -/
theorem c2_child_id (cp : ChildProvider) (m : CLITree) (h : NewTree cp = some m)
    (p : List Nat) (i : Nat) (hc : (m.tree.get? (p ++ [i])).isSome = true) :
    m.tree.ID = "" ∧
    ∃ par c, m.tree.get? p = some par ∧ par.Children[i]? = some c ∧
      m.tree.get? (p ++ [i]) = some c ∧
      c.ID = par.ID ++ Sprint i ∧
      m.tree.deref c.Parent = some par ∧
      (par.ID.data <+: c.ID.data ∧ par.ID ≠ c.ID) ∧
      ∀ (j : Nat) (d : Node), par.Children[j]? = some d → j ≠ i → d.ID ≠ c.ID := by
  have wf : WellFormed m.tree := (NewTree_inv cp m h).1
  refine ⟨wf.rootID, ?_⟩
  cases hg : m.tree.get? (p ++ [i]) with
  | none => simp [hg] at hc
  | some c =>
    obtain ⟨par, h1, h2, -, h4, h5, -⟩ := wf.parent p i c hg
    refine ⟨par, c, h1, h2, rfl, h5, h4, ⟨?_, ?_⟩, ?_⟩
    · rw [h5]; exact String.data_prefix_append _ _
    · rw [h5]; exact (String.append_ne_self _ _ (Sprint_ne_empty i)).symm
    · intro j d hd hji hdc
      have h6 := (wf.children p par h1 j d hd).1
      rw [h5, h6] at hdc
      exact hji (Sprint_injective j i (String.append_left_cancel _ _ _ hdc))

/-- Witness of C2: the second value under the first `Secrets` of the sample menu. -/
theorem c2_child_id_witness :
    NewTree menu = some menuStart ∧ (menuStart.tree.get? ([0, 0] ++ [1])).isSome = true ∧
    menuStart.tree.ID = "" ∧
    ∃ par c, menuStart.tree.get? [0, 0] = some par ∧ par.Children[1]? = some c ∧
      menuStart.tree.get? ([0, 0] ++ [1]) = some c ∧
      c.ID = par.ID ++ Sprint 1 ∧
      menuStart.tree.deref c.Parent = some par ∧
      (par.ID.data <+: c.ID.data ∧ par.ID ≠ c.ID) ∧
      ∀ (j : Nat) (d : Node), par.Children[j]? = some d → j ≠ 1 → d.ID ≠ c.ID :=
  ⟨rfl, by decide, c2_child_id menu menuStart rfl [0, 0] 1 (by decide)⟩

/-! ## C3: the built tree mirrors the input -/

theorem Obj.children_isEmpty (o : Obj) (hs : o.sound = true) :
    (o.children.length == 0) = (decide (o.shape = Shape.plain) || o.elems.isEmpty) := by
  cases o with
  | mk v s es =>
    cases s <;> cases es <;>
      simp [Obj.children, Obj.provider, ChildProvider.children, Obj.shape, Obj.elems,
        Obj.sound] at hs ⊢

theorem soundAll_getElem? (es : List Obj) (hs : soundAll es = true) :
    ∀ (i : Nat) (e : Obj), es[i]? = some e → e.sound = true := by
  induction es with
  | nil => intro i e h; simp at h
  | cons d rest ih =>
    intro i e h
    rw [soundAll, Bool.and_eq_true] at hs
    cases i with
    | zero =>
      simp at h
      subst h
      exact hs.1
    | succ i => exact ih hs.2 i e (by simpa using h)

theorem Obj.sound_children (o : Obj) (hs : o.sound = true) : soundAll o.children = true := by
  cases o with
  | mk v s es =>
    cases s <;>
      simp [Obj.children, Obj.provider, ChildProvider.children, Obj.sound, soundAll] at hs ⊢ <;>
      exact hs

theorem ChildProvider.sound_elems (cp : ChildProvider) (hs : cp.sound = true) :
    soundAll cp.children = true := by
  cases cp <;>
    simp [ChildProvider.children, ChildProvider.sound, soundAll] at hs ⊢ <;>
    exact hs

theorem Obj.get?_sound : ∀ (p : List Nat) (o e : Obj), o.sound = true → o.get? p = some e →
    e.sound = true := by
  intro p
  induction p with
  | nil =>
    intro o e hs h
    simp [Obj.get?] at h
    subst h
    exact hs
  | cons i p ih =>
    intro o e hs h
    rw [Obj.get?] at h
    cases hc : o.children[i]? with
    | none => simp [hc] at h
    | some c =>
      simp only [hc, Option.some_bind] at h
      exact ih c e (soundAll_getElem? _ (o.sound_children hs) i c hc) h

theorem objAt_sound (os : List Obj) (hs : soundAll os = true) (p : List Nat) (e : Obj)
    (h : objAt os p = some e) : e.sound = true := by
  cases p with
  | nil => simp [objAt] at h
  | cons i p =>
    rw [objAt] at h
    cases hc : os[i]? with
    | none => simp [hc] at h
    | some c =>
      simp only [hc, Option.some_bind] at h
      exact Obj.get?_sound p c e (soundAll_getElem? os hs i c hc) h

theorem buildTree_get? (cp : ChildProvider) (i : Nat) (p : List Nat) :
    ((buildTree 0 none cp "").1.get? (i :: p)).map (fun n => (n.Value, n.Children.length)) =
      (objAt cp.children (i :: p)).map (fun o => (some o.value, o.children.length)) := by
  rw [buildTree_eq, Node.get?_cons, objAt]
  simp only [Node.Children, layoutAll_getElem?]
  cases hk : cp.children[i]? with
  | none => simp
  | some e =>
    simp only [Option.map_some', Option.some_bind]
    exact layout_get? e _ _ _ p

/-- C3: on an input without a failing object, that is one in which every
discovered element implements `NodeInterface` and every `Children` accessor
returns, `newTree` returns a tree that mirrors the input.  The root has no value
and no parent and as many children as the input has top-level objects; along every
non-empty path there is a node exactly when there is an object, the node holds
that object as its value, has as many children as the object has discovered
children, and is a leaf exactly when the object has no `Children` accessor or an
empty child sequence; and the parent pointer of child `i` of a node leads to that
node. -/
theorem c3_mirror (cp : ChildProvider) (hs : cp.sound = true) :
    ∃ root next, newTree 0 none cp "" = some (root, next) ∧
    root.Value = none ∧
    root.Parent = none ∧
    root.Children.length = cp.children.length ∧
    (∀ (i : Nat) (p : List Nat),
      (root.get? (i :: p)).map
          (fun n => (n.Value, n.Children.length, n.isLeaf)) =
        (objAt cp.children (i :: p)).map
          (fun o => (some o.value, o.children.length,
            (decide (o.shape = Shape.plain) || o.elems.isEmpty)))) ∧
    (∀ (p : List Nat) (i : Nat), (root.get? (p ++ [i])).isSome = true →
      ∃ n c, root.get? p = some n ∧ n.Children[i]? = some c ∧
        root.get? (p ++ [i]) = some c ∧
        c.Parent = some n.addr ∧ root.deref c.Parent = some n) := by
  refine ⟨(buildTree 0 none cp "").1, (buildTree 0 none cp "").2,
    newTree_of_sound 0 none cp "" hs, ?_, ?_, ?_, ?_, ?_⟩
  · rw [buildTree_eq]; rfl
  · rw [buildTree_eq]; rfl
  · rw [buildTree_eq]; simp [Node.Children, layoutAll_length]
  · intro i p
    have h := congrArg (Option.map (fun x : Option Nat × Nat => (x.1, x.2, x.2 == 0)))
      (buildTree_get? cp i p)
    simp only [Option.map_map] at h
    have e1 : ((fun x : Option Nat × Nat => (x.1, x.2, x.2 == 0)) ∘
        fun n : Node => (n.Value, n.Children.length)) =
        fun n : Node => (n.Value, n.Children.length, n.isLeaf) := rfl
    rw [e1] at h
    rw [h]
    cases ho : objAt cp.children (i :: p) with
    | none => rfl
    | some o =>
      have hso := objAt_sound cp.children (cp.sound_elems hs) (i :: p) o ho
      simp only [Option.map_some', Function.comp, Obj.children_isEmpty o hso]
  · intro p i hc
    have wf := buildTree_wellFormed cp
    cases hg : (buildTree 0 none cp "").1.get? (p ++ [i]) with
    | none => simp [hg] at hc
    | some c =>
      obtain ⟨n, h1, h2, h3, h4, -, -⟩ := wf.parent p i c hg
      exact ⟨n, c, h1, h2, rfl, h3, h4⟩

/-- Witness of C3: the sample menu. -/
theorem c3_mirror_witness :
    menu.sound = true ∧
    ∃ root next, newTree 0 none menu "" = some (root, next) ∧
    root.Value = none ∧
    root.Parent = none ∧
    root.Children.length = menu.children.length ∧
    (∀ (i : Nat) (p : List Nat),
      (root.get? (i :: p)).map
          (fun n => (n.Value, n.Children.length, n.isLeaf)) =
        (objAt menu.children (i :: p)).map
          (fun o => (some o.value, o.children.length,
            (decide (o.shape = Shape.plain) || o.elems.isEmpty)))) ∧
    (∀ (p : List Nat) (i : Nat), (root.get? (p ++ [i])).isSome = true →
      ∃ n c, root.get? p = some n ∧ n.Children[i]? = some c ∧
        root.get? (p ++ [i]) = some c ∧
        c.Parent = some n.addr ∧ root.deref c.Parent = some n) :=
  ⟨by decide, c3_mirror menu (by decide)⟩

/-! ## C4: the cursor invariant -/

/-- C4: for an input with a top-level child and without a failing object (the
inputs on which `NewTree` returns) `NewTree` returns a state whose cursor is the
ID of the root's first child, and whatever messages are then passed to `Update`, no
step panics and in the state reached the cursor resolves, through `find`, to a
node of the tree that is not the root and whose parent pointer resolves. -/
theorem c4_cursor_invariant (cp : ChildProvider) (hs : cp.sound = true)
    (hne : cp.children ≠ []) :
    ∃ m c, NewTree cp = some m ∧ m.tree.Children[0]? = some c ∧ m.cursor = c.ID ∧
      ∀ (W : Type) [NodeInterface W] (objs : Nat → W) (msgs : List Msg),
        ∃ objs1 m1, run objs m msgs = some (objs1, m1) ∧
          ∃ p curr par, p ≠ [] ∧ m1.tree.get? p = some curr ∧
            m1.tree.find m1.cursor = some curr ∧ curr.isRoot = false ∧
            m1.tree.deref curr.Parent = some par := by
  obtain ⟨m, hm⟩ := NewTree_isSome cp hs hne
  obtain ⟨-, c, hc, hcur⟩ := NewTree_tree cp m hm
  refine ⟨m, c, hm, hc, hcur, ?_⟩
  intro W _ objs msgs
  obtain ⟨o1, m1, h1, -, hI⟩ := (NewTree_inv cp m hm).run msgs objs
  obtain ⟨q, i, curr, par, hfind, hget, -, -, -, hderef, -, -, hroot, -⟩ := hI.curr
  exact ⟨o1, m1, h1, q ++ [i], curr, par, by simp, hget, hfind, hroot, hderef⟩

/-- Witness of C4: the sample menu. -/
theorem c4_cursor_invariant_witness :
    menu.sound = true ∧ menu.children ≠ [] ∧
    ∃ m c, NewTree menu = some m ∧ m.tree.Children[0]? = some c ∧ m.cursor = c.ID ∧
      ∀ (W : Type) [NodeInterface W] (objs : Nat → W) (msgs : List Msg),
        ∃ objs1 m1, run objs m msgs = some (objs1, m1) ∧
          ∃ p curr par, p ≠ [] ∧ m1.tree.get? p = some curr ∧
            m1.tree.find m1.cursor = some curr ∧ curr.isRoot = false ∧
            m1.tree.deref curr.Parent = some par :=
  ⟨by decide, List.cons_ne_nil _ _,
    c4_cursor_invariant menu (by decide) (List.cons_ne_nil _ _)⟩

/-! ## C7: descend or activate -/

/-- C7: in a reachable state the key "right" or "l" finds a current node; if it is
a leaf, `Update` is applied once to the object its value refers to, every other
object of the store and the model (cursor included) stay as they were; if it is
not a leaf, the store stays as it was and the cursor becomes the ID of the current
node's first child. -/
theorem c7_right (cp : ChildProvider) (objs : Nat → V) (m : CLITree)
    (hr : Reachable cp objs m) (key : String) (hk : key = "right" ∨ key = "l") :
    ∃ curr, m.tree.find m.cursor = some curr ∧
      (curr.isLeaf = true →
        ∃ r, curr.Value = some r ∧
          m.Update objs (.KeyMsg key) =
            some (Function.update objs r (NodeInterface.Update (objs r)), m, none)) ∧
      (curr.isLeaf = false →
        ∃ c, curr.Children[0]? = some c ∧
          m.Update objs (.KeyMsg key) = some (objs, { m with cursor := c.ID }, none)) := by
  obtain ⟨q, i, curr, par, hfind, -, -, -, -, -, -, hval, -, -⟩ := hr.inv.curr
  refine ⟨curr, hfind, ?_, ?_⟩
  · intro hleaf
    cases hv : curr.Value with
    | none => exact absurd hv hval
    | some r =>
      refine ⟨r, rfl, ?_⟩
      rw [Update_right objs m key hk.symm, hfind]
      simp [hleaf, Node.Update, hv]
  · intro hleaf
    cases hc : curr.Children with
    | nil => simp [Node.isLeaf, hc] at hleaf
    | cons c rest =>
      refine ⟨c, by simp, ?_⟩
      rw [Update_right objs m key hk.symm, hfind]
      simp [hleaf, hc]

/-- Witness of C7: the start state of the sample menu and the key "right". -/
theorem c7_right_witness :
    Reachable menu menuObjs menuStart ∧ ("right" = "right" ∨ "right" = "l") ∧
    ∃ curr, menuStart.tree.find menuStart.cursor = some curr ∧
      (curr.isLeaf = true →
        ∃ r, curr.Value = some r ∧
          menuStart.Update menuObjs (.KeyMsg "right") =
            some (Function.update menuObjs r (NodeInterface.Update (menuObjs r)),
              menuStart, none)) ∧
      (curr.isLeaf = false →
        ∃ c, curr.Children[0]? = some c ∧
          menuStart.Update menuObjs (.KeyMsg "right") =
            some (menuObjs, { menuStart with cursor := c.ID }, none)) :=
  ⟨Reachable.start menuObjs menuStart rfl, Or.inl rfl,
    c7_right menu menuObjs menuStart (Reachable.start menuObjs menuStart rfl) "right"
      (Or.inl rfl)⟩

/-! ## C5 and C6: next sibling past index 9 -/

theorem eleven_down (objs : Nat → V) (a b : String)
    (h : CLITree.Update objs { elevenStart with cursor := a } (.KeyMsg "down") =
      some (objs, { elevenStart with cursor := b }, none)) (rest : List Msg) :
    run objs { elevenStart with cursor := a } (.KeyMsg "down" :: rest) =
      run objs { elevenStart with cursor := b } rest :=
  run_cons objs objs _ _ _ none rest h

theorem eleven_run_nine (objs : Nat → V) :
    run objs elevenStart (List.replicate 9 (.KeyMsg "down")) =
      some (objs, { elevenStart with cursor := "9" }) := by
  show run objs { elevenStart with cursor := "0" } _ = _
  simp only [List.replicate]
  rw [eleven_down objs "0" "1" rfl, eleven_down objs "1" "2" rfl, eleven_down objs "2" "3" rfl,
    eleven_down objs "3" "4" rfl, eleven_down objs "4" "5" rfl, eleven_down objs "5" "6" rfl,
    eleven_down objs "6" "7" rfl, eleven_down objs "7" "8" rfl, eleven_down objs "8" "9" rfl]
  rfl

/-- C5 (the code breaks it): among eleven top-level objects, the second of which
has three children, the state with the cursor on the tenth is reachable; its
current node is the node at path 9, which has a following sibling at path 10
(address 14); the key "down" sets the cursor to "10", and `find` resolves that
cursor to the node at path 1,0 (address 3), a child of the second top-level
node. -/
theorem c5_down_leaves_the_siblings :
    Reachable elevenItems elevenObjs { elevenStart with cursor := "9" } ∧
    (elevenStart.tree.find "9").map Node.addr = some 13 ∧
    (elevenStart.tree.get? [9]).map Node.addr = some 13 ∧
    (elevenStart.tree.get? [10]).map Node.addr = some 14 ∧
    CLITree.Update elevenObjs { elevenStart with cursor := "9" } (.KeyMsg "down") =
      some (elevenObjs, { elevenStart with cursor := "10" }, none) ∧
    (elevenStart.tree.find "10").map Node.addr = some 3 ∧
    (elevenStart.tree.get? [1, 0]).map Node.addr = some 3 := by
  refine ⟨?_, by decide, by decide, by decide, rfl, by decide, by decide⟩
  exact Reachable.of_run _ elevenObjs elevenObjs elevenStart _
    (Reachable.start elevenObjs elevenStart NewTree_eleven) (eleven_run_nine elevenObjs)

/-- C6 (the code breaks it): from the start state on eleven top-level objects, the
second of which has three children, the key "down" pressed eleven times, once for
each sibling, ends with the cursor "11", which `find` resolves to the node at path
1,1 (address 4): not the last of the eleven siblings, the node at path 10 (address
14), and not a last child either, since one more "down" moves the cursor to
"12". -/
theorem c6_down_misses_the_last_sibling :
    NewTree elevenItems = some elevenStart ∧
    elevenStart.tree.Children.length = 11 ∧
    run elevenObjs elevenStart (List.replicate 11 (.KeyMsg "down")) =
      some (elevenObjs, { elevenStart with cursor := "11" }) ∧
    (elevenStart.tree.find "11").map Node.addr = some 4 ∧
    (elevenStart.tree.get? [1, 1]).map Node.addr = some 4 ∧
    (elevenStart.tree.get? [10]).map Node.addr = some 14 ∧
    CLITree.Update elevenObjs { elevenStart with cursor := "11" } (.KeyMsg "down") =
      some (elevenObjs, { elevenStart with cursor := "12" }, none) := by
  refine ⟨NewTree_eleven, by decide, ?_, by decide, by decide, by decide, rfl⟩
  have h : List.replicate 11 (Msg.KeyMsg "down") =
      List.replicate 9 (Msg.KeyMsg "down") ++ [Msg.KeyMsg "down", Msg.KeyMsg "down"] := rfl
  rw [h, run_append _ _ _ _ _ _ (eleven_run_nine elevenObjs),
    eleven_down elevenObjs "9" "10" rfl, eleven_down elevenObjs "10" "11" rfl]
  rfl

/-! ## C8: activating a node that is not a leaf -/

/-- C8, counterexample: in the start state of the sample menu the current node is
not a leaf, and the key "right" moves the cursor from "0" to "00". -/
theorem c8_cursor_moves :
    NewTree menu = some menuStart ∧
    (menuStart.tree.find menuStart.cursor).map Node.isLeaf = some false ∧
    menuStart.cursor = "0" ∧
    (menuStart.Update menuObjs (.KeyMsg "right")).map (fun r => r.2.1.cursor) = some "00" ∧
    (menuStart.Update menuObjs (.KeyMsg "right")).map (fun r => r.2.1.cursor) ≠
      some menuStart.cursor := by
  refine ⟨rfl, by decide, rfl, by decide, by decide⟩

/-- C8, amended: in a reachable state whose current node is not a leaf, the key
"right" or "l" leaves the object store as it was and moves the cursor: the new
cursor is the ID of the current node's first child, and differs from the old one. -/
theorem c8_descend (cp : ChildProvider) (objs : Nat → V) (m : CLITree)
    (hr : Reachable cp objs m) (key : String) (hk : key = "right" ∨ key = "l")
    (hleaf : (m.tree.find m.cursor).map Node.isLeaf = some false) :
    ∃ curr c, m.tree.find m.cursor = some curr ∧ curr.Children[0]? = some c ∧
      m.Update objs (.KeyMsg key) = some (objs, { m with cursor := c.ID }, none) ∧
      c.ID ≠ m.cursor := by
  obtain ⟨q, i, curr, par, hfind, hget, -, -, -, -, -, -, -, hid⟩ := hr.inv.curr
  rw [hfind] at hleaf
  simp only [Option.map_some', Option.some.injEq] at hleaf
  cases hc : curr.Children with
  | nil => simp [Node.isLeaf, hc] at hleaf
  | cons c rest =>
    have h0 : curr.Children[0]? = some c := by simp [hc]
    refine ⟨curr, c, hfind, h0, ?_, ?_⟩
    · rw [Update_right objs m key hk.symm, hfind]
      simp [hleaf, hc]
    · rw [(hr.inv.1.children _ curr hget 0 c h0).1, ← hid]
      exact String.append_ne_self _ _ (Sprint_ne_empty 0)

/-- Witness of C8, amended: the start state of the sample menu. -/
theorem c8_descend_witness :
    Reachable menu menuObjs menuStart ∧ ("right" = "right" ∨ "right" = "l") ∧
    (menuStart.tree.find menuStart.cursor).map Node.isLeaf = some false ∧
    ∃ curr c, menuStart.tree.find menuStart.cursor = some curr ∧
      curr.Children[0]? = some c ∧
      menuStart.Update menuObjs (.KeyMsg "right") =
        some (menuObjs, { menuStart with cursor := c.ID }, none) ∧
      c.ID ≠ menuStart.cursor :=
  ⟨Reachable.start menuObjs menuStart rfl, Or.inl rfl, by decide,
    c8_descend menu menuObjs menuStart (Reachable.start menuObjs menuStart rfl) "right"
      (Or.inl rfl) (by decide)⟩

/-! ## C10: quit keys and ignored messages -/

/-- C10: in every state the keys "ctrl+c", "q" and "enter" return the store and the
model as they were, with the quit command; a key outside the quit, up, down,
descend and ascend sets, and a message that is not a key, return the store and the
model as they were, with no command. -/
theorem c10_quit_and_ignored (objs : Nat → V) (m : CLITree) :
    m.Update objs (.KeyMsg "ctrl+c") = some (objs, m, some .Quit) ∧
    m.Update objs (.KeyMsg "q") = some (objs, m, some .Quit) ∧
    m.Update objs (.KeyMsg "enter") = some (objs, m, some .Quit) ∧
    (∀ key : String,
      key ∉ ["ctrl+c", "q", "enter", "up", "k", "down", "j", "l", "right", "delete", "left",
        "h", "backspace"] →
      m.Update objs (.KeyMsg key) = some (objs, m, none)) ∧
    m.Update objs .other = some (objs, m, none) := by
  refine ⟨Update_quit objs m _ (by simp), Update_quit objs m _ (by simp),
    Update_quit objs m _ (by simp), ?_, rfl⟩
  intro key hkey
  simp only [List.mem_cons, List.mem_singleton, List.not_mem_nil, or_false, not_or] at hkey
  apply Update_ignored <;> simp [hkey]

/-- Witness of C10: the key "x" in the start state of the sample menu. -/
theorem c10_quit_and_ignored_witness :
    "x" ∉ ["ctrl+c", "q", "enter", "up", "k", "down", "j", "l", "right", "delete", "left",
        "h", "backspace"] ∧
    menuStart.Update menuObjs (.KeyMsg "x") = some (menuObjs, menuStart, none) :=
  ⟨by decide, (c10_quit_and_ignored menuObjs menuStart).2.2.2.1 "x" (by decide)⟩

/-! ## Prefixes of decimal texts -/

/-- A non-empty prefix of the decimal text of `n` is the decimal text of some `J`,
which is `n` itself or at most a tenth of it, and is positive when `n` is. -/
theorem toDigits_of_prefix (n : Nat) : ∀ w : List Char, w ≠ [] → w <+: Nat.toDigits 10 n →
    ∃ J, Nat.toDigits 10 J = w ∧ (J = n ∨ 10 * J ≤ n) ∧ (1 ≤ n → 1 ≤ J) := by
  induction n using Nat.strong_induction_on with
  | _ n ih =>
    intro w hw hp
    by_cases hn : n < 10
    · rw [toDigits_small n hn] at hp
      have hp1 : w <+: [] ++ [Nat.digitChar n] := hp
      rcases List.prefix_concat_iff.mp hp1 with h | h
      · exact ⟨n, by rw [toDigits_small n hn]; exact h.symm, Or.inl rfl, id⟩
      · exact absurd (List.prefix_nil.mp h) hw
    · rw [toDigits_big n (by omega)] at hp
      rcases List.prefix_concat_iff.mp hp with h | h
      · exact ⟨n, by rw [toDigits_big n (by omega)]; exact h.symm, Or.inl rfl, id⟩
      · obtain ⟨J, h1, h2, h3⟩ := ih (n / 10) (by omega) w hw h
        refine ⟨J, h1, Or.inr ?_, fun _ => h3 (by omega)⟩
        rcases h2 with h2 | h2 <;> omega

theorem toDigits_ten_mul (a : Nat) (ha : 1 ≤ a) :
    Nat.toDigits 10 (10 * a) = Nat.toDigits 10 a ++ ['0'] := by
  rw [toDigits_big (10 * a) (by omega)]
  have h1 : 10 * a / 10 = a := by omega
  have h2 : 10 * a % 10 = 0 := by omega
  rw [h1, h2]
  rfl

theorem toDigits_zero : Nat.toDigits 10 0 = ['0'] := rfl

/-- A decimal text that is a prefix of another one belongs to the same number or
to a number at least ten times smaller. -/
theorem toDigits_prefix_le (a J : Nat) (h : Nat.toDigits 10 a <+: Nat.toDigits 10 J) :
    a = J ∨ 10 * a ≤ J := by
  obtain ⟨K, h1, h2, -⟩ := toDigits_of_prefix J _ (toDigits_ne_nil a) h
  rw [toDigits_inj K a h1] at h2
  exact h2

theorem toDigits_pos_of_prefix (a J : Nat) (hJ : 1 ≤ J)
    (h : Nat.toDigits 10 a <+: Nat.toDigits 10 J) : 1 ≤ a := by
  obtain ⟨K, h1, -, h3⟩ := toDigits_of_prefix J _ (toDigits_ne_nil a) h
  rw [toDigits_inj K a h1] at h3
  exact h3 hJ

theorem Sprint_data (i : Nat) : (Sprint i).data = Nat.toDigits 10 i := by
  simp [Sprint, Nat.repr, List.asString]

/-! ## The path `find` follows -/

theorem Node.findPath_eq (n : Node) (id : String) :
    n.findPath id = if n.ID = id then some [] else Node.findPathIn n.Children id 0 := by
  cases n; simp [Node.findPath, Node.ID, Node.Children]

/-- The loop of `find` enters child `j` when no child before it holds the ID. -/
theorem Node.findPathIn_skip (cs : List Node) (id : String) (j : Nat) :
    ∀ (k : Nat), (∀ (i : Nat) (c : Node), i < j → cs[i]? = some c → c.findPath id = none) →
      Node.findPathIn cs id k =
        (cs[j]?).bind (fun c =>
          match c.findPath id with
          | some t => some ((k + j) :: t)
          | none => Node.findPathIn (cs.drop (j + 1)) id (k + j + 1)) := by
  induction j generalizing cs with
  | zero =>
    intro k _
    cases cs with
    | nil => simp [Node.findPathIn]
    | cons c rest => simp [Node.findPathIn]
  | succ j ih =>
    intro k h
    cases cs with
    | nil => simp [Node.findPathIn]
    | cons c rest =>
      rw [Node.findPathIn, h 0 c (by omega) (by simp)]
      simp only [List.getElem?_cons_succ, List.drop_succ_cons]
      rw [ih rest (k + 1) (fun i d hi hd => h (i + 1) d (by omega) (by simpa using hd))]
      have e : k + 1 + j = k + (j + 1) := by omega
      rw [e]

/-- What the loop of `find` returns: the first child that holds the ID. -/
theorem Node.findPathIn_some (cs : List Node) (id : String) :
    ∀ (k : Nat) (P : List Nat), Node.findPathIn cs id k = some P →
      ∃ (j : Nat) (t : List Nat) (c : Node), P = (k + j) :: t ∧ cs[j]? = some c ∧
        c.findPath id = some t ∧
        ∀ (i : Nat) (d : Node), i < j → cs[i]? = some d → d.findPath id = none := by
  induction cs with
  | nil => intro k P h; simp [Node.findPathIn] at h
  | cons c rest ih =>
    intro k P h
    rw [Node.findPathIn] at h
    cases hc : c.findPath id with
    | some t =>
      simp only [hc, Option.some.injEq] at h
      exact ⟨0, t, c, by simpa using h.symm, by simp, hc, fun i d hi => by omega⟩
    | none =>
      simp only [hc] at h
      obtain ⟨j, t, d, h1, h2, h3, h4⟩ := ih (k + 1) P h
      refine ⟨j + 1, t, d, by rw [h1]; congr 1; omega, by simpa using h2, h3, ?_⟩
      intro i e hi he
      cases i with
      | zero => simp at he; subst he; exact hc
      | succ i => exact h4 i e (by omega) (by simpa using he)

theorem Node.findPathIn_none (cs : List Node) (id : String) :
    ∀ (k : Nat), Node.findPathIn cs id k = none →
      ∀ (i : Nat) (d : Node), cs[i]? = some d → d.findPath id = none := by
  induction cs with
  | nil => intro k _ i d hd; simp at hd
  | cons c rest ih =>
    intro k h i d hd
    rw [Node.findPathIn] at h
    cases hc : c.findPath id with
    | some t => simp [hc] at h
    | none =>
      simp only [hc] at h
      cases i with
      | zero => simp at hd; subst hd; exact hc
      | succ i => exact ih (k + 1) h i d (by simpa using hd)

/-- The path `find` follows ends on a node with the ID asked for. -/
theorem Node.findPath_get (n : Node) : ∀ (id : String) (P : List Nat),
    n.findPath id = some P → ∃ r, n.get? P = some r ∧ r.ID = id := by
  induction n using Node.induct with
  | h a i v cs par ih =>
    intro id P h
    rw [Node.findPath_eq] at h
    by_cases e : (Node.mk a i v cs par).ID = id
    · simp only [e, if_true, Option.some.injEq] at h
      subst h
      exact ⟨_, by simp, e⟩
    · simp only [e, if_false] at h
      obtain ⟨j, t, c, h1, h2, h3, -⟩ := Node.findPathIn_some _ _ _ _ h
      obtain ⟨r, h4, h5⟩ := ih c (List.getElem?_mem h2) id t h3
      refine ⟨r, ?_, h5⟩
      rw [h1, Node.get?_cons]
      simp only [Nat.zero_add, h2, Option.some_bind, h4]

theorem Node.findIn_eq_findPathIn (cs : List Node) (id : String)
    (ih : ∀ c ∈ cs, c.find id = (c.findPath id).bind c.get?) :
    ∀ (k : Nat), Node.findIn cs id =
      (Node.findPathIn cs id k).bind (fun P =>
        match P with
        | [] => none
        | i :: t => (cs[i - k]?).bind (fun c => c.get? t)) := by
  induction cs with
  | nil => intro k; simp [Node.findIn, Node.findPathIn]
  | cons c rest ihr =>
    intro k
    rw [Node.findIn, Node.findPathIn, ih c (List.mem_cons_self _ _)]
    cases hc : c.findPath id with
    | some t =>
      simp only [Option.some_bind, Nat.sub_self, List.getElem?_cons_zero]
      cases hg : c.get? t with
      | some r => simp
      | none =>
        obtain ⟨r, h1, -⟩ := Node.findPath_get c id t hc
        rw [h1] at hg
        cases hg
    | none =>
      simp only [Option.none_bind]
      rw [ihr (fun c hc => ih c (List.mem_cons_of_mem _ hc)) (k + 1)]
      cases hf : Node.findPathIn rest id (k + 1) with
      | none => simp
      | some P =>
        obtain ⟨j, t, d, h1, -, -, -⟩ := Node.findPathIn_some rest id (k + 1) P hf
        subst h1
        simp only [Option.some_bind]
        have e1 : k + 1 + j - (k + 1) = j := by omega
        have e2 : k + 1 + j - k = j + 1 := by omega
        rw [e1, e2]
        simp

/-- Method `find` returns the node at the end of the path `findPath` computes. -/
theorem Node.find_eq_findPath (n : Node) : ∀ (id : String),
    n.find id = (n.findPath id).bind n.get? := by
  induction n using Node.induct with
  | h a i v cs par ih =>
    intro id
    rw [Node.find_eq, Node.findPath_eq]
    by_cases e : (Node.mk a i v cs par).ID = id
    · simp [e]
    · simp only [e, if_false]
      have hcs : (Node.mk a i v cs par).Children = cs := rfl
      rw [hcs, Node.findIn_eq_findPathIn cs id (fun c hc => ih c hc id) 0]
      cases hf : Node.findPathIn cs id 0 with
      | none => simp
      | some P =>
        obtain ⟨j, t, d, h1, -, -, -⟩ := Node.findPathIn_some _ id 0 P hf
        subst h1
        simp [Node.get?_cons, hcs]

/-- Every ID present under a node has a path that `find` follows. -/
theorem Node.findPath_isSome (n : Node) : ∀ (p : List Nat) (r : Node), n.get? p = some r →
    (n.findPath r.ID).isSome = true := by
  intro p r h
  have h1 := Node.find_isSome n p r h
  rw [Node.find_eq_findPath] at h1
  cases hf : n.findPath r.ID with
  | none => simp [hf] at h1
  | some P => rfl

/-! ## One step of the path of `find` -/

theorem Node.findPath_nil (n : Node) (id : String) (h : n.findPath id = some []) :
    n.ID = id := by
  rw [Node.findPath_eq] at h
  by_cases e : n.ID = id
  · exact e
  · simp only [e, if_false] at h
    obtain ⟨j, t, c, h1, -⟩ := Node.findPathIn_some _ _ _ _ h
    cases h1

theorem Node.findPath_self (n : Node) : n.findPath n.ID = some [] := by
  rw [Node.findPath_eq]; simp

/-- A path of `find` that enters child `k`: the node itself has another ID, no
child before `k` holds the ID, and the rest is the path of `find` in child `k`. -/
theorem Node.findPath_cons (n : Node) (id : String) (k : Nat) (t : List Nat)
    (h : n.findPath id = some (k :: t)) :
    n.ID ≠ id ∧ ∃ c, n.Children[k]? = some c ∧ c.findPath id = some t ∧
      ∀ (j : Nat) (d : Node), j < k → n.Children[j]? = some d → d.findPath id = none := by
  rw [Node.findPath_eq] at h
  by_cases e : n.ID = id
  · simp [e] at h
  · simp only [e, if_false] at h
    obtain ⟨j, t1, c, h1, h2, h3, h4⟩ := Node.findPathIn_some _ _ _ _ h
    simp only [Nat.zero_add, List.cons.injEq] at h1
    obtain ⟨rfl, rfl⟩ := h1
    exact ⟨e, c, h2, h3, h4⟩

/-- The path of `find` enters child `k` when the node has another ID and no child
before `k` holds the ID. -/
theorem Node.findPath_enter (n : Node) (id : String) (k : Nat) (c : Node)
    (h1 : n.ID ≠ id) (h2 : n.Children[k]? = some c)
    (h3 : ∀ (j : Nat) (d : Node), j < k → n.Children[j]? = some d → d.findPath id = none)
    (t : List Nat) (h4 : c.findPath id = some t) : n.findPath id = some (k :: t) := by
  rw [Node.findPath_eq]
  simp only [h1, if_false]
  rw [Node.findPathIn_skip _ id k 0 h3, h2]
  simp [h4]

/-- No ID under the node: the node has another ID and no child holds it. -/
theorem Node.findPath_none (n : Node) (id : String) (h : n.findPath id = none) :
    n.ID ≠ id ∧ ∀ (j : Nat) (d : Node), n.Children[j]? = some d → d.findPath id = none := by
  rw [Node.findPath_eq] at h
  by_cases e : n.ID = id
  · simp [e] at h
  · simp only [e, if_false] at h
    exact ⟨e, Node.findPathIn_none _ _ _ h⟩

/-- The child the path of `find` enters is the first one that holds the ID. -/
theorem Node.findPath_first (n : Node) (id : String) (k : Nat) (t : List Nat)
    (h : n.findPath id = some (k :: t)) (j : Nat) (d : Node) (hd : n.Children[j]? = some d)
    (hf : (d.findPath id).isSome = true) : k ≤ j := by
  obtain ⟨-, c, -, -, h4⟩ := Node.findPath_cons n id k t h
  by_contra hlt
  rw [h4 j d (by omega) hd] at hf
  cases hf

/-- Along the path of `find`, no earlier sibling holds the ID. -/
theorem Node.findPath_earlier (n : Node) (id : String) : ∀ (t : List Nat) (k : Nat)
    (rest : List Nat) (N : Node), n.findPath id = some (t ++ k :: rest) → n.get? t = some N →
    N.ID ≠ id ∧
    ∀ (j : Nat) (d : Node), j < k → N.Children[j]? = some d → d.findPath id = none := by
  intro t
  induction t generalizing n with
  | nil =>
    intro k rest N h hN
    simp at hN
    subst hN
    obtain ⟨h1, c, -, -, h4⟩ := Node.findPath_cons n id k rest h
    exact ⟨h1, h4⟩
  | cons i t ih =>
    intro k rest N h hN
    obtain ⟨-, c, h2, h3, -⟩ := Node.findPath_cons n id i (t ++ k :: rest) h
    rw [Node.get?_cons, h2] at hN
    exact ih c k rest N h3 hN

/-- The path of `find` goes down a path `q` along which every node has another ID
and no earlier sibling holds the ID. -/
theorem Node.findPath_descend (id : String) : ∀ (q : List Nat) (n N : Node) (P : List Nat),
    n.get? q = some N →
    (∀ (t : List Nat) (k : Nat) (rest : List Nat) (M : Node), q = t ++ k :: rest →
      n.get? t = some M →
      M.ID ≠ id ∧
      ∀ (j : Nat) (d : Node), j < k → M.Children[j]? = some d → d.findPath id = none) →
    N.findPath id = some P → n.findPath id = some (q ++ P) := by
  intro q
  induction q with
  | nil =>
    intro n N P hN _ hP
    simp at hN
    subst hN
    simpa using hP
  | cons k q ih =>
    intro n N P hN H hP
    rw [Node.get?_cons] at hN
    cases hk : n.Children[k]? with
    | none => simp [hk] at hN
    | some c =>
      simp only [hk, Option.some_bind] at hN
      obtain ⟨h1, h3⟩ := H [] k q n rfl (by simp)
      have hc := ih c N P hN (by
        intro t k1 rest M hq hM
        exact H (k :: t) k1 rest M (by rw [hq]; rfl) (by rw [Node.get?_cons, hk]; exact hM)) hP
      exact Node.findPath_enter n id k c h1 hk h3 _ hc

/-! ## IDs under a node -/

theorem SubOK.child {n c : Node} (h : SubOK n) (k : Nat) (hk : n.Children[k]? = some c) :
    SubOK c := by
  intro p m hm
  exact h (k :: p) m (by rw [Node.get?_cons, hk]; exact hm)

theorem SubOK.get {n m : Node} (h : SubOK n) (q : List Nat) (hq : n.get? q = some m) :
    SubOK m := by
  intro p r hr
  exact h (q ++ p) r (by rw [Node.get?_append, hq]; exact hr)

theorem SubOK.child_data {n c : Node} (h : SubOK n) (k : Nat) (hk : n.Children[k]? = some c) :
    c.ID.data = n.ID.data ++ Nat.toDigits 10 k := by
  rw [(h [] n (by simp) k c hk).1, String.data_append, Sprint_data]

/-- The ID of a node is a prefix of every ID under it. -/
theorem SubOK.id_prefix : ∀ (p : List Nat) (n r : Node), SubOK n → n.get? p = some r →
    n.ID.data <+: r.ID.data := by
  intro p
  induction p with
  | nil =>
    intro n r _ hr
    simp at hr
    subst hr
    exact List.prefix_refl _
  | cons k p ih =>
    intro n r h hr
    rw [Node.get?_cons] at hr
    cases hk : n.Children[k]? with
    | none => simp [hk] at hr
    | some c =>
      simp only [hk, Option.some_bind] at hr
      have h1 := ih c r (h.child k hk) hr
      rw [h.child_data k hk] at h1
      exact (List.prefix_append _ _).trans h1

theorem getElem?_of_le_index {α : Type} (l : List α) (j k : Nat) (a : α) (h : l[k]? = some a)
    (hj : j ≤ k) : ∃ b, l[j]? = some b := by
  have hk : k < l.length := by
    by_contra hlt
    rw [List.getElem?_eq_none (by omega)] at h
    cases h
  exact ⟨l[j], List.getElem?_eq_getElem (by omega)⟩

/-- Prefixes of an ID under a node that extend the node's ID are IDs under the
node. -/
theorem SubOK.prefix_closed : ∀ (p : List Nat) (n z : Node), SubOK n → n.get? p = some z →
    ∀ w : List Char, n.ID.data <+: w → w <+: z.ID.data →
      ∃ (p1 : List Nat) (z1 : Node), n.get? p1 = some z1 ∧ z1.ID.data = w := by
  intro p
  induction p with
  | nil =>
    intro n z _ hz w h1 h2
    simp at hz
    subst hz
    exact ⟨[], n, by simp, h1.eq_of_length_le h2.length_le⟩
  | cons k p ih =>
    intro n z h hz w h1 h2
    rw [Node.get?_cons] at hz
    cases hk : n.Children[k]? with
    | none => simp [hk] at hz
    | some c =>
      simp only [hk, Option.some_bind] at hz
      have hcz := SubOK.id_prefix p c z (h.child k hk) hz
      rcases List.prefix_or_prefix_of_prefix hcz h2 with h3 | h3
      · obtain ⟨p1, z1, h4, h5⟩ := ih c z (h.child k hk) hz w h3 h2
        exact ⟨k :: p1, z1, by rw [Node.get?_cons, hk]; exact h4, h5⟩
      · obtain ⟨u, rfl⟩ := h1
        rw [h.child_data k hk, List.prefix_append_right_inj] at h3
        by_cases hu : u = []
        · subst hu
          exact ⟨[], n, by simp, by simp⟩
        · obtain ⟨J, h4, h5, -⟩ := toDigits_of_prefix k u hu h3
          have hJ : J ≤ k := by rcases h5 with h5 | h5 <;> omega
          obtain ⟨d, hd⟩ := getElem?_of_le_index _ J k c hk hJ
          exact ⟨[J], d, by rw [Node.get?_cons, hd]; simp, by rw [h.child_data J hd, h4]⟩

/-! ## Nodes that `find` returns for their own ID -/

theorem WellFormed.subOK {root : Node} (wf : WellFormed root) : SubOK root :=
  wf.children

theorem string_eq_of_data {s t : String} (h : s.data = t.data) : s = t :=
  String.ext h

theorem GoodPath.of_prefix {root : Node} {p q : List Nat} (h : GoodPath root p)
    (hq : q <+: p) : GoodPath root q :=
  fun t k j ht hj => h t k j (ht.trans hq) hj

theorem GoodPath.sibling {root : Node} {q : List Nat} {i a : Nat}
    (h : GoodPath root (q ++ [i])) (ha : a ≤ i) : GoodPath root (q ++ [a]) := by
  intro t k j ht hj
  rcases List.prefix_concat_iff.mp ht with e | e
  · obtain ⟨rfl, e2⟩ := List.append_inj' e rfl
    simp only [List.cons.injEq, and_true] at e2
    subst e2
    exact h t i j (List.prefix_refl _) (by omega)
  · exact h t k j (e.trans (List.prefix_append _ _)) hj

theorem GoodPath.snoc {root : Node} {p : List Nat} {k : Nat} (h : GoodPath root p)
    (hk : ∀ j, j ≤ k → Canon root (p ++ [j])) : GoodPath root (p ++ [k]) := by
  intro t k1 j ht hj
  rcases List.prefix_concat_iff.mp ht with e | e
  · obtain ⟨rfl, e2⟩ := List.append_inj' e rfl
    simp only [List.cons.injEq, and_true] at e2
    subst e2
    exact hk j hj
  · exact h t k1 j e hj

/-- Under a path along which `find` returns every node for its own ID, the path of
`find` for an ID that extends the ID of the node at the end goes through that
node. -/
theorem WellFormed.descend {root : Node} (wf : WellFormed root) (q : List Nat) (par : Node)
    (hpar : root.get? q = some par) (hq : GoodPath root q) (x : String)
    (hx : par.ID.data <+: x.data) (P : List Nat) (hP : par.findPath x = some P) :
    root.findPath x = some (q ++ P) := by
  refine Node.findPath_descend x q root par P hpar ?_ hP
  intro t k rest M hsplit hM
  have hA : ∃ A, root.get? (t ++ [k]) = some A ∧ A.get? rest = some par := by
    have h1 : root.get? ((t ++ [k]) ++ rest) = some par := by
      rw [List.append_assoc, List.singleton_append, ← hsplit]; exact hpar
    rw [Node.get?_append] at h1
    cases hA : root.get? (t ++ [k]) with
    | none => simp [hA] at h1
    | some A => exact ⟨A, rfl, by simpa [hA] using h1⟩
  obtain ⟨A, hA1, hA2⟩ := hA
  have hMA : M.Children[k]? = some A := by
    rw [← Node.get?_snoc root M t k hM]; exact hA1
  have hAd : A.ID.data = M.ID.data ++ Nat.toDigits 10 k :=
    (wf.subOK.get t hM).child_data k hMA
  have hAx : A.ID.data <+: x.data :=
    (SubOK.id_prefix rest A par (wf.subOK.get _ hA1) hA2).trans hx
  constructor
  · intro e
    rw [hAd, ← e] at hAx
    have h2 := hAx.length_le
    have h3 : (Nat.toDigits 10 k).length ≠ 0 := fun hl =>
      toDigits_ne_nil k (List.length_eq_zero.mp hl)
    simp only [List.length_append] at h2
    omega
  · intro j d hj hd
    cases hf : d.findPath x with
    | none => rfl
    | some P1 =>
      exfalso
      obtain ⟨z, hz, hzx⟩ := Node.findPath_get d x P1 hf
      have hdd : d.ID.data = M.ID.data ++ Nat.toDigits 10 j :=
        (wf.subOK.get t hM).child_data j hd
      have hsd : SubOK d := (wf.subOK.get t hM).child j hd
      have hdx : d.ID.data <+: x.data := hzx ▸ SubOK.id_prefix P1 d z hsd hz
      have hdA : d.ID.data <+: A.ID.data := by
        rcases List.prefix_or_prefix_of_prefix hdx hAx with h | h
        · exact h
        · rw [hdd, hAd, List.prefix_append_right_inj] at h
          rcases toDigits_prefix_le k j h with h1 | h1 <;> omega
      obtain ⟨p1, z1, hz1, hz1d⟩ :=
        SubOK.prefix_closed P1 d z hsd hz A.ID.data hdA (hzx ▸ hAx)
      have h4 := Node.findPath_isSome d p1 z1 hz1
      rw [string_eq_of_data hz1d] at h4
      obtain ⟨A1, hA3, hA4⟩ := hq t k k (by rw [hsplit]; exact ⟨rest, by simp⟩) (Nat.le_refl k)
      rw [hA1] at hA3
      cases hA3
      have h5 := (Node.findPath_earlier root A.ID t k [] M hA4 hM).2 j d hj hd
      rw [h5] at h4
      cases h4

/-- The first child of a node that `find` returns for its ID is such a node. -/
theorem WellFormed.canon_first {root : Node} (wf : WellFormed root) (p : List Nat)
    (n c : Node) (hn : root.get? p = some n) (hp : GoodPath root p)
    (hc : n.Children[0]? = some c) : Canon root (p ++ [0]) := by
  refine ⟨c, by rw [Node.get?_snoc root n p 0 hn]; exact hc, ?_⟩
  have hid := (wf.children p n hn 0 c hc).1
  apply wf.descend p n hn hp c.ID
  · rw [hid]; exact String.data_prefix_append _ _
  · refine Node.findPath_enter n c.ID 0 c ?_ hc (fun j d hj => by omega) [] c.findPath_self
    rw [hid]
    exact (String.append_ne_self _ _ (Sprint_ne_empty 0)).symm

/-- The state `NewTree` returns satisfies the invariant of the reachable states. -/
theorem NewTree_good (cp : ChildProvider) (m : CLITree) (h : NewTree cp = some m) : Good m := by
  obtain ⟨-, c, hc, hcur⟩ := NewTree_tree cp m h
  have wf : WellFormed m.tree := (NewTree_inv cp m h).1
  have hnil : GoodPath m.tree [] := fun t k j ht _ => by
    have := List.prefix_nil.mp ht
    simp at this
  obtain ⟨c1, h1, h2⟩ := wf.canon_first [] m.tree c (by simp) hnil hc
  have e : c1 = c := by
    have h3 : m.tree.get? [0] = some c := by rw [Node.get?_cons, hc]; simp
    simp only [List.nil_append] at h1
    rw [h3] at h1
    cases h1; rfl
  subst e
  refine ⟨wf, [0], by simp, ?_, hcur ▸ h2⟩
  exact @GoodPath.snoc m.tree [] 0 hnil (fun j hj => by
    have : j = 0 := by omega
    subst this
    exact ⟨c1, h1, h2⟩)

/-! ## The next sibling -/

/-- No node under an earlier sibling `a` carries the ID of a later sibling `J` that
`find` returns for its own ID. -/
theorem WellFormed.no_clash {root : Node} (wf : WellFormed root) (q : List Nat) (par : Node)
    (hpar : root.get? q = some par) (a J : Nat) (haJ : a < J) (hJ : Canon root (q ++ [J]))
    (e : Node) (he : par.Children[a]? = some e) (p1 : List Nat) (f : Node)
    (hf : e.get? p1 = some f)
    (hid : f.ID.data = par.ID.data ++ Nat.toDigits 10 J) : False := by
  obtain ⟨g, hg1, hg2⟩ := hJ
  have hgc : par.Children[J]? = some g := by
    rw [← Node.get?_snoc root par q J hpar]; exact hg1
  have hgd := (wf.subOK.get q hpar).child_data J hgc
  have hfg : f.ID = g.ID := string_eq_of_data (by rw [hid, hgd])
  have h1 := (Node.findPath_earlier root g.ID q J [] par hg2 hpar).2 a e haJ he
  have h2 := Node.findPath_isSome e p1 f hf
  rw [hfg, h1] at h2
  cases h2

/-- The key "down" keeps the invariant: the path `find` follows for the ID of the
next sibling is the path of that sibling, or the path of the first child of an
earlier sibling; both are good. -/
theorem WellFormed.good_next {root : Node} (wf : WellFormed root) (q : List Nat) (i : Nat)
    (hgood : GoodPath root (q ++ [i])) (s : Node) (hs : root.get? (q ++ [i + 1]) = some s) :
    ∃ P, root.findPath s.ID = some P ∧ P ≠ [] ∧ GoodPath root P := by
  obtain ⟨par, hpar, hsc, -, -, hsid, -⟩ := wf.parent q (i + 1) s hs
  have hsub : SubOK par := wf.subOK.get q hpar
  have hq : GoodPath root q := hgood.of_prefix (List.prefix_append _ _)
  have hxd : s.ID.data = par.ID.data ++ Nat.toDigits 10 (i + 1) := hsub.child_data _ hsc
  have hne : par.ID ≠ s.ID := by
    rw [hsid]; exact (String.append_ne_self _ _ (Sprint_ne_empty _)).symm
  have hsome := Node.findPath_isSome par [i + 1] s (by rw [Node.get?_cons, hsc]; simp)
  cases hP0 : par.findPath s.ID with
  | none => simp [hP0] at hsome
  | some P0 =>
    have hroot := wf.descend q par hpar hq s.ID (by rw [hxd]; exact List.prefix_append _ _) P0 hP0
    cases P0 with
    | nil => exact absurd (Node.findPath_nil par s.ID hP0) hne
    | cons a rest =>
      refine ⟨q ++ a :: rest, hroot, by simp, ?_⟩
      have hale : a ≤ i + 1 :=
        Node.findPath_first par s.ID a rest hP0 (i + 1) s hsc (by rw [s.findPath_self]; rfl)
      obtain ⟨-, e, he, herest, -⟩ := Node.findPath_cons par s.ID a rest hP0
      have hed : e.ID.data = par.ID.data ++ Nat.toDigits 10 a := hsub.child_data a he
      by_cases hai : a = i + 1
      · -- the next sibling itself
        subst hai
        rw [hsc] at he
        cases he
        rw [s.findPath_self] at herest
        cases herest
        refine GoodPath.snoc hq (fun j hj => ?_)
        by_cases hj1 : j = i + 1
        · subst hj1
          exact ⟨s, hs, hroot⟩
        · exact hgood q i j (List.prefix_refl _) (by omega)
      · -- a node under an earlier sibling
        have hai1 : a ≤ i := by omega
        cases rest with
        | nil =>
          exfalso
          have h1 := Node.findPath_nil e s.ID herest
          have h2 : e.ID.data = s.ID.data := by rw [h1]
          rw [hed, hxd] at h2
          exact hai (toDigits_inj _ _ (List.append_cancel_left h2))
        | cons b rest1 =>
          obtain ⟨-, f, hf, hfrest, -⟩ := Node.findPath_cons e s.ID b rest1 herest
          have hse : SubOK e := hsub.child a he
          have hfd : f.ID.data = par.ID.data ++ (Nat.toDigits 10 a ++ Nat.toDigits 10 b) := by
            rw [hse.child_data b hf, hed, List.append_assoc]
          obtain ⟨z, hz, hzx⟩ := Node.findPath_get f s.ID rest1 hfrest
          have hfx : f.ID.data <+: s.ID.data :=
            hzx ▸ SubOK.id_prefix rest1 f z (hse.child b hf) hz
          rw [hfd, hxd, List.prefix_append_right_inj] at hfx
          obtain ⟨J, hJ1, hJ2, hJ3⟩ := toDigits_of_prefix (i + 1) _
            (by simp [toDigits_ne_nil]) hfx
          have haJp : Nat.toDigits 10 a <+: Nat.toDigits 10 J := by
            rw [hJ1]; exact List.prefix_append _ _
          have ha1 : 1 ≤ a := toDigits_pos_of_prefix a J (hJ3 (by omega)) haJp
          have haJ : a < J := by
            rcases toDigits_prefix_le a J haJp with h | h
            · exfalso
              subst h
              have h3 := congrArg List.length hJ1
              have h4 : (Nat.toDigits 10 b).length ≠ 0 := fun hl =>
                toDigits_ne_nil b (List.length_eq_zero.mp hl)
              simp only [List.length_append] at h3
              omega
            · omega
          have hJi : J = i + 1 := by
            rcases hJ2 with h | h
            · exact h
            · exfalso
              exact wf.no_clash q par hpar a J haJ
                (hgood q i J (List.prefix_refl _) (by omega)) e he [b] f
                (by rw [Node.get?_cons, hf]; simp) (by rw [hfd, hJ1])
          subst hJi
          have hfs : f.ID = s.ID := string_eq_of_data (by rw [hfd, hxd, hJ1])
          rw [← hfs, f.findPath_self] at hfrest
          cases hfrest
          have hb : b = 0 := by
            by_contra hb0
            obtain ⟨f0, hf0⟩ := getElem?_of_le_index e.Children 0 b f hf (by omega)
            have hf0d : f0.ID.data = par.ID.data ++ Nat.toDigits 10 (10 * a) := by
              rw [hse.child_data 0 hf0, hed, List.append_assoc, toDigits_ten_mul a ha1,
                toDigits_zero]
            have h10 : 10 * a ≤ i := by
              have h5 : 10 * a ≠ i + 1 := by
                intro h6
                rw [← h6, toDigits_ten_mul a ha1] at hJ1
                have h7 := List.append_cancel_left hJ1
                exact hb0 (toDigits_inj _ _ (by rw [← h7]; rfl))
              rcases toDigits_prefix_le a (i + 1) haJp with h | h <;> omega
            exact wf.no_clash q par hpar a (10 * a) (by omega)
              (hgood q i (10 * a) (List.prefix_refl _) h10) e he [0] f0
              (by rw [Node.get?_cons, hf0]; simp) hf0d
          subst hb
          have hqa : GoodPath root (q ++ [a]) := hgood.sibling hai1
          have hpath : q ++ [a, 0] = (q ++ [a]) ++ [0] := by simp
          rw [hpath]
          refine GoodPath.snoc hqa (fun j hj => ?_)
          have hj0 : j = 0 := by omega
          subst hj0
          obtain ⟨ea, hea1, -⟩ := hgood q i a (List.prefix_refl _) hai1
          refine ⟨f, ?_, ?_⟩
          · rw [Node.get?_snoc root e (q ++ [a]) 0 (by
              rw [Node.get?_snoc root par q a hpar]; exact he)]
            exact hf
          · rw [hfs, ← hpath]; exact hroot

/-! ## The loops of `next` and `previous` -/

theorem Node.nextLoop_spec (cs : List Node) (id : String) (i : Nat) (c : Node)
    (hc : cs[i]? = some c) (hid : c.ID = id)
    (huniq : ∀ (j : Nat) (d : Node), cs[j]? = some d → d.ID = id → j = i) :
    ∀ (rest : List Node) (k : Nat), rest = cs.drop k → k ≤ i →
      Node.nextLoop cs id rest k = if i = cs.length - 1 then none else cs[i + 1]? := by
  intro rest
  induction rest with
  | nil =>
    intro k hr hk
    exfalso
    have h1 : cs.length ≤ k := List.drop_eq_nil_iff.mp hr.symm
    have h2 : i < cs.length := by
      by_contra hlt
      rw [List.getElem?_eq_none (by omega)] at hc
      cases hc
    omega
  | cons d rest ih =>
    intro k hr hk
    have hd : cs[k]? = some d := by
      have h1 : (cs.drop k)[0]? = some d := by rw [← hr]; simp
      simpa using h1
    rw [Node.nextLoop]
    by_cases e : d.ID = id
    · have hki := huniq k d hd e
      subst hki
      simp [e]
    · simp only [e, if_false]
      have hne : k ≠ i := by
        rintro rfl
        rw [hc] at hd
        cases hd
        exact e hid
      apply ih (k + 1) _ (by omega)
      have h2 : List.drop 1 (d :: rest) = List.drop 1 (List.drop k cs) := by rw [hr]
      simpa [Nat.add_comm] using h2

theorem Node.previousLoop_spec (cs : List Node) (id : String) (i : Nat) (c : Node)
    (hc : cs[i]? = some c) (hid : c.ID = id)
    (huniq : ∀ (j : Nat) (d : Node), cs[j]? = some d → d.ID = id → j = i) :
    ∀ (rest : List Node) (k : Nat), rest = cs.drop k → k ≤ i →
      Node.previousLoop cs id rest k = if i = 0 then none else cs[i - 1]? := by
  intro rest
  induction rest with
  | nil =>
    intro k hr hk
    exfalso
    have h1 : cs.length ≤ k := List.drop_eq_nil_iff.mp hr.symm
    have h2 : i < cs.length := by
      by_contra hlt
      rw [List.getElem?_eq_none (by omega)] at hc
      cases hc
    omega
  | cons d rest ih =>
    intro k hr hk
    have hd : cs[k]? = some d := by
      have h1 : (cs.drop k)[0]? = some d := by rw [← hr]; simp
      simpa using h1
    rw [Node.previousLoop]
    by_cases e : d.ID = id
    · have hki := huniq k d hd e
      subst hki
      simp [e]
    · simp only [e, if_false]
      have hne : k ≠ i := by
        rintro rfl
        rw [hc] at hd
        cases hd
        exact e hid
      apply ih (k + 1) _ (by omega)
      have h2 : List.drop 1 (d :: rest) = List.drop 1 (List.drop k cs) := by rw [hr]
      simpa [Nat.add_comm] using h2

/-- Among the children of a node built by `addChild`, an ID names one index. -/
theorem ChildrenOK.unique {n : Node} (h : ChildrenOK n) (i j : Nat) (c d : Node)
    (hc : n.Children[i]? = some c) (hd : n.Children[j]? = some d) (hid : d.ID = c.ID) :
    j = i := by
  rw [(h i c hc).1, (h j d hd).1] at hid
  exact Sprint_injective j i (String.append_left_cancel _ _ _ hid)

/-! ## The invariant of the reachable states -/

/-- The current node of a good state, with its path and its parent. -/
theorem Good.curr_node {m : CLITree} (hG : Good m) :
    ∃ (q : List Nat) (i : Nat) (curr par : Node),
      GoodPath m.tree (q ++ [i]) ∧ m.tree.findPath m.cursor = some (q ++ [i]) ∧
      m.tree.find m.cursor = some curr ∧ m.tree.get? (q ++ [i]) = some curr ∧
      m.tree.get? q = some par ∧ par.Children[i]? = some curr ∧
      m.tree.deref curr.Parent = some par ∧ curr.Value ≠ none ∧ curr.isRoot = false ∧
      curr.ID = m.cursor := by
  obtain ⟨wf, p, hp, hgood, hfind⟩ := hG
  obtain ⟨q, i, rfl⟩ := List.exists_snoc_of_ne_nil p hp
  obtain ⟨curr, hget, hid⟩ := Node.findPath_get _ _ _ hfind
  obtain ⟨par, h1, h2, -, h4, -, h6⟩ := wf.parent q i curr hget
  refine ⟨q, i, curr, par, hgood, hfind, ?_, hget, h1, h2, h4, h6,
    wf.isRoot_false _ _ hget hp, hid⟩
  rw [Node.find_eq_findPath, hfind]
  exact hget

/-- Moving the cursor to the ID of the node at a good path keeps the invariant. -/
theorem Good.move_cursor {m : CLITree} (hG : Good m) (p : List Nat) (n : Node) (hp : p ≠ [])
    (hgood : GoodPath m.tree p) (hn : m.tree.get? p = some n)
    (hcanon : Canon m.tree p) : Good { m with cursor := n.ID } := by
  obtain ⟨n1, h1, h2⟩ := hcanon
  rw [hn] at h1
  cases h1
  exact ⟨hG.1, p, hp, hgood, h2⟩

/-- From a good state `Update` never panics, keeps the tree and lands in a good
state. -/
theorem Good.step_good {m : CLITree} (hG : Good m) (objs : Nat → V) (msg : Msg) :
    ∃ objs1 m1 cmd, m.Update objs msg = some (objs1, m1, cmd) ∧ Good m1 := by
  obtain ⟨q, i, curr, par, hgood, -, hfind, hget, hpar, hchild, hderef, hval, hroot, -⟩ :=
    hG.curr_node
  have wf := hG.1
  have hok : ChildrenOK par := wf.children q par hpar
  have huniq : ∀ (j : Nat) (d : Node), par.Children[j]? = some d → d.ID = curr.ID → j = i :=
    fun j d hd hid => hok.unique i j curr d hchild hd hid
  cases msg with
  | other => exact ⟨objs, m, none, rfl, hG⟩
  | KeyMsg key =>
    by_cases h1 : key = "ctrl+c" ∨ key = "q" ∨ key = "enter"
    · exact ⟨objs, m, some .Quit, Update_quit objs m key h1, hG⟩
    by_cases h2 : key = "up" ∨ key = "k"
    · rw [Update_up objs m key h2, hfind]
      simp only [Node.previous_eq curr m.tree par hroot hderef]
      rw [Node.previousLoop_spec par.Children curr.ID i curr hchild rfl huniq
        par.Children 0 rfl (Nat.zero_le i)]
      by_cases hi : i = 0
      · simp only [hi, if_true]
        exact ⟨objs, m, none, rfl, hG⟩
      · simp only [hi, if_false]
        obtain ⟨d, hd⟩ := getElem?_of_le_index par.Children (i - 1) i curr hchild (by omega)
        rw [hd]
        refine ⟨objs, _, none, rfl, hG.move_cursor (q ++ [i - 1]) d (by simp)
          (hgood.sibling (by omega)) ?_ (hgood q i (i - 1) (List.prefix_refl _) (by omega))⟩
        rw [Node.get?_snoc _ _ _ _ hpar, hd]
    by_cases h3 : key = "down" ∨ key = "j"
    · rw [Update_down objs m key h3, hfind]
      simp only [Node.next_eq curr m.tree par hderef]
      rw [Node.nextLoop_spec par.Children curr.ID i curr hchild rfl huniq
        par.Children 0 rfl (Nat.zero_le i)]
      by_cases hi : i = par.Children.length - 1
      · simp only [if_pos hi]
        exact ⟨objs, m, none, rfl, hG⟩
      · simp only [if_neg hi]
        cases hs : par.Children[i + 1]? with
        | none => exact ⟨objs, m, none, rfl, hG⟩
        | some s =>
          have hsget : m.tree.get? (q ++ [i + 1]) = some s := by
            rw [Node.get?_snoc _ _ _ _ hpar, hs]
          obtain ⟨P, hP1, hP2, hP3⟩ := wf.good_next q i hgood s hsget
          exact ⟨objs, _, none, rfl, wf, P, hP2, hP3, hP1⟩
    by_cases h4 : key = "l" ∨ key = "right"
    · rw [Update_right objs m key h4, hfind]
      simp only
      by_cases hleaf : curr.isLeaf = true
      · cases hv : curr.Value with
        | none => exact absurd hv hval
        | some r =>
          simp only [hleaf, if_true, Node.Update, hv]
          exact ⟨_, m, none, rfl, hG⟩
      · simp only [hleaf]
        cases hc : curr.Children with
        | nil => simp [Node.isLeaf, hc] at hleaf
        | cons c rest =>
          have hc0 : curr.Children[0]? = some c := by simp [hc]
          have hcan := wf.canon_first (q ++ [i]) curr c hget hgood hc0
          refine ⟨objs, _, none, rfl, hG.move_cursor ((q ++ [i]) ++ [0]) c (by simp)
            (GoodPath.snoc hgood (fun j hj => ?_)) ?_ hcan⟩
          · have : j = 0 := by omega
            subst this
            exact hcan
          · rw [Node.get?_snoc _ _ _ _ hget, hc0]
    by_cases h5 : key = "delete" ∨ key = "left" ∨ key = "h" ∨ key = "backspace"
    · rw [Update_left objs m key h5, hfind]
      simp only [hderef]
      by_cases hr : par.isRoot = true
      · simp only [hr, if_true]
        exact ⟨objs, m, none, rfl, hG⟩
      · simp only [hr]
        have hq : q ≠ [] := by
          rintro rfl
          simp at hpar
          subst hpar
          exact hr wf.root_isRoot
        obtain ⟨q1, i1, rfl⟩ := List.exists_snoc_of_ne_nil q hq
        exact ⟨objs, _, none, rfl, hG.move_cursor (q1 ++ [i1]) par hq
          (hgood.of_prefix (List.prefix_append _ _)) hpar
          (hgood q1 i1 i1 (List.prefix_append _ _) (Nat.le_refl _))⟩
    · exact ⟨objs, m, none, Update_ignored objs m key h1 h2 h3 h4 h5, hG⟩

/-- Every reachable state is good. -/
theorem Reachable.good {cp : ChildProvider} {objs : Nat → V} {m : CLITree}
    (h : Reachable cp objs m) : Good m := by
  induction h with
  | start objs m h => exact NewTree_good cp m h
  | step objs objs1 m m1 msg cmd _ hstep ih =>
    obtain ⟨o2, m2, c2, h2, hG⟩ := ih.step_good objs msg
    rw [h2] at hstep
    simp only [Option.some.injEq, Prod.mk.injEq] at hstep
    rw [← hstep.2.1]
    exact hG

/-! ## C9: ascend, then descend -/

/-- C9: in a reachable state, with `par` the parent of the current node: if `par`
is the root, an ascend key returns the state as it was; otherwise it sets the
cursor to the ID of `par`, which `find` resolves to `par` itself, and a descend key
pressed next sets the cursor to the ID of the first child of `par`; the store is
never changed. -/
theorem c9_ascend_then_descend (cp : ChildProvider) (objs : Nat → V) (m : CLITree)
    (hr : Reachable cp objs m) (ascend : String)
    (ha : ascend = "delete" ∨ ascend = "left" ∨ ascend = "h" ∨ ascend = "backspace")
    (descend : String) (hd : descend = "right" ∨ descend = "l") :
    ∃ curr par, m.tree.find m.cursor = some curr ∧ m.tree.deref curr.Parent = some par ∧
      (par.isRoot = true → m.Update objs (.KeyMsg ascend) = some (objs, m, none)) ∧
      (par.isRoot = false →
        ∃ c, par.Children[0]? = some c ∧
          m.Update objs (.KeyMsg ascend) = some (objs, { m with cursor := par.ID }, none) ∧
          m.tree.find par.ID = some par ∧
          CLITree.Update objs { m with cursor := par.ID } (.KeyMsg descend) =
            some (objs, { m with cursor := c.ID }, none)) := by
  obtain ⟨q, i, curr, par, hgood, -, hfind, hget, hpar, hchild, hderef, -, -, -⟩ :=
    hr.good.curr_node
  have wf := hr.good.1
  refine ⟨curr, par, hfind, hderef, ?_, ?_⟩
  · intro hroot
    rw [Update_left objs m ascend ha, hfind]
    simp [hderef, hroot]
  · intro hroot
    obtain ⟨c, hc⟩ := getElem?_of_le_index par.Children 0 i curr hchild (Nat.zero_le i)
    have hq : q ≠ [] := by
      rintro rfl
      simp at hpar
      subst hpar
      rw [wf.root_isRoot] at hroot
      cases hroot
    obtain ⟨q1, i1, rfl⟩ := List.exists_snoc_of_ne_nil q hq
    obtain ⟨par1, h1, h2⟩ := hgood q1 i1 i1 (List.prefix_append _ _) (Nat.le_refl _)
    rw [hpar] at h1
    cases h1
    have hfp : m.tree.find par.ID = some par := by
      rw [Node.find_eq_findPath, h2]; exact hpar
    refine ⟨c, hc, ?_, hfp, ?_⟩
    · rw [Update_left objs m ascend ha, hfind]
      simp [hderef, hroot]
    · rw [Update_right objs _ descend hd.symm]
      simp only [hfp]
      have hleaf : par.isLeaf = false := by
        cases hcs : par.Children with
        | nil => simp [hcs] at hc
        | cons c1 rest => simp [Node.isLeaf, hcs]
      cases hcs : par.Children with
      | nil => simp [hcs] at hc
      | cons c1 rest =>
        have : c1 = c := by simpa [hcs] using hc
        subst this
        simp [hleaf]

/-- The state of the sample menu after one "right": the cursor on the first
`Secrets`. -/
theorem menu_reach_secrets :
    Reachable menu menuObjs { menuStart with cursor := "00" } :=
  Reachable.step menuObjs menuObjs menuStart { menuStart with cursor := "00" }
    (.KeyMsg "right") none (Reachable.start menuObjs menuStart rfl) rfl

/-- Witness of C9: the sample menu with the cursor on the first `Secrets`, the
keys "left" and "right". -/
theorem c9_ascend_then_descend_witness :
    Reachable menu menuObjs { menuStart with cursor := "00" } ∧
    ("left" = "delete" ∨ "left" = "left" ∨ "left" = "h" ∨ "left" = "backspace") ∧
    ("right" = "right" ∨ "right" = "l") ∧
    ∃ curr par, menuStart.tree.find "00" = some curr ∧
      menuStart.tree.deref curr.Parent = some par ∧
      (par.isRoot = true →
        CLITree.Update menuObjs { menuStart with cursor := "00" } (.KeyMsg "left") =
          some (menuObjs, { menuStart with cursor := "00" }, none)) ∧
      (par.isRoot = false →
        ∃ c, par.Children[0]? = some c ∧
          CLITree.Update menuObjs { menuStart with cursor := "00" } (.KeyMsg "left") =
            some (menuObjs, { menuStart with cursor := par.ID }, none) ∧
          menuStart.tree.find par.ID = some par ∧
          CLITree.Update menuObjs { menuStart with cursor := par.ID } (.KeyMsg "right") =
            some (menuObjs, { menuStart with cursor := c.ID }, none)) :=
  ⟨menu_reach_secrets, Or.inr (Or.inl rfl), Or.inl rfl,
    c9_ascend_then_descend menu menuObjs { menuStart with cursor := "00" } menu_reach_secrets
      "left" (Or.inr (Or.inl rfl)) "right" (Or.inl rfl)⟩

/-! ## C11: what `Update` can change -/

/-- C11: whatever the state and the message, a step of `Update` returns the tree
it was given (same nodes, IDs, parents, children), and the same object store,
unless the key is "right" or "l" and the current node is a leaf: then the model is
returned as it was and the store differs only at the object of that leaf, to which
`Update` was applied once. -/
theorem c11_update_frame (objs objs1 : Nat → V) (m m1 : CLITree) (msg : Msg)
    (cmd : Option Cmd) (h : m.Update objs msg = some (objs1, m1, cmd)) :
    m1.tree = m.tree ∧
    (objs1 = objs ∨
      (m1 = m ∧ (msg = .KeyMsg "right" ∨ msg = .KeyMsg "l") ∧
        ∃ curr r, m.tree.find m.cursor = some curr ∧ curr.isLeaf = true ∧
          curr.Value = some r ∧
          objs1 = Function.update objs r (NodeInterface.Update (objs r)))) := by
  cases msg with
  | other =>
    rw [Update_other] at h
    simp only [Option.some.injEq, Prod.mk.injEq] at h
    exact ⟨by rw [← h.2.1], Or.inl h.1.symm⟩
  | KeyMsg key =>
    by_cases h1 : key = "ctrl+c" ∨ key = "q" ∨ key = "enter"
    · rw [Update_quit objs m key h1] at h
      simp only [Option.some.injEq, Prod.mk.injEq] at h
      exact ⟨by rw [← h.2.1], Or.inl h.1.symm⟩
    by_cases h2 : key = "up" ∨ key = "k"
    · rw [Update_up objs m key h2] at h
      split at h
      · cases h
      · split at h
        · cases h
        · simp only [Option.some.injEq, Prod.mk.injEq] at h
          exact ⟨by rw [← h.2.1], Or.inl h.1.symm⟩
        · simp only [Option.some.injEq, Prod.mk.injEq] at h
          exact ⟨by rw [← h.2.1], Or.inl h.1.symm⟩
    by_cases h3 : key = "down" ∨ key = "j"
    · rw [Update_down objs m key h3] at h
      split at h
      · cases h
      · split at h
        · cases h
        · simp only [Option.some.injEq, Prod.mk.injEq] at h
          exact ⟨by rw [← h.2.1], Or.inl h.1.symm⟩
        · simp only [Option.some.injEq, Prod.mk.injEq] at h
          exact ⟨by rw [← h.2.1], Or.inl h.1.symm⟩
    by_cases h4 : key = "l" ∨ key = "right"
    · rw [Update_right objs m key h4] at h
      cases hf : m.tree.find m.cursor with
      | none => simp [hf] at h
      | some curr =>
        simp only [hf] at h
        by_cases hleaf : curr.isLeaf = true
        · simp only [hleaf, if_true] at h
          cases hv : curr.Value with
          | none => simp [Node.Update, hv] at h
          | some r =>
            simp only [Node.Update, hv, Option.some.injEq, Prod.mk.injEq] at h
            refine ⟨by rw [← h.2.1], Or.inr ⟨h.2.1.symm, ?_, curr, r, rfl, hleaf, hv, h.1.symm⟩⟩
            rcases h4 with h4 | h4
            · exact Or.inr (by rw [h4])
            · exact Or.inl (by rw [h4])
        · have hl : curr.isLeaf = false := by simpa using hleaf
          simp only [hl, Bool.false_eq_true, if_false] at h
          split at h
          · cases h
          · simp only [Option.some.injEq, Prod.mk.injEq] at h
            exact ⟨by rw [← h.2.1], Or.inl h.1.symm⟩
    by_cases h5 : key = "delete" ∨ key = "left" ∨ key = "h" ∨ key = "backspace"
    · rw [Update_left objs m key h5] at h
      split at h
      · cases h
      · split at h
        · cases h
        · split at h
          · simp only [Option.some.injEq, Prod.mk.injEq] at h
            exact ⟨by rw [← h.2.1], Or.inl h.1.symm⟩
          · simp only [Option.some.injEq, Prod.mk.injEq] at h
            exact ⟨by rw [← h.2.1], Or.inl h.1.symm⟩
    · rw [Update_ignored objs m key h1 h2 h3 h4 h5] at h
      simp only [Option.some.injEq, Prod.mk.injEq] at h
      exact ⟨by rw [← h.2.1], Or.inl h.1.symm⟩

/-- Witness of C11: the key "right" in the start state of the sample menu. -/
theorem c11_update_frame_witness :
    menuStart.Update menuObjs (.KeyMsg "right") =
      some (menuObjs, { menuStart with cursor := "00" }, none) ∧
    ({ menuStart with cursor := "00" } : CLITree).tree = menuStart.tree ∧
    (menuObjs = menuObjs ∨
      (({ menuStart with cursor := "00" } : CLITree) = menuStart ∧
        (Msg.KeyMsg "right" = .KeyMsg "right" ∨ Msg.KeyMsg "right" = .KeyMsg "l") ∧
        ∃ curr r, menuStart.tree.find menuStart.cursor = some curr ∧ curr.isLeaf = true ∧
          curr.Value = some r ∧
          menuObjs = Function.update menuObjs r (NodeInterface.Update (menuObjs r)))) :=
  ⟨rfl, c11_update_frame menuObjs menuObjs menuStart { menuStart with cursor := "00" }
    (.KeyMsg "right") none rfl⟩

/-! ## C18: the empty input -/

/-- C18, an input with a top-level child on which `NewTree` does not return a
session: a slice whose one element is nil or of a type without the methods of
`NodeInterface`, on which the type assertion of `newTree` panics; and a slice
whose one element has a `Children` method that cannot be called without
arguments. -/
theorem c18_failing_element :
    (ChildProvider.slice [Obj.mk 0 .foreign []]).children ≠ [] ∧
    newTree 0 none (.slice [.mk 0 .foreign []]) "" = none ∧
    NewTree (.slice [.mk 0 .foreign []]) = none ∧
    (ChildProvider.slice [Obj.mk 0 .badAccessor []]).children ≠ [] ∧
    newTree 0 none (.slice [.mk 0 .badAccessor []]) "" = none ∧
    NewTree (.slice [.mk 0 .badAccessor []]) = none :=
  ⟨List.cons_ne_nil _ _, rfl, rfl, List.cons_ne_nil _ _, rfl, rfl⟩

/-- C18, as the code has it.  On an input without a top-level child `NewTree`
returns no session: on nil, an empty sequence, a value without a usable `Children`
accessor or an accessor returning an empty sequence, `newTree` returns a root
without children and taking element 0 of them fails.  On an input with at least
one top-level child `NewTree` returns a session, on the tree `newTree` returned,
when no discovered object makes `newTree` fail; when one does (an element that is
nil or does not implement `NodeInterface`, a `Children` method whose call without
arguments panics), `newTree` and `NewTree` fail. -/
theorem c18_empty_input (cp : ChildProvider) :
    (cp.children = [] → NewTree cp = none) ∧
    (cp.children = [] → cp.sound = true →
      ∃ root next, newTree 0 none cp "" = some (root, next) ∧ root.Children = []) ∧
    (cp.children ≠ [] → cp.sound = true →
      ∃ m root next, NewTree cp = some m ∧ newTree 0 none cp "" = some (root, next) ∧
        m.tree = root) ∧
    (cp.sound = false → newTree 0 none cp "" = none ∧ NewTree cp = none) := by
  have hnone : cp.sound = false → newTree 0 none cp "" = none ∧ NewTree cp = none := by
    intro hs
    have h1 : newTree 0 none cp "" = none := by rw [newTree_eq, hs]; rfl
    exact ⟨h1, by simp [NewTree, h1]⟩
  refine ⟨?_, ?_, ?_, hnone⟩
  · intro h
    cases hs : cp.sound with
    | false => exact (hnone hs).2
    | true =>
      have hc : (buildTree 0 none cp "").1.Children = [] := by
        rw [buildTree_eq, h]; rfl
      rw [NewTree_of_sound cp hs, hc]
  · intro h hs
    refine ⟨(buildTree 0 none cp "").1, (buildTree 0 none cp "").2,
      newTree_of_sound 0 none cp "" hs, ?_⟩
    rw [buildTree_eq, h]; rfl
  · intro h hs
    obtain ⟨m, hm⟩ := NewTree_isSome cp hs h
    exact ⟨m, (buildTree 0 none cp "").1, (buildTree 0 none cp "").2, hm,
      newTree_of_sound 0 none cp "" hs, (NewTree_tree cp m hm).1⟩

/-- Witness of C18: nil has no top-level child, the sample menu has two and no
failing object, a slice of one nil element has a failing object. -/
theorem c18_empty_input_witness :
    (ChildProvider.nil.children = [] ∧ NewTree ChildProvider.nil = none) ∧
    (ChildProvider.nil.sound = true ∧
      ∃ root next, newTree 0 none ChildProvider.nil "" = some (root, next) ∧
        root.Children = []) ∧
    (menu.children ≠ [] ∧ menu.sound = true ∧
      ∃ m root next, NewTree menu = some m ∧ newTree 0 none menu "" = some (root, next) ∧
        m.tree = root) ∧
    ((ChildProvider.slice [Obj.mk 0 .foreign []]).sound = false ∧
      newTree 0 none (.slice [.mk 0 .foreign []]) "" = none ∧
      NewTree (.slice [.mk 0 .foreign []]) = none) :=
  ⟨⟨rfl, (c18_empty_input ChildProvider.nil).1 rfl⟩,
    ⟨rfl, (c18_empty_input ChildProvider.nil).2.1 rfl rfl⟩,
    ⟨List.cons_ne_nil _ _, by decide,
      (c18_empty_input menu).2.2.1 (List.cons_ne_nil _ _) (by decide)⟩,
    ⟨rfl, (c18_empty_input (.slice [.mk 0 .foreign []])).2.2.2 rfl⟩⟩

/-! ## C12: the sample scenario -/

theorem menu_step (o1 o2 : Nat → MenuObj) (a b : String) (msg : Msg) (cmd : Option Cmd)
    (h : CLITree.Update o1 { menuStart with cursor := a } msg =
      some (o2, { menuStart with cursor := b }, cmd)) (rest : List Msg) :
    run o1 { menuStart with cursor := a } (msg :: rest) =
      run o2 { menuStart with cursor := b } rest :=
  run_cons o1 o2 _ _ msg cmd rest h

theorem scenario_run :
    run menuObjs menuStart scenarioKeys =
      some (menuObjsAfter, { menuStart with cursor := "1" }) := by
  show run menuObjs { menuStart with cursor := "0" } _ = _
  unfold scenarioKeys
  rw [menu_step menuObjs menuObjs "0" "00" (.KeyMsg "right") none rfl,
    menu_step menuObjs menuObjs "00" "000" (.KeyMsg "right") none rfl,
    menu_step menuObjs menuObjs "000" "001" (.KeyMsg "down") none rfl,
    menu_step menuObjs menuObjsAfter "001" "001" (.KeyMsg "right") none rfl,
    menu_step menuObjsAfter menuObjsAfter "001" "00" (.KeyMsg "left") none rfl,
    menu_step menuObjsAfter menuObjsAfter "00" "0" (.KeyMsg "left") none rfl,
    menu_step menuObjsAfter menuObjsAfter "0" "1" (.KeyMsg "down") none rfl,
    menu_step menuObjsAfter menuObjsAfter "1" "1" (.KeyMsg "q") (some .Quit) rfl]
  rfl

/-- C12, counterexample: from the state `NewTree` returns for the sample menu, the
keys right, right, down, right, left, left, down, q end with `value1` not selected:
the first two keys only descend to `value1`, and the fourth activates `value2`. -/
theorem c12_value1_not_selected :
    NewTree menu = some menuStart ∧
    (run menuObjs menuStart scenarioKeys).map (fun r => r.1 2) =
      some (.Values "value1" false) ∧
    (run menuObjs menuStart scenarioKeys).map (fun r => r.1 2) ≠
      some (.Values "value1" true) := by
  rw [scenario_run]
  exact ⟨rfl, by decide, by decide⟩

/-- C12, amended: the scenario starts one descend after the state `NewTree`
returns for the sample menu, with the cursor on the first `Secrets`.  From there
each of the eight keys does what the scenario says: "right" descends to `value1`,
"right" activates `value1`, "down" moves to `value2`, "right" activates `value2`,
"left" ascends to the `Secrets`, "left" ascends to the first namespace, "down"
moves to the second namespace, "q" quits; the run ends with `value1` and `value2`
selected, `valu3` and `value4` not selected. -/
theorem c12_scenario :
    NewTree menu = some menuStart ∧
    CLITree.Update menuObjs menuStart (.KeyMsg "right") =
      some (menuObjs, { menuStart with cursor := "00" }, none) ∧
    (menuStart.tree.find "0").bind (fun n => n.Name menuObjs) = some "namespace 1" ∧
    (menuStart.tree.find "00").bind (fun n => n.Name menuObjs) = some "secrets" ∧
    (menuStart.tree.find "000").bind (fun n => n.Name menuObjs) = some "value1 ( )" ∧
    (menuStart.tree.find "001").bind (fun n => n.Name menuObjs) = some "value2 ( )" ∧
    (menuStart.tree.find "1").bind (fun n => n.Name menuObjs) = some "namespace 2" ∧
    CLITree.Update menuObjs { menuStart with cursor := "00" } (.KeyMsg "right") =
      some (menuObjs, { menuStart with cursor := "000" }, none) ∧
    CLITree.Update menuObjs { menuStart with cursor := "000" } (.KeyMsg "right") =
      some (menuObjsOne, { menuStart with cursor := "000" }, none) ∧
    CLITree.Update menuObjsOne { menuStart with cursor := "000" } (.KeyMsg "down") =
      some (menuObjsOne, { menuStart with cursor := "001" }, none) ∧
    CLITree.Update menuObjsOne { menuStart with cursor := "001" } (.KeyMsg "right") =
      some (menuObjsBoth, { menuStart with cursor := "001" }, none) ∧
    CLITree.Update menuObjsBoth { menuStart with cursor := "001" } (.KeyMsg "left") =
      some (menuObjsBoth, { menuStart with cursor := "00" }, none) ∧
    CLITree.Update menuObjsBoth { menuStart with cursor := "00" } (.KeyMsg "left") =
      some (menuObjsBoth, { menuStart with cursor := "0" }, none) ∧
    CLITree.Update menuObjsBoth { menuStart with cursor := "0" } (.KeyMsg "down") =
      some (menuObjsBoth, { menuStart with cursor := "1" }, none) ∧
    CLITree.Update menuObjsBoth { menuStart with cursor := "1" } (.KeyMsg "q") =
      some (menuObjsBoth, { menuStart with cursor := "1" }, some .Quit) ∧
    run menuObjs { menuStart with cursor := "00" } scenarioKeys =
      some (menuObjsBoth, { menuStart with cursor := "1" }) ∧
    menuObjsBoth 2 = .Values "value1" true ∧ menuObjsBoth 3 = .Values "value2" true ∧
    menuObjsBoth 6 = .Values "valu3" false ∧ menuObjsBoth 7 = .Values "value4" false := by
  refine ⟨rfl, rfl, by decide, by decide, by decide, by decide, by decide,
    rfl, rfl, rfl, rfl, rfl, rfl, rfl, rfl, ?_, by decide, by decide, by decide, by decide⟩
  unfold scenarioKeys
  rw [menu_step menuObjs menuObjs "00" "000" (.KeyMsg "right") none rfl,
    menu_step menuObjs menuObjsOne "000" "000" (.KeyMsg "right") none rfl,
    menu_step menuObjsOne menuObjsOne "000" "001" (.KeyMsg "down") none rfl,
    menu_step menuObjsOne menuObjsBoth "001" "001" (.KeyMsg "right") none rfl,
    menu_step menuObjsBoth menuObjsBoth "001" "00" (.KeyMsg "left") none rfl,
    menu_step menuObjsBoth menuObjsBoth "00" "0" (.KeyMsg "left") none rfl,
    menu_step menuObjsBoth menuObjsBoth "0" "1" (.KeyMsg "down") none rfl,
    menu_step menuObjsBoth menuObjsBoth "1" "1" (.KeyMsg "q") (some .Quit) rfl]
  rfl

/-! ## C13: activating a `Values` twice -/

theorem Function.update_update_self {α : Type} (f : Nat → α) (r : Nat) (x : α) :
    Function.update (Function.update f r x) r (f r) = f := by
  funext k
  by_cases h : k = r
  · subst h; simp
  · simp [Function.update, h]

theorem utf8ByteSize_append_eq (s t : String) :
    (s ++ t).utf8ByteSize = s.utf8ByteSize + t.utf8ByteSize := by
  cases s with
  | mk a =>
    cases t with
    | mk b =>
      show String.utf8ByteSize ⟨a ++ b⟩ = _
      simp [String.utf8Len_append]

/-- C13: in a state of a session on sample objects whose current node is a leaf
holding a `Values`, one activation (key "right" or "l") flips `Selected`,
turns the label `Name()` from the name followed by " ( )" into the name followed by
" (x)" or back, and keeps the length of the label; a second activation restores
the whole store, hence `Selected` and the label. -/
theorem c13_activate_twice (objs : Nat → MenuObj) (m : CLITree) (key : String)
    (hk : key = "right" ∨ key = "l")
    (r : Nat) (name : String) (sel : Bool)
    (hleaf : (m.tree.find m.cursor).map Node.isLeaf = some true)
    (hval : (m.tree.find m.cursor).bind Node.Value = some r)
    (hobj : objs r = .Values name sel) :
    ∃ objs1, m.Update objs (.KeyMsg key) = some (objs1, m, none) ∧
      objs1 r = .Values name (!sel) ∧
      (∀ k, k ≠ r → objs1 k = objs k) ∧
      NodeInterface.Name (objs r) = name ++ (if sel then " (x)" else " ( )") ∧
      NodeInterface.Name (objs1 r) = name ++ (if sel then " ( )" else " (x)") ∧
      (NodeInterface.Name (objs1 r)).length = (NodeInterface.Name (objs r)).length ∧
      (NodeInterface.Name (objs1 r)).utf8ByteSize =
        (NodeInterface.Name (objs r)).utf8ByteSize ∧
      m.Update objs1 (.KeyMsg key) = some (objs, m, none) := by
  cases hf : m.tree.find m.cursor with
  | none => simp [hf] at hleaf
  | some curr =>
    simp only [hf, Option.map_some', Option.some.injEq, Option.some_bind] at hleaf hval
    have hup : ∀ o : Nat → MenuObj, m.Update o (.KeyMsg key) =
        some (Function.update o r (NodeInterface.Update (o r)), m, none) := by
      intro o
      rw [Update_right o m key hk.symm, hf]
      simp [hleaf, Node.Update, hval]
    refine ⟨_, hup objs, ?_, ?_, ?_, ?_, ?_, ?_, ?_⟩
    · simp [hobj, NodeInterface.Update, MenuObj.Update]
    · intro k hk1
      simp [Function.update, hk1]
    · rw [hobj]; cases sel <;> rfl
    · simp only [Function.update_same, hobj]
      cases sel <;> rfl
    · simp only [Function.update_same, hobj]
      cases sel <;>
        simp only [NodeInterface.Name, NodeInterface.Update, MenuObj.Update, MenuObj.Name,
          Bool.not_true, Bool.not_false, String.length_append] <;> rfl
    · simp only [Function.update_same, hobj]
      cases sel <;>
        simp only [NodeInterface.Name, NodeInterface.Update, MenuObj.Update, MenuObj.Name,
          Bool.not_true, Bool.not_false, utf8ByteSize_append_eq] <;> rfl
    · rw [hup]
      have e : NodeInterface.Update
          (Function.update objs r (NodeInterface.Update (objs r)) r) = objs r := by
        simp only [Function.update_same, hobj]
        cases sel <;> rfl
      rw [e, Function.update_update_self]

/-- Witness of C13: `value1` of the sample menu, activated with "right". -/
theorem c13_activate_twice_witness :
    ("right" = "right" ∨ "right" = "l") ∧
    (menuStart.tree.find "000").map Node.isLeaf = some true ∧
    (menuStart.tree.find "000").bind Node.Value = some 2 ∧
    menuObjs 2 = .Values "value1" false ∧
    ∃ objs1, CLITree.Update menuObjs { menuStart with cursor := "000" } (.KeyMsg "right") =
        some (objs1, { menuStart with cursor := "000" }, none) ∧
      objs1 2 = .Values "value1" (!false) ∧
      (∀ k, k ≠ 2 → objs1 k = menuObjs k) ∧
      NodeInterface.Name (menuObjs 2) = "value1" ++ (if false then " (x)" else " ( )") ∧
      NodeInterface.Name (objs1 2) = "value1" ++ (if false then " ( )" else " (x)") ∧
      (NodeInterface.Name (objs1 2)).length = (NodeInterface.Name (menuObjs 2)).length ∧
      (NodeInterface.Name (objs1 2)).utf8ByteSize =
        (NodeInterface.Name (menuObjs 2)).utf8ByteSize ∧
      CLITree.Update objs1 { menuStart with cursor := "000" } (.KeyMsg "right") =
        some (menuObjs, { menuStart with cursor := "000" }, none) :=
  ⟨Or.inl rfl, by decide, by decide, rfl,
    c13_activate_twice menuObjs { menuStart with cursor := "000" } "right" (Or.inl rfl) 2
      "value1" false (by decide) (by decide) rfl⟩

/-! ## C19: at most ten children -/

theorem Obj.fanoutOK_eq (o : Obj) :
    o.fanoutOK = (decide (o.children.length ≤ 10) && fanoutAll o.children) := by
  cases o with
  | mk v s es =>
    cases s <;> simp [Obj.fanoutOK, Obj.children, Obj.provider, ChildProvider.children, fanoutAll]

theorem fanoutAll_mem (es : List Obj) (h : fanoutAll es = true) : ∀ e ∈ es, e.fanoutOK = true := by
  induction es with
  | nil => intro e he; cases he
  | cons x xs ih =>
    rw [fanoutAll, Bool.and_eq_true] at h
    intro e he
    rcases List.mem_cons.mp he with rfl | he
    · exact h.1
    · exact ih h.2 e he

theorem layout_narrow (o : Obj) : ∀ (a : Nat) (par : Option Nat) (ID : String),
    o.fanoutOK = true → Narrow (layout a par o ID) := by
  induction o using Obj.induct_children with
  | h o ih =>
    intro a par ID hf p m hm
    rw [Obj.fanoutOK_eq, Bool.and_eq_true, decide_eq_true_eq] at hf
    cases p with
    | nil =>
      simp at hm
      subst hm
      rw [(layout_fields a par o ID).2.2.2.2, layoutAll_length]
      exact hf.1
    | cons k q =>
      rw [Node.get?_cons, (layout_fields a par o ID).2.2.2.2, layoutAll_getElem?] at hm
      cases hk : o.children[k]? with
      | none => simp [hk] at hm
      | some e =>
        simp only [hk, Option.map_some', Option.some_bind] at hm
        exact ih e (List.getElem?_mem hk) _ _ _
          (fanoutAll_mem _ hf.2 e (List.getElem?_mem hk)) q m hm

theorem buildTree_narrow (cp : ChildProvider) (h : cp.fanoutOK = true) :
    Narrow (buildTree 0 none cp "").1 := by
  rw [ChildProvider.fanoutOK, Bool.and_eq_true, decide_eq_true_eq] at h
  rw [buildTree_eq]
  intro p m hm
  cases p with
  | nil =>
    simp at hm
    subst hm
    simp only [Node.Children, layoutAll_length]
    exact h.1
  | cons k q =>
    rw [Node.get?_cons] at hm
    simp only [Node.Children, layoutAll_getElem?] at hm
    cases hk : cp.children[k]? with
    | none => simp [hk] at hm
    | some e =>
      simp only [hk, Option.map_some', Option.some_bind] at hm
      exact layout_narrow e _ _ _ (fanoutAll_mem _ h.2 e (List.getElem?_mem hk)) q m hm

theorem Narrow.of_child {n c : Node} (h : Narrow n) (k : Nat) (hk : n.Children[k]? = some c) :
    Narrow c := by
  intro p m hm
  exact h (k :: p) m (by rw [Node.get?_cons, hk]; exact hm)

/-- With at most ten children everywhere, the ID of a node spells its path, one
digit for each index. -/
theorem SubOK.id_of_path : ∀ (p : List Nat) (n m : Node), SubOK n → Narrow n →
    n.get? p = some m →
    m.ID.data = n.ID.data ++ p.map Nat.digitChar ∧ ∀ i ∈ p, i < 10 := by
  intro p
  induction p with
  | nil =>
    intro n m _ _ hm
    simp at hm
    subst hm
    simp
  | cons k p ih =>
    intro n m hs hn hm
    rw [Node.get?_cons] at hm
    cases hk : n.Children[k]? with
    | none => simp [hk] at hm
    | some c =>
      simp only [hk, Option.some_bind] at hm
      have hk10 : k < 10 := by
        have h1 : k < n.Children.length := by
          by_contra hlt
          rw [List.getElem?_eq_none (by omega)] at hk
          cases hk
        have h2 := hn [] n (by simp)
        omega
      obtain ⟨h1, h2⟩ := ih c m (hs.child k hk) (hn.of_child k hk) hm
      constructor
      · rw [h1, hs.child_data k hk, toDigits_small k hk10]
        simp
      · intro i hi
        rcases List.mem_cons.mp hi with rfl | hi
        · exact hk10
        · exact h2 i hi

theorem digits_path_inj : ∀ (p q : List Nat), (∀ i ∈ p, i < 10) → (∀ i ∈ q, i < 10) →
    p.map Nat.digitChar = q.map Nat.digitChar → p = q := by
  intro p
  induction p with
  | nil =>
    intro q _ _ h
    cases q with
    | nil => rfl
    | cons b q => simp at h
  | cons a p ih =>
    intro q hp hq h
    cases q with
    | nil => simp at h
    | cons b q =>
      simp only [List.map_cons, List.cons.injEq] at h
      have e1 := digitChar_inj a b (hp a (List.mem_cons_self _ _)) (hq b (List.mem_cons_self _ _)) h.1
      have e2 := ih q (fun i hi => hp i (List.mem_cons_of_mem _ hi))
        (fun i hi => hq i (List.mem_cons_of_mem _ hi)) h.2
      rw [e1, e2]

/-- With at most ten children everywhere, two nodes with the same ID sit at the
same path. -/
theorem WellFormed.path_unique {root : Node} (wf : WellFormed root) (hn : Narrow root)
    (p q : List Nat) (n m : Node) (hp : root.get? p = some n) (hq : root.get? q = some m)
    (hid : n.ID = m.ID) : p = q := by
  obtain ⟨h1, h2⟩ := SubOK.id_of_path p root n wf.subOK hn hp
  obtain ⟨h3, h4⟩ := SubOK.id_of_path q root m wf.subOK hn hq
  rw [hid, h3] at h1
  exact (digits_path_inj p q h2 h4 (List.append_cancel_left h1.symm))

/-- Every reachable state holds the tree of `buildTree`. -/
theorem Reachable.tree_eq {cp : ChildProvider} {objs : Nat → V} {m : CLITree}
    (h : Reachable cp objs m) : m.tree = (buildTree 0 none cp "").1 := by
  induction h with
  | start objs m h => exact (NewTree_tree cp m h).1
  | step objs objs1 m m1 msg cmd hr hstep ih =>
    obtain ⟨o2, m2, c2, h2, h3, -⟩ := hr.inv.step objs msg
    rw [h2] at hstep
    simp only [Option.some.injEq, Prod.mk.injEq] at hstep
    rw [← hstep.2.1, h3, ih]

/-- C19: when no node of the input has more than ten children, in the tree of the
session `NewTree` returns two nodes with the same ID sit at the same path (IDs are
pairwise distinct), `find` applied to the ID of a node returns that node, and in
every reachable state exactly one node carries the cursor as its ID (the one node
that gets the ">" marker). -/
theorem c19_ids_unique_up_to_ten (cp : ChildProvider) (hcp : cp.fanoutOK = true)
    (m : CLITree) (hm : NewTree cp = some m) :
    (∀ p q : List Nat, (m.tree.get? p).isSome = true →
      (m.tree.get? p).map Node.ID = (m.tree.get? q).map Node.ID → p = q) ∧
    (∀ p : List Nat, (m.tree.get? p).bind (fun n => m.tree.find n.ID) = m.tree.get? p) ∧
    (∀ (W : Type) [NodeInterface W] (objs : Nat → W) (m1 : CLITree), Reachable cp objs m1 →
      ∃ p : List Nat, (m1.tree.get? p).map Node.ID = some m1.cursor ∧
        ∀ q : List Nat, (m1.tree.get? q).map Node.ID = some m1.cursor → q = p) := by
  have wf : WellFormed m.tree := (NewTree_inv cp m hm).1
  have ht := (NewTree_tree cp m hm).1
  have hn : Narrow m.tree := ht ▸ buildTree_narrow cp hcp
  have huniq : ∀ p q : List Nat, (m.tree.get? p).isSome = true →
      (m.tree.get? p).map Node.ID = (m.tree.get? q).map Node.ID → p = q := by
    intro p q hp hpq
    cases h1 : m.tree.get? p with
    | none => simp [h1] at hp
    | some n =>
      cases h2 : m.tree.get? q with
      | none => simp [h1, h2] at hpq
      | some n1 =>
        simp only [h1, h2, Option.map_some', Option.some.injEq] at hpq
        exact wf.path_unique hn p q n n1 h1 h2 hpq
  refine ⟨huniq, ?_, ?_⟩
  · intro p
    cases h1 : m.tree.get? p with
    | none => rfl
    | some n =>
      simp only [Option.some_bind]
      have hs := Node.find_isSome m.tree p n h1
      cases hf : m.tree.find n.ID with
      | none => simp [hf] at hs
      | some r =>
        obtain ⟨hid, q, hq⟩ := Node.find_some m.tree n.ID r hf
        have e := wf.path_unique hn q p r n hq h1 hid
        subst e
        rw [hq] at h1
        exact h1
  · intro W _ objs m1 hr
    have ht1 : m1.tree = m.tree := by rw [hr.tree_eq, ht]
    obtain ⟨q, i, curr, par, -, -, -, hget, -, -, -, -, -, hid⟩ := hr.good.curr_node
    rw [ht1] at hget ⊢
    refine ⟨q ++ [i], by rw [hget]; simp [hid], ?_⟩
    intro q1 hq1
    apply (huniq (q ++ [i]) q1 (by rw [hget]; rfl) ?_).symm
    rw [hq1, hget]
    simp [hid]

/-- Witness of C19: the sample menu, whose nodes have at most two children. -/
theorem c19_ids_unique_up_to_ten_witness :
    menu.fanoutOK = true ∧ NewTree menu = some menuStart ∧
    (∀ p q : List Nat, (menuStart.tree.get? p).isSome = true →
      (menuStart.tree.get? p).map Node.ID = (menuStart.tree.get? q).map Node.ID → p = q) ∧
    (∀ p : List Nat,
      (menuStart.tree.get? p).bind (fun n => menuStart.tree.find n.ID) =
        menuStart.tree.get? p) ∧
    (∀ (W : Type) [NodeInterface W] (objs : Nat → W) (m1 : CLITree),
      Reachable menu objs m1 →
      ∃ p : List Nat, (m1.tree.get? p).map Node.ID = some m1.cursor ∧
        ∀ q : List Nat, (m1.tree.get? q).map Node.ID = some m1.cursor → q = p) :=
  ⟨by decide, rfl, c19_ids_unique_up_to_ten menu (by decide) menuStart rfl⟩

/-! ## Runs of spaces -/

theorem spaces_append (a b : Nat) : spaces a ++ spaces b = spaces (a + b) := by
  apply String.ext
  show List.replicate a ' ' ++ List.replicate b ' ' = List.replicate (a + b) ' '
  rw [← List.replicate_add]

theorem spaces_zero : spaces 0 = "" := rfl

theorem spaces_length (k : Nat) : (spaces k).length = k := by
  simp [spaces, String.length]

theorem utf8Len_replicate_space (k : Nat) : String.utf8Len (List.replicate k ' ') = k := by
  induction k with
  | zero => rfl
  | succ k ih =>
    rw [List.replicate_succ, String.utf8Len_cons, ih]
    rfl

theorem spaces_utf8ByteSize (k : Nat) : (spaces k).utf8ByteSize = k := by
  simp [spaces, utf8Len_replicate_space]

theorem foldl_space (l : List Char) : ∀ k : Nat,
    l.foldl (fun ret _ => ret ++ SPACE) (spaces k) = spaces (k + l.length) := by
  induction l with
  | nil => intro k; rfl
  | cons c l ih =>
    intro k
    rw [List.foldl_cons]
    have e : spaces k ++ SPACE = spaces (k + 1) := spaces_append k 1
    rw [e, ih]
    congr 1
    simp only [List.length_cons]
    omega

/-- The text `sameSizeStrWhiteSpaces` returns: one space more than the characters
of `s`. -/
theorem sameSizeStrWhiteSpaces_eq (s : String) :
    sameSizeStrWhiteSpaces s = spaces (s.length + 1) := by
  have h := foldl_space s.data 1
  rw [Nat.add_comm 1] at h
  exact h

theorem foldl_range_space (n : Nat) : ∀ k : Nat,
    (List.range n).foldl (fun acc _ => acc ++ SPACE) (spaces k) = spaces (k + n) := by
  induction n with
  | zero => intro k; rfl
  | succ n ih =>
    intro k
    rw [List.range_succ, List.foldl_append, ih]
    exact spaces_append (k + n) 1

/-! ## Parents in a well-formed tree -/

theorem WellFormed.isRoot_iff {root : Node} (wf : WellFormed root) (q : List Nat) (par : Node)
    (h : root.get? q = some par) : par.isRoot = true ↔ q = [] := by
  constructor
  · intro hr
    by_contra hq
    rw [wf.isRoot_false q par h hq] at hr
    cases hr
  · rintro rfl
    simp at h
    subst h
    exact wf.root_isRoot

theorem WellFormed.name_some {root : Node} (wf : WellFormed root) (objs : Nat → V)
    (p : List Nat) (n : Node) (h : root.get? p = some n) (hp : p ≠ []) :
    ∃ name pr, n.Name objs = some name ∧ n.Print objs = some pr := by
  obtain ⟨q, i, rfl⟩ := List.exists_snoc_of_ne_nil p hp
  obtain ⟨par, -, -, -, -, -, hv⟩ := wf.parent q i n h
  cases hval : n.Value with
  | none => exact absurd hval hv
  | some r =>
    exact ⟨NodeInterface.Name (objs r), NodeInterface.Print (objs r),
      by simp [Node.Name, hval], by simp [Node.Print, hval]⟩

/-! ## The top-level ancestor -/

theorem Node.branch_succ (n mem : Node) (fuel : Nat) :
    n.branch mem (fuel + 1) =
      match mem.deref n.Parent with
      | none => none
      | some parent => if parent.isRoot then some n else parent.branch mem fuel := by
  rfl

/-- Method `branch` returns the top-level node on the path of `n`, whenever the
bound on the calls is at least the depth of `n`. -/
theorem WellFormed.branch_eq {root : Node} (wf : WellFormed root) (k : Nat) (top : Node)
    (ht : root.get? [k] = some top) : ∀ (len : Nat) (rest : List Nat) (n : Node),
    rest.length = len → root.get? (k :: rest) = some n →
    ∀ fuel : Nat, rest.length < fuel → n.branch root fuel = some top := by
  intro len
  induction len with
  | zero =>
    intro rest n hl hn fuel hf
    have hr : rest = [] := List.length_eq_zero.mp hl
    subst hr
    rw [ht] at hn
    cases hn
    obtain ⟨par, hpar, -, -, hd, -, -⟩ := wf.parent [] k top (by simpa using ht)
    cases fuel with
    | zero => simp at hf
    | succ fuel =>
      rw [Node.branch_succ, hd]
      simp [(wf.isRoot_iff [] par hpar).mpr rfl]
  | succ len ih =>
    intro rest n hl hn fuel hf
    have hne : rest ≠ [] := by
      intro e; rw [e] at hl; cases hl
    obtain ⟨r, i, rfl⟩ := List.exists_snoc_of_ne_nil rest hne
    have hn1 : root.get? ((k :: r) ++ [i]) = some n := by simpa using hn
    obtain ⟨par, hpar, -, -, hd, -, -⟩ := wf.parent (k :: r) i n hn1
    have hlr : r.length = len := by simpa using hl
    cases fuel with
    | zero => simp at hf
    | succ fuel =>
      rw [Node.branch_succ, hd]
      have hnr : par.isRoot = false := wf.isRoot_false _ _ hpar (by simp)
      simp only [hnr, Bool.false_eq_true, if_false]
      exact ih r par hlr hpar fuel (by simp at hf; omega)

/-! ## The node `biggestAncestor` picks -/

/-- The loop of `biggestAncestor` returns the start node or a node of the list,
with a label of greatest byte length among them. -/
theorem biggestLoop_spec (objs : Nat → V) : ∀ (l : List Node) (init : Node) (iname : String),
    init.Name objs = some iname → (∀ c ∈ l, ∃ nm, c.Name objs = some nm) →
    ∃ B bname, biggestLoop objs init l = some B ∧ B.Name objs = some bname ∧
      (B = init ∨ B ∈ l) ∧ iname.utf8ByteSize ≤ bname.utf8ByteSize ∧
      ∀ c ∈ l, ∀ nm, c.Name objs = some nm → nm.utf8ByteSize ≤ bname.utf8ByteSize := by
  intro l
  induction l with
  | nil =>
    intro init iname hi _
    exact ⟨init, iname, rfl, hi, Or.inl rfl, Nat.le_refl _, fun c hc => by cases hc⟩
  | cons s rest ih =>
    intro init iname hi hall
    obtain ⟨sname, hs⟩ := hall s (List.mem_cons_self _ _)
    have hrest : ∀ c ∈ rest, ∃ nm, c.Name objs = some nm :=
      fun c hc => hall c (List.mem_cons_of_mem _ hc)
    rw [biggestLoop]
    simp only [hs, hi]
    by_cases hgt : sname.utf8ByteSize > iname.utf8ByteSize
    · simp only [hgt, if_true]
      obtain ⟨B, bname, h1, h2, h3, h4, h5⟩ := ih s sname hs hrest
      refine ⟨B, bname, h1, h2, ?_, by omega, ?_⟩
      · rcases h3 with h3 | h3
        · exact Or.inr (h3 ▸ List.mem_cons_self _ _)
        · exact Or.inr (List.mem_cons_of_mem _ h3)
      · intro c hc nm hnm
        rcases List.mem_cons.mp hc with rfl | hc
        · rw [hs] at hnm
          cases hnm
          exact h4
        · exact h5 c hc nm hnm
    · simp only [hgt, if_false]
      obtain ⟨B, bname, h1, h2, h3, h4, h5⟩ := ih init iname hi hrest
      refine ⟨B, bname, h1, h2, ?_, h4, ?_⟩
      · rcases h3 with h3 | h3
        · exact Or.inl h3
        · exact Or.inr (List.mem_cons_of_mem _ h3)
      · intro c hc nm hnm
        rcases List.mem_cons.mp hc with rfl | hc
        · rw [hs] at hnm
          cases hnm
          omega
        · exact h5 c hc nm hnm

/-- For a node two levels or more below the root, `biggestAncestor` returns a
child of the node's grandparent: the parent or one of its siblings, with a label of
greatest byte length among them. -/
theorem WellFormed.biggestAncestor_eq {root : Node} (wf : WellFormed root) (objs : Nat → V)
    (q : List Nat) (i j : Nat) (n : Node) (hn : root.get? ((q ++ [i]) ++ [j]) = some n) :
    ∃ (grand par B : Node) (k : Nat) (bname : String),
      root.get? q = some grand ∧ root.get? (q ++ [i]) = some par ∧
      root.deref n.Parent = some par ∧ par.isRoot = false ∧
      getDirectAncestors root n = some grand.Children ∧
      biggestAncestor objs root n = some B ∧ grand.Children[k]? = some B ∧
      root.get? (q ++ [k]) = some B ∧ B.Name objs = some bname ∧
      ∀ (c : Node), c ∈ grand.Children → ∀ nm, c.Name objs = some nm →
        nm.utf8ByteSize ≤ bname.utf8ByteSize := by
  obtain ⟨par, hpar, -, -, hd, -, -⟩ := wf.parent (q ++ [i]) j n hn
  obtain ⟨grand, hgrand, hpc, -, hd2, -, -⟩ := wf.parent q i par hpar
  have hnr : par.isRoot = false := wf.isRoot_false _ _ hpar (by simp)
  have hdir : getDirectAncestors root n = some grand.Children := by
    simp [getDirectAncestors, hd, hnr, hd2]
  obtain ⟨pname, -, hpn, -⟩ := wf.name_some objs (q ++ [i]) par hpar (by simp)
  have hall : ∀ c ∈ grand.Children, ∃ nm, c.Name objs = some nm := by
    intro c hc
    obtain ⟨k, hk⟩ := List.getElem?_of_mem hc
    obtain ⟨nm, -, h1, -⟩ := wf.name_some objs (q ++ [k]) c
      (by rw [Node.get?_snoc root grand q k hgrand]; exact hk) (by simp)
    exact ⟨nm, h1⟩
  obtain ⟨B, bname, h1, h2, h3, -, h5⟩ := biggestLoop_spec objs grand.Children par pname hpn hall
  have hB : B ∈ grand.Children := by
    rcases h3 with h3 | h3
    · rw [h3]; exact List.getElem?_mem hpc
    · exact h3
  obtain ⟨k, hk⟩ := List.getElem?_of_mem hB
  refine ⟨grand, par, B, k, bname, hgrand, hpar, hd, hnr, hdir, ?_, hk, ?_, h2, h5⟩
  · simp [biggestAncestor, hdir, hd, h1]
  · rw [Node.get?_snoc root grand q k hgrand]; exact hk

/-! ## Indentation -/

theorem recursiveIdentation_succ (objs : Nat → V) (mem : Node) (fuel : Nat) (n : Node) :
    recursiveIdentation objs mem (fuel + 1) n =
      match mem.deref n.Parent with
      | none => none
      | some parent =>
        if parent.isRoot then some ""
        else
          match biggestAncestor objs mem n with
          | none => none
          | some identationNode =>
            match recursiveIdentation objs mem fuel identationNode, identationNode.Name objs with
            | some identation, some name => some (identation ++ sameSizeStrWhiteSpaces name)
            | _, _ => none := by
  rfl

/-- Function `recursiveIdentation` returns a run of spaces, the same for every
bound on the depth of the calls that is at least the depth of the node. -/
theorem WellFormed.recursiveIdentation_some {root : Node} (wf : WellFormed root)
    (objs : Nat → V) : ∀ (len : Nat) (p : List Nat) (n : Node), p.length = len → p ≠ [] →
    root.get? p = some n →
    ∃ w : Nat, ∀ fuel : Nat, p.length ≤ fuel →
      recursiveIdentation objs root fuel n = some (spaces w) := by
  intro len
  induction len with
  | zero =>
    intro p n hl hp
    exact absurd (List.length_eq_zero.mp hl) hp
  | succ len ih =>
    intro p n hl hp hn
    obtain ⟨q1, j, rfl⟩ := List.exists_snoc_of_ne_nil p hp
    by_cases hq1 : q1 = []
    · subst hq1
      obtain ⟨par, hpar, -, -, hd, -, -⟩ := wf.parent [] j n hn
      refine ⟨0, fun fuel hf => ?_⟩
      cases fuel with
      | zero => simp at hf
      | succ fuel =>
        rw [recursiveIdentation_succ, hd]
        simp [(wf.isRoot_iff [] par hpar).mpr rfl, spaces_zero]
    · obtain ⟨q, i, rfl⟩ := List.exists_snoc_of_ne_nil q1 hq1
      obtain ⟨grand, par, B, k, bname, -, -, hd, hnr, -, hB, -, hBget, hBn, -⟩ :=
        wf.biggestAncestor_eq objs q i j n hn
      have hlen : (q ++ [k]).length = len := by
        simp only [List.length_append, List.length_singleton] at hl ⊢
        omega
      obtain ⟨w, hw⟩ := ih (q ++ [k]) B hlen (by simp) hBget
      refine ⟨w + (bname.length + 1), fun fuel hf => ?_⟩
      cases fuel with
      | zero => simp at hf
      | succ fuel =>
        rw [recursiveIdentation_succ, hd]
        simp only [hnr, Bool.false_eq_true, if_false, hB, hBn]
        rw [hw fuel (by
          simp only [List.length_append, List.length_singleton] at hf ⊢
          omega)]
        simp only [sameSizeStrWhiteSpaces_eq, spaces_append]

/-! ## Heights -/

theorem Node.height_eq (n : Node) : n.height = 1 + Node.heightIn n.Children := by
  cases n; simp [Node.height, Node.Children]

theorem Node.height_le_heightIn (cs : List Node) : ∀ (k : Nat) (c : Node),
    cs[k]? = some c → c.height ≤ Node.heightIn cs := by
  induction cs with
  | nil => intro k c h; simp at h
  | cons d rest ih =>
    intro k c h
    rw [Node.heightIn]
    cases k with
    | zero =>
      simp at h
      subst h
      exact Nat.le_max_left _ _
    | succ k => exact (ih k c (by simpa using h)).trans (Nat.le_max_right _ _)

/-- A path in a tree is shorter than the tree is high. -/
theorem Node.length_lt_height : ∀ (p : List Nat) (n m : Node), n.get? p = some m →
    p.length + m.height ≤ n.height := by
  intro p
  induction p with
  | nil =>
    intro n m h
    simp at h
    subst h
    simp
  | cons k p ih =>
    intro n m h
    rw [Node.get?_cons] at h
    cases hk : n.Children[k]? with
    | none => simp [hk] at h
    | some c =>
      simp only [hk, Option.some_bind] at h
      have h1 := ih c m h
      have h2 := Node.height_le_heightIn _ k c hk
      rw [Node.height_eq n]
      simp only [List.length_cons]
      omega

theorem Node.height_pos (n : Node) : 1 ≤ n.height := by
  rw [Node.height_eq]; omega

/-! ## The indentation of a first child -/

/-- For a node two levels or more below the root, `identation` is one space more
than the characters of the label `biggestAncestor` picks. -/
theorem WellFormed.identation_eq {root : Node} (wf : WellFormed root) (objs : Nat → V)
    (q : List Nat) (i j : Nat) (n : Node) (hn : root.get? ((q ++ [i]) ++ [j]) = some n) :
    ∃ (B : Node) (bname : String), biggestAncestor objs root n = some B ∧
      B.Name objs = some bname ∧
      identation objs root n = some (spaces (bname.length + 1)) := by
  obtain ⟨grand, par, B, k, bname, -, -, hd, hnr, -, hB, -, -, hBn, -⟩ :=
    wf.biggestAncestor_eq objs q i j n hn
  refine ⟨B, bname, hB, hBn, ?_⟩
  simp [identation, hd, hnr, hB, hBn, sameSizeStrWhiteSpaces_eq]

theorem parentIdentation_eq (objs : Nat → V) (n : Node) (name : String) (ident : String)
    (hr : n.isRoot = false) (hname : n.Name objs = some name) :
    parentIdentation objs n ident =
      some (spaces (ident.utf8ByteSize - name.utf8ByteSize - 1)) := by
  simp only [parentIdentation, hr, Bool.false_eq_true, if_false, hname]
  have h := foldl_range_space (ident.utf8ByteSize - name.utf8ByteSize - 1) 0
  rw [Nat.zero_add] at h
  exact congrArg some h

/-! ## The rendering of a node -/

theorem displayChildren_eq (objs : Nat → V) (mem : Node) (fuel : Nat) (cursor : String)
    (n : Node) :
    displayChildren objs mem fuel cursor n =
      if n.Children.length == 0 then
        (n.Print objs).map (fun pr => (if n.ID = cursor then ">" else " ") ++ pr ++ "\n")
      else
        (displayLoop objs mem fuel cursor n n.Children 0
          (if n.ID = cursor then ">" else " ")).map (fun r => r ++ "\n") := by
  cases n
  simp [displayChildren, Node.Children, Node.ID]

theorem foldl_append_acc (l : List String) : ∀ acc : String,
    l.foldl (fun r s => r ++ s) acc = acc ++ l.foldl (fun r s => r ++ s) "" := by
  induction l with
  | nil => intro acc; simp
  | cons x xs ih =>
    intro acc
    rw [List.foldl_cons, List.foldl_cons, ih (acc ++ x), ih ("" ++ x)]
    simp [String.append_assoc]

theorem join_cons (x : String) (xs : List String) :
    String.join (x :: xs) = x ++ String.join xs := by
  unfold String.join
  rw [List.foldl_cons, foldl_append_acc]
  simp

theorem join_nil : String.join [] = "" := rfl

/-- The loop of `displayChildren` past the first child: for each child in order a
run of spaces and the rendering of the child. -/
theorem displayLoop_later (objs : Nat → V) (mem : Node) (fuel : Nat) (cursor : String)
    (n : Node) : ∀ (rest : List Node) (i : Nat) (ret : String), 0 < i →
    (∀ c ∈ rest, ∃ (d : String) (w : Nat), displayChildren objs mem fuel cursor c = some d ∧
      recursiveIdentation objs mem fuel c = some (spaces w)) →
    ∃ (ws : List Nat) (ds : List String),
      List.Forall₂ (fun c d => displayChildren objs mem fuel cursor c = some d) rest ds ∧
      ws.length = ds.length ∧
      displayLoop objs mem fuel cursor n rest i ret =
        some (ret ++ String.join (List.zipWith (fun w d => spaces w ++ d) ws ds)) := by
  intro rest
  induction rest with
  | nil =>
    intro i ret _ _
    exact ⟨[], [], List.Forall₂.nil, rfl, by simp [displayLoop, join_nil]⟩
  | cons c rest ih =>
    intro i ret hi hall
    obtain ⟨d, w, hd, hw⟩ := hall c (List.mem_cons_self _ _)
    obtain ⟨ws, ds, h1, h2, h3⟩ := ih (i + 1) (ret ++ (spaces w ++ d)) (by omega)
      (fun c hc => hall c (List.mem_cons_of_mem _ hc))
    refine ⟨w :: ws, d :: ds, List.Forall₂.cons hd h1, by simp [h2], ?_⟩
    rw [displayLoop]
    have hi0 : ¬ i = 0 := by omega
    simp only [hd, hi0, if_false, hw, h3, List.zipWith_cons_cons, join_cons,
      String.append_assoc]

/-- Function `displayChildren` returns on every node off the root of a well-formed
tree, once the bound given to `recursiveIdentation` is at least the height of the
tree: for a leaf the marker, the text of `Print` and a newline; for another node
the marker, the text of `Print`, then for each child in order a run of spaces and
the rendering of the child, then a newline. -/
theorem WellFormed.display_some {root : Node} (wf : WellFormed root) (objs : Nat → V)
    (fuel : Nat) (hfuel : root.height ≤ fuel) (cursor : String) (n : Node) :
    ∀ p : List Nat, root.get? p = some n → p ≠ [] →
    ∃ s pr, displayChildren objs root fuel cursor n = some s ∧ n.Print objs = some pr ∧
      (n.isLeaf = true → s = (if n.ID = cursor then ">" else " ") ++ pr ++ "\n") ∧
      (n.isLeaf = false →
        ∃ (ws : List Nat) (ds : List String),
          List.Forall₂ (fun c d => displayChildren objs root fuel cursor c = some d)
            n.Children ds ∧
          ws.length = ds.length ∧
          s = (if n.ID = cursor then ">" else " ") ++ pr ++
            String.join (List.zipWith (fun w d => spaces w ++ d) ws ds) ++ "\n") := by
  induction n using Node.induct with
  | h a i v cs par ih =>
    intro p hn hp
    obtain ⟨name, pr, hname, hpr⟩ := wf.name_some objs p _ hn hp
    have hnr := wf.isRoot_false p _ hn hp
    rw [displayChildren_eq]
    cases hcs : cs with
    | nil =>
      subst hcs
      refine ⟨(if (Node.mk a i v [] par).ID = cursor then ">" else " ") ++ pr ++ "\n", pr,
        by simp [Node.Children, hpr], hpr, fun _ => rfl, ?_⟩
      intro hl
      simp [Node.isLeaf, Node.Children] at hl
    | cons c0 rest =>
      subst hcs
      have hchild : ∀ (k : Nat) (c : Node), (c0 :: rest)[k]? = some c →
          root.get? (p ++ [k]) = some c := by
        intro k c hk
        rw [Node.get?_snoc root _ p k hn]
        exact hk
      have hall : ∀ c ∈ rest, ∃ (d : String) (w : Nat),
          displayChildren objs root fuel cursor c = some d ∧
          recursiveIdentation objs root fuel c = some (spaces w) := by
        intro c hc
        obtain ⟨k, hk⟩ := List.getElem?_of_mem hc
        have hget := hchild (k + 1) c (by simpa using hk)
        obtain ⟨d, -, hd, -⟩ := ih c (List.mem_cons_of_mem _ hc) (p ++ [k + 1]) hget (by simp)
        obtain ⟨w, hw⟩ := wf.recursiveIdentation_some objs _ (p ++ [k + 1]) c rfl (by simp) hget
        have h1 := Node.length_lt_height _ root c hget
        have h2 := c.height_pos
        exact ⟨d, w, hd, hw fuel (by omega)⟩
      have hget0 := hchild 0 c0 (by simp)
      obtain ⟨d0, -, hd0, -⟩ := ih c0 (List.mem_cons_self _ _) (p ++ [0]) hget0 (by simp)
      obtain ⟨q, j, rfl⟩ := List.exists_snoc_of_ne_nil p hp
      obtain ⟨B, bname, -, -, hident⟩ := wf.identation_eq objs q j 0 c0 hget0
      obtain ⟨par0, hpar0, -, -, hderef, -, -⟩ := wf.parent (q ++ [j]) 0 c0 hget0
      rw [hn] at hpar0
      cases hpar0
      have hpi := parentIdentation_eq objs _ name (spaces (bname.length + 1)) hnr hname
      obtain ⟨ws, ds, h1, h2, h3⟩ := displayLoop_later objs root fuel cursor
        (Node.mk a i v (c0 :: rest) par) rest 1
        ((if (Node.mk a i v (c0 :: rest) par).ID = cursor then ">" else " ") ++
          (pr ++ spaces ((spaces (bname.length + 1)).utf8ByteSize - name.utf8ByteSize - 1) ++
            d0)) (by omega) hall
      have hloop : displayLoop objs root fuel cursor (Node.mk a i v (c0 :: rest) par)
          (c0 :: rest) 0 (if (Node.mk a i v (c0 :: rest) par).ID = cursor then ">" else " ") =
          some ((if (Node.mk a i v (c0 :: rest) par).ID = cursor then ">" else " ") ++
            (pr ++ spaces ((spaces (bname.length + 1)).utf8ByteSize - name.utf8ByteSize - 1)
              ++ d0) ++
            String.join (List.zipWith (fun w d => spaces w ++ d) ws ds)) := by
        rw [displayLoop]
        simp only [hd0, if_true, hident, hderef, hpi, hpr]
        exact h3
      refine ⟨(if (Node.mk a i v (c0 :: rest) par).ID = cursor then ">" else " ") ++
            (pr ++ spaces ((spaces (bname.length + 1)).utf8ByteSize - name.utf8ByteSize - 1)
              ++ d0) ++
            String.join (List.zipWith (fun w d => spaces w ++ d) ws ds) ++ "\n", pr,
          by simp [Node.Children, hloop], hpr, ?_, ?_⟩
      · intro hl
        simp [Node.isLeaf, Node.Children] at hl
      · intro _
        refine ⟨((spaces (bname.length + 1)).utf8ByteSize - name.utf8ByteSize - 1) :: ws,
          d0 :: ds, List.Forall₂.cons hd0 h1, by simp [h2], ?_⟩
        simp only [List.zipWith_cons_cons, join_cons, String.append_assoc]

/-! ## C17: the rendering of a node -/

theorem head_marker (b : Prop) [Decidable b] (t : String) :
    ((if b then ">" else " ") ++ t).data.head? = some (if b then '>' else ' ') := by
  by_cases h : b <;> simp [h]

/-- C17: on a node off the root of a tree `newTree` returned, and for any cursor,
`displayChildren` returns once the bound given to `recursiveIdentation` is at least
the height of the tree; the text begins with the marker, ">" when the ID of the
node is the cursor and a space otherwise; for a leaf it is the marker, the text of
`Print` and a newline; for another node it is the marker, the text of `Print`,
then for each child in order a run of spaces and the rendering of the child, and a
newline. -/
theorem c17_display_children (cp : ChildProvider) (objs : Nat → V) (root : Node)
    (next : Nat) (hb : newTree 0 none cp "" = some (root, next)) (cursor : String)
    (fuel : Nat) (hfuel : root.height ≤ fuel) (k : Nat) (p : List Nat)
    (hn : (root.get? (k :: p)).isSome = true) :
    ∃ n s pr, root.get? (k :: p) = some n ∧
      displayChildren objs root fuel cursor n = some s ∧
      n.Print objs = some pr ∧
      s.data.head? = some (if n.ID = cursor then '>' else ' ') ∧
      (n.isLeaf = true → s = (if n.ID = cursor then ">" else " ") ++ pr ++ "\n") ∧
      (n.isLeaf = false →
        ∃ (ws : List Nat) (ds : List String),
          List.Forall₂
            (fun c d => displayChildren objs root fuel cursor c = some d)
            n.Children ds ∧
          ws.length = ds.length ∧
          s = (if n.ID = cursor then ">" else " ") ++ pr ++
            String.join (List.zipWith (fun w d => spaces w ++ d) ws ds) ++ "\n") := by
  cases hg : root.get? (k :: p) with
  | none => simp [hg] at hn
  | some n =>
    obtain ⟨s, pr, h1, h2, h3, h4⟩ :=
      (newTree_wellFormed cp root next hb).display_some objs fuel hfuel cursor n (k :: p) hg (by simp)
    refine ⟨n, s, pr, rfl, h1, h2, ?_, h3, h4⟩
    cases hl : n.isLeaf with
    | true =>
      rw [h3 hl, String.append_assoc]
      exact head_marker _ _
    | false =>
      obtain ⟨ws, ds, -, -, h5⟩ := h4 hl
      rw [h5, String.append_assoc, String.append_assoc]
      exact head_marker _ _

/-- Witness of C17: the first namespace of the sample menu, the cursor on its
`Secrets`. -/
theorem c17_display_children_witness :
    newTree 0 none menu "" = some (menuStart.tree, 9) ∧
    menuStart.tree.height ≤ 4 ∧
    (menuStart.tree.get? (0 :: [])).isSome = true ∧
    ∃ n s pr, menuStart.tree.get? (0 :: []) = some n ∧
      displayChildren menuObjs menuStart.tree 4 "00" n = some s ∧
      n.Print menuObjs = some pr ∧
      s.data.head? = some (if n.ID = "00" then '>' else ' ') ∧
      (n.isLeaf = true → s = (if n.ID = "00" then ">" else " ") ++ pr ++ "\n") ∧
      (n.isLeaf = false →
        ∃ (ws : List Nat) (ds : List String),
          List.Forall₂
            (fun c d =>
              displayChildren menuObjs menuStart.tree 4 "00" c = some d)
            n.Children ds ∧
          ws.length = ds.length ∧
          s = (if n.ID = "00" then ">" else " ") ++ pr ++
            String.join (List.zipWith (fun w d => spaces w ++ d) ws ds) ++ "\n") :=
  ⟨newTree_menu, by decide, by decide,
    c17_display_children menu menuObjs menuStart.tree 9 newTree_menu "00" 4 (by decide) 0 []
      (by decide)⟩

/-! ## C20: the recursions return -/

/-- C20: on a node at depth one or more of a tree `newTree` returned, `branch`
returns the top-level node on the path of the node and `recursiveIdentation` returns a run
of spaces, for every bound on the calls that is at least the depth of the node;
from depth two on, the calls go on to the parent and to the node `biggestAncestor`
picks, which both sit one level higher; and `displayChildren`, a recursion on the
subtree, returns too. -/
theorem c20_recursions_return (cp : ChildProvider) (objs : Nat → V) (root : Node)
    (next : Nat) (hb : newTree 0 none cp "" = some (root, next)) (k : Nat)
    (rest : List Nat) (hn : (root.get? (k :: rest)).isSome = true) :
    ∃ n top w, root.get? (k :: rest) = some n ∧
      root.get? [k] = some top ∧
      (∀ fuel : Nat, (k :: rest).length ≤ fuel →
        n.branch root fuel = some top ∧
        recursiveIdentation objs root fuel n = some (spaces w)) ∧
      (∀ (q : List Nat) (i j : Nat), k :: rest = (q ++ [i]) ++ [j] →
        ∃ (par B : Node) (l : Nat),
          root.deref n.Parent = some par ∧
          root.get? (q ++ [i]) = some par ∧
          biggestAncestor objs root n = some B ∧
          root.get? (q ++ [l]) = some B) ∧
      (∀ (fuel : Nat) (cursor : String), root.height ≤ fuel →
        (displayChildren objs root fuel cursor n).isSome = true) := by
  have wf := newTree_wellFormed cp root next hb
  cases hg : root.get? (k :: rest) with
  | none => simp [hg] at hn
  | some n =>
    have htop : ∃ top, root.get? [k] = some top := by
      have h1 : root.get? ([k] ++ rest) = some n := hg
      rw [Node.get?_append] at h1
      cases ht : root.get? [k] with
      | none => simp [ht] at h1
      | some top => exact ⟨top, rfl⟩
    obtain ⟨top, htop⟩ := htop
    obtain ⟨w, hw⟩ := wf.recursiveIdentation_some objs _ (k :: rest) n rfl (by simp) hg
    refine ⟨n, top, w, rfl, htop, ?_, ?_, ?_⟩
    · intro fuel hf
      exact ⟨wf.branch_eq k top htop _ rest n rfl hg fuel (by simpa using hf), hw fuel hf⟩
    · intro q i j hq
      rw [hq] at hg
      obtain ⟨grand, par, B, l, bname, -, hpar, hd, -, -, hB, -, hBget, -, -⟩ :=
        wf.biggestAncestor_eq objs q i j n hg
      exact ⟨par, B, l, hd, hpar, hB, hBget⟩
    · intro fuel cursor hf
      obtain ⟨s, pr, h1, -⟩ := wf.display_some objs fuel hf cursor n (k :: rest) hg (by simp)
      rw [h1]; rfl

/-- Witness of C20: `value2` of the sample menu. -/
theorem c20_recursions_return_witness :
    newTree 0 none menu "" = some (menuStart.tree, 9) ∧
    (menuStart.tree.get? (0 :: [0, 1])).isSome = true ∧
    ∃ n top w, menuStart.tree.get? (0 :: [0, 1]) = some n ∧
      menuStart.tree.get? [0] = some top ∧
      (∀ fuel : Nat, (0 :: [0, 1]).length ≤ fuel →
        n.branch menuStart.tree fuel = some top ∧
        recursiveIdentation menuObjs menuStart.tree fuel n = some (spaces w)) ∧
      (∀ (q : List Nat) (i j : Nat), 0 :: [0, 1] = (q ++ [i]) ++ [j] →
        ∃ (par B : Node) (l : Nat),
          menuStart.tree.deref n.Parent = some par ∧
          menuStart.tree.get? (q ++ [i]) = some par ∧
          biggestAncestor menuObjs menuStart.tree n = some B ∧
          menuStart.tree.get? (q ++ [l]) = some B) ∧
      (∀ (fuel : Nat) (cursor : String), menuStart.tree.height ≤ fuel →
        (displayChildren menuObjs menuStart.tree fuel cursor n).isSome = true) :=
  ⟨newTree_menu, by decide,
    c20_recursions_return menu menuObjs menuStart.tree 9 newTree_menu 0 [0, 1] (by decide)⟩

/-! ## C15: the indentation unit -/

/-- C15, a node whose reference set is not the one of the sentence: `secrets` under
`namespace 1` of the sample menu. Its parent `namespace 1` is not the root and the
parent of its parent is the root, and the only child of its parent is labelled
`secrets`, seven characters, so that the unit of the sentence has eight spaces;
`identation` and `recursiveIdentation` return twelve, one more than the eleven
characters of `namespace 1`, the longest label among the children of the root. -/
theorem c15_unit_of_the_top_level :
    NewTree menu = some menuStart ∧
    ∃ n par, menuStart.tree.get? [0, 0] = some n ∧
      menuStart.tree.deref n.Parent = some par ∧
      par.isRoot = false ∧
      (menuStart.tree.deref par.Parent).map Node.isRoot = some true ∧
      par.Children.map (fun c => c.Name menuObjs) = [some "secrets"] ∧
      identation menuObjs menuStart.tree n = some (spaces 12) ∧
      recursiveIdentation menuObjs menuStart.tree 2 n = some (spaces 12) ∧
      menuStart.tree.Children.map (fun c => c.Name menuObjs) =
        [some "namespace 1", some "namespace 2"] ∧
      spaces 12 ≠ spaces (1 + "secrets".length) := by
  refine ⟨rfl, _, _, rfl, rfl, rfl, rfl, rfl, ?_, ?_, rfl, by decide⟩
  · decide
  · decide

/-- C15, as the code has it: for a node `n` two levels or more below the root of a
tree `newTree` returned, the reference set is the children of the grandparent of `n`,
that is the parent of `n` and the siblings of the parent, also when the grandparent
is the root; `biggestAncestor` picks among them a node `B` whose label has the
greatest number of bytes; `identation` returns a run of spaces, one more than the
characters of the label of `B`, and `recursiveIdentation` returns the indentation
of `B` followed by that same run. -/
theorem c15_indentation_unit (cp : ChildProvider) (objs : Nat → V) (root : Node)
    (next : Nat) (hb : newTree 0 none cp "" = some (root, next)) (q : List Nat) (i j : Nat)
    (hn : (root.get? ((q ++ [i]) ++ [j])).isSome = true) :
    ∃ (n grand par B : Node) (bname : String) (w : Nat),
      root.get? ((q ++ [i]) ++ [j]) = some n ∧
      root.get? q = some grand ∧
      root.deref n.Parent = some par ∧
      grand.Children[i]? = some par ∧
      getDirectAncestors root n = some grand.Children ∧
      biggestAncestor objs root n = some B ∧
      B ∈ grand.Children ∧ B.Name objs = some bname ∧
      (∀ (c : Node), c ∈ grand.Children → ∀ nm, c.Name objs = some nm →
        nm.utf8ByteSize ≤ bname.utf8ByteSize) ∧
      identation objs root n = some (spaces (1 + bname.length)) ∧
      (∀ fuel : Nat, (q ++ [i]).length ≤ fuel →
        recursiveIdentation objs root fuel B = some (spaces w)) ∧
      (∀ fuel : Nat, ((q ++ [i]) ++ [j]).length ≤ fuel →
        recursiveIdentation objs root fuel n =
          some (spaces w ++ spaces (1 + bname.length))) := by
  have wf := newTree_wellFormed cp root next hb
  cases hg : root.get? ((q ++ [i]) ++ [j]) with
  | none => rw [hg] at hn; cases hn
  | some n =>
    obtain ⟨grand, par, B, k, bname, hgrand, hpar, hd, hnr, hdir, hB, hk, hBget, hBn, hmax⟩ :=
      wf.biggestAncestor_eq objs q i j n hg
    obtain ⟨par1, hpar1, hpc, -, -, -, -⟩ := wf.parent q i par hpar
    rw [hgrand] at hpar1
    cases hpar1
    obtain ⟨w, hw⟩ := wf.recursiveIdentation_some objs _ (q ++ [k]) B rfl (by simp) hBget
    refine ⟨n, grand, par, B, bname, w, rfl, hgrand, hd, hpc, hdir, hB,
      List.getElem?_mem hk, hBn, hmax, ?_, ?_, ?_⟩
    · simp [identation, hd, hnr, hB, hBn, sameSizeStrWhiteSpaces_eq, Nat.add_comm]
    · intro fuel hf
      exact hw fuel (by simpa using hf)
    · intro fuel hf
      cases fuel with
      | zero => simp at hf
      | succ fuel =>
        rw [recursiveIdentation_succ, hd]
        simp only [hnr, Bool.false_eq_true, if_false, hB, hBn]
        rw [hw fuel (by
          simp only [List.length_append, List.length_singleton] at hf ⊢
          omega)]
        simp only [sameSizeStrWhiteSpaces_eq, Nat.add_comm]

/-- Witness of C15: `secrets` under `namespace 1` of the sample menu. -/
theorem c15_indentation_unit_witness :
    newTree 0 none menu "" = some (menuStart.tree, 9) ∧
    (menuStart.tree.get? (([] ++ [0]) ++ [0])).isSome = true ∧
    ∃ (n grand par B : Node) (bname : String) (w : Nat),
      menuStart.tree.get? (([] ++ [0]) ++ [0]) = some n ∧
      menuStart.tree.get? [] = some grand ∧
      menuStart.tree.deref n.Parent = some par ∧
      grand.Children[0]? = some par ∧
      getDirectAncestors menuStart.tree n = some grand.Children ∧
      biggestAncestor menuObjs menuStart.tree n = some B ∧
      B ∈ grand.Children ∧ B.Name menuObjs = some bname ∧
      (∀ (c : Node), c ∈ grand.Children → ∀ nm, c.Name menuObjs = some nm →
        nm.utf8ByteSize ≤ bname.utf8ByteSize) ∧
      identation menuObjs menuStart.tree n = some (spaces (1 + bname.length)) ∧
      (∀ fuel : Nat, ([] ++ [0]).length ≤ fuel →
        recursiveIdentation menuObjs menuStart.tree fuel B = some (spaces w)) ∧
      (∀ fuel : Nat, (([] ++ [0]) ++ [0]).length ≤ fuel →
        recursiveIdentation menuObjs menuStart.tree fuel n =
          some (spaces w ++ spaces (1 + bname.length))) :=
  ⟨newTree_menu, by decide,
    c15_indentation_unit menu menuObjs menuStart.tree 9 newTree_menu [] 0 0 (by decide)⟩

/-! ## Labels in ASCII, nodes with the same parent -/

theorem utf8Len_ascii : ∀ l : List Char, (∀ c ∈ l, c.toNat < 128) →
    String.utf8Len l = l.length := by
  intro l
  induction l with
  | nil => intro _; rfl
  | cons c cs ih =>
    intro h
    rw [String.utf8Len_cons, ih (fun d hd => h d (List.mem_cons_of_mem _ hd))]
    have hc : c.toNat < 128 := h c (List.mem_cons_self _ _)
    have h1 : c.utf8Size = 1 := by
      have h2 : c.val ≤ 127 := by
        rw [UInt32.le_def]
        show c.val.toNat ≤ 127
        have : c.toNat = c.val.toNat := rfl
        omega
      simp [Char.utf8Size, h2]
    rw [h1, List.length_cons]

/-- The number of bytes of a string of ASCII characters is its number of
characters. -/
theorem ascii_utf8ByteSize (s : String) (h : ∀ c ∈ s.data, c.toNat < 128) :
    s.utf8ByteSize = s.length := by
  cases s with
  | mk l => exact utf8Len_ascii l h

theorem Node.name_of_store (objs : Nat → V) (n : Node) (name : String)
    (h : n.Name objs = some name) : ∃ r, name = NodeInterface.Name (objs r) := by
  cases hv : n.Value with
  | none => simp [Node.Name, hv] at h
  | some r =>
    refine ⟨r, ?_⟩
    simp [Node.Name, hv] at h
    exact h.symm

/-- Two nodes with the same parent pointer have the same `biggestAncestor`, when
the parent is not the root. -/
theorem biggestAncestor_congr (objs : Nat → V) (mem n n1 par : Node)
    (h : n.Parent = n1.Parent) (hd : mem.deref n.Parent = some par)
    (hnr : par.isRoot = false) :
    biggestAncestor objs mem n = biggestAncestor objs mem n1 := by
  have hd1 : mem.deref n1.Parent = some par := h ▸ hd
  simp [biggestAncestor, getDirectAncestors, hd, hd1, hnr]

/-- Two nodes with the same parent pointer have the same `recursiveIdentation`. -/
theorem recursiveIdentation_congr (objs : Nat → V) (mem n n1 : Node)
    (h : n.Parent = n1.Parent) (fuel : Nat) :
    recursiveIdentation objs mem fuel n = recursiveIdentation objs mem fuel n1 := by
  cases fuel with
  | zero => rfl
  | succ fuel =>
    rw [recursiveIdentation_succ, recursiveIdentation_succ, ← h]
    cases hd : mem.deref n.Parent with
    | none => rfl
    | some par =>
      cases hr : par.isRoot with
      | true => simp only [hr, if_true]
      | false =>
        simp only [hr, Bool.false_eq_true, if_false]
        rw [biggestAncestor_congr objs mem n n1 par h hd hr]

theorem menuObjs_ascii :
    ∀ (r : Nat), ∀ ch ∈ (NodeInterface.Name (menuObjs r)).data, ch.toNat < 128 := by
  intro r
  rcases r with _ | _ | _ | _ | _ | _ | _ | r
  · decide
  · decide
  · decide
  · decide
  · decide
  · decide
  · decide
  · show ∀ ch ∈ (NodeInterface.Name (MenuObj.Values "value4" false)).data, ch.toNat < 128
    decide

/-! ## C14: the frame -/

/-- Two children of the root with the same ID are the same child. -/
theorem WellFormed.top_unique {root : Node} (wf : WellFormed root) (i k : Nat) (c top : Node)
    (hc : root.Children[i]? = some c) (ht : root.Children[k]? = some top)
    (hid : c.ID = top.ID) : i = k := by
  obtain ⟨r1, h1, -, -, -, hi, -⟩ := wf.parent [] i c
    (by rw [Node.get?_snoc root root [] i (by simp)]; exact hc)
  obtain ⟨r2, h2, -, -, -, hk, -⟩ := wf.parent [] k top
    (by rw [Node.get?_snoc root root [] k (by simp)]; exact ht)
  simp at h1 h2
  subst h1
  subst h2
  rw [hi, hk] at hid
  exact Sprint_injective i k (String.append_left_cancel _ _ _ hid)

/-- The loop of `View`: one entry for each top-level node, the rendering of
`displayChildren` for the one at index `k`, a space and the label for the others. -/
theorem WellFormed.viewLoop_eq {root : Node} (wf : WellFormed root) (objs : Nat → V)
    (fuel : Nat) (cursor : String) (curr top : Node) (k : Nat) (d : String)
    (ht : root.Children[k]? = some top) (hb : curr.branch root fuel = some top)
    (hd : displayChildren objs root fuel cursor top = some d) :
    ∀ (l : List Node) (i0 : Nat) (s : String),
    (∀ t c, l[t]? = some c → root.Children[i0 + t]? = some c) →
    ∃ lines : List String, lines.length = l.length ∧
      (∀ t c, l[t]? = some c → ∃ nm, c.Name objs = some nm ∧
        lines[t]? = some (if i0 + t = k then d ++ "\n" else " " ++ nm ++ "\n")) ∧
      viewLoop objs root fuel cursor (some curr) l s = some (s ++ String.join lines) := by
  intro l
  induction l with
  | nil =>
    intro i0 s _
    exact ⟨[], rfl, fun t c h => by simp at h, by simp [viewLoop, join_nil]⟩
  | cons choice rest ih =>
    intro i0 s hl
    have hch : root.Children[i0]? = some choice := hl 0 choice (by simp)
    have hrest : ∀ t c, rest[t]? = some c → root.Children[(i0 + 1) + t]? = some c := by
      intro t c h
      have := hl (t + 1) c (by simpa using h)
      rw [show i0 + 1 + t = i0 + (t + 1) by omega]
      exact this
    obtain ⟨nm, -, hnm, -⟩ := wf.name_some objs [i0] choice
      (by
        have := Node.get?_snoc root root [] i0 (by simp)
        simp only [List.nil_append] at this
        rw [this]; exact hch)
      (by simp)
    by_cases hid : choice.ID = top.ID
    · have hik : i0 = k := wf.top_unique i0 k choice top hch ht hid
      have hct : choice = top := by
        rw [hik, ht] at hch
        exact (Option.some.inj hch).symm
      obtain ⟨lines, h1, h2, h3⟩ := ih (i0 + 1) (s ++ (d ++ "\n")) hrest
      refine ⟨(d ++ "\n") :: lines, by simp [h1], ?_, ?_⟩
      · intro t c h
        cases t with
        | zero =>
          simp at h
          subst h
          exact ⟨nm, hnm, by simp [hik]⟩
        | succ t =>
          obtain ⟨nm1, hn1, hl1⟩ := h2 t c (by simpa using h)
          refine ⟨nm1, hn1, ?_⟩
          rw [show i0 + (t + 1) = i0 + 1 + t by omega]
          simpa using hl1
      · rw [viewLoop]
        simp only [hb, hid, if_true, hct, hd]
        rw [h3, join_cons, String.append_assoc]
    · have hik : i0 ≠ k := by
        intro e
        rw [e, ht] at hch
        exact hid (by rw [← Option.some.inj hch])
      obtain ⟨lines, h1, h2, h3⟩ := ih (i0 + 1) (s ++ ("" ++ " " ++ nm ++ "\n")) hrest
      refine ⟨(" " ++ nm ++ "\n") :: lines, by simp [h1], ?_, ?_⟩
      · intro t c h
        cases t with
        | zero =>
          simp at h
          subst h
          exact ⟨nm, hnm, by simp [hik]⟩
        | succ t =>
          obtain ⟨nm1, hn1, hl1⟩ := h2 t c (by simpa using h)
          refine ⟨nm1, hn1, ?_⟩
          rw [show i0 + (t + 1) = i0 + 1 + t by omega]
          simpa using hl1
      · rw [viewLoop]
        simp only [hb, hid, if_false, hnm]
        rw [h3, join_cons, String.append_assoc]
        simp

/-- C14: in every reachable state, and with a bound on the calls of `branch` and
`recursiveIdentation` that is at least the height of the tree, `View` returns the
header with the cursor, one entry for each top-level node in order, and the footer
with the keys that quit. The entry of exactly one top-level node, the one `branch`
returns for the node of the cursor and that lies on its path, is the text of
`displayChildren` and a newline; the entry of every other top-level node is a space,
its label and a newline. -/
theorem c14_view_frame (cp : ChildProvider) (objs : Nat → V) (m : CLITree)
    (hr : Reachable cp objs m) (fuel : Nat) (hfuel : m.tree.height ≤ fuel) :
    ∃ (curr top : Node) (k : Nat) (rest : List Nat) (d : String) (lines : List String),
      m.tree.find m.cursor = some curr ∧ m.tree.get? (k :: rest) = some curr ∧
      m.tree.Children[k]? = some top ∧ curr.branch m.tree fuel = some top ∧
      displayChildren objs m.tree fuel m.cursor top = some d ∧
      lines.length = m.tree.Children.length ∧
      (∀ i c, m.tree.Children[i]? = some c →
        (c.ID = top.ID ↔ i = k) ∧
        ∃ nm, c.Name objs = some nm ∧
          lines[i]? = some (if i = k then d ++ "\n" else " " ++ nm ++ "\n")) ∧
      m.View objs fuel =
        some ("Select items: " ++ m.cursor ++ " \n\n" ++ String.join lines ++
          "\nPress q or ctrl-c to quit.\n") := by
  have hG := hr.good
  have wf : WellFormed m.tree := hG.1
  obtain ⟨q, i, curr, par, -, -, hfind, hget, -, -, -, -, -, -⟩ := hG.curr_node
  have hp : ∃ k rest, q ++ [i] = k :: rest := by
    cases q with
    | nil => exact ⟨i, [], rfl⟩
    | cons a q => exact ⟨a, q ++ [i], rfl⟩
  obtain ⟨k, rest, hp⟩ := hp
  rw [hp] at hget
  have htop : ∃ top, m.tree.get? [k] = some top := by
    have h1 : m.tree.get? ([k] ++ rest) = some curr := hget
    rw [Node.get?_append] at h1
    cases ht : m.tree.get? [k] with
    | none => simp [ht] at h1
    | some top => exact ⟨top, rfl⟩
  obtain ⟨top, htop⟩ := htop
  have htc : m.tree.Children[k]? = some top := by
    have := Node.get?_snoc m.tree m.tree [] k (by simp)
    simp only [List.nil_append] at this
    rw [← this]; exact htop
  have hlen := Node.length_lt_height (k :: rest) m.tree curr hget
  have hpos := Node.height_pos curr
  have hb : curr.branch m.tree fuel = some top :=
    wf.branch_eq k top htop _ rest curr rfl hget fuel (by
      simp only [List.length_cons] at hlen
      omega)
  obtain ⟨d, pr, hd, -⟩ := wf.display_some objs fuel hfuel m.cursor top [k] htop (by simp)
  obtain ⟨lines, h1, h2, h3⟩ := wf.viewLoop_eq objs fuel m.cursor curr top k d htc hb hd
    m.tree.Children 0 ("Select items: " ++ m.cursor ++ " \n\n")
    (fun t c h => by rw [Nat.zero_add]; exact h)
  refine ⟨curr, top, k, rest, d, lines, hfind, hget, htc, hb, hd, h1, ?_, ?_⟩
  · intro i c hc
    refine ⟨⟨fun hid => wf.top_unique i k c top hc htc hid, ?_⟩, ?_⟩
    · intro e
      rw [e, htc] at hc
      rw [← Option.some.inj hc]
    · obtain ⟨nm, hn, hl⟩ := h2 i c hc
      rw [Nat.zero_add] at hl
      exact ⟨nm, hn, hl⟩
  · simp only [CLITree.View, hfind, h3, Option.map_some']

/-- Witness of C14: the sample menu with the cursor on the first `Secrets`. -/
theorem c14_view_frame_witness :
    Reachable menu menuObjs { menuStart with cursor := "00" } ∧
    ({ menuStart with cursor := "00" } : CLITree).tree.height ≤ 4 ∧
    ∃ (curr top : Node) (k : Nat) (rest : List Nat) (d : String) (lines : List String),
      ({ menuStart with cursor := "00" } : CLITree).tree.find
        ({ menuStart with cursor := "00" } : CLITree).cursor = some curr ∧
      ({ menuStart with cursor := "00" } : CLITree).tree.get? (k :: rest) = some curr ∧
      ({ menuStart with cursor := "00" } : CLITree).tree.Children[k]? = some top ∧
      curr.branch ({ menuStart with cursor := "00" } : CLITree).tree 4 = some top ∧
      displayChildren menuObjs ({ menuStart with cursor := "00" } : CLITree).tree 4
        ({ menuStart with cursor := "00" } : CLITree).cursor top = some d ∧
      lines.length = ({ menuStart with cursor := "00" } : CLITree).tree.Children.length ∧
      (∀ i c, ({ menuStart with cursor := "00" } : CLITree).tree.Children[i]? = some c →
        (c.ID = top.ID ↔ i = k) ∧
        ∃ nm, c.Name menuObjs = some nm ∧
          lines[i]? = some (if i = k then d ++ "\n" else " " ++ nm ++ "\n")) ∧
      ({ menuStart with cursor := "00" } : CLITree).View menuObjs 4 =
        some ("Select items: " ++ ({ menuStart with cursor := "00" } : CLITree).cursor ++
          " \n\n" ++ String.join lines ++ "\nPress q or ctrl-c to quit.\n") :=
  ⟨menu_reach_secrets, by decide,
    c14_view_frame menu menuObjs { menuStart with cursor := "00" } menu_reach_secrets 4
      (by decide)⟩

/-- In a well-formed tree whose labels are ASCII, the indentation of a child `c` of
a node `n` off the root is the indentation of `n`, one character for the marker,
the label of `n` and the padding written after it. -/
theorem WellFormed.column {root : Node} (wf : WellFormed root) (objs : Nat → V)
    (hascii : ∀ (r : Nat), ∀ ch ∈ (NodeInterface.Name (objs r)).data, ch.toNat < 128)
    (q : List Nat) (i j : Nat) (c : Node)
    (hg : root.get? ((q ++ [i]) ++ [j]) = some c) :
    ∃ (n first par B : Node) (name bname ident pad : String) (w : Nat),
      root.get? (q ++ [i]) = some n ∧
      n.Children[j]? = some c ∧ n.Children[0]? = some first ∧ n.isRoot = false ∧
      root.get? q = some par ∧
      n.Name objs = some name ∧
      identation objs root first = some ident ∧
      root.deref first.Parent = some n ∧
      parentIdentation objs n ident = some pad ∧
      (∀ fuel : Nat, (q ++ [i]).length ≤ fuel →
        recursiveIdentation objs root fuel n = some (spaces w)) ∧
      (∀ fuel : Nat, ((q ++ [i]) ++ [j]).length ≤ fuel →
        recursiveIdentation objs root fuel c =
          some (spaces (w + 1 + name.utf8ByteSize + pad.utf8ByteSize))) ∧
      B ∈ par.Children ∧ n ∈ par.Children ∧ B.Name objs = some bname ∧
      (∀ (s : Node), s ∈ par.Children → ∀ nm, s.Name objs = some nm →
        nm.utf8ByteSize ≤ bname.utf8ByteSize) ∧
      name.utf8ByteSize + pad.utf8ByteSize = bname.utf8ByteSize := by
  obtain ⟨n, hn, hnc, hcp, hcd, -, -⟩ := wf.parent (q ++ [i]) j c hg
  obtain ⟨par, hpar, hpn, hnp, -, -, -⟩ := wf.parent q i n hn
  have hnr : n.isRoot = false := wf.isRoot_false _ _ hn (by simp)
  -- the first child
  have hj : j < n.Children.length := by
    by_contra hlt
    rw [List.getElem?_eq_none (by omega)] at hnc
    cases hnc
  have hfirst : n.Children[0]? = some (n.Children.get ⟨0, by omega⟩) :=
    List.getElem?_eq_getElem _
  generalize n.Children.get ⟨0, by omega⟩ = first at hfirst
  have hfg : root.get? ((q ++ [i]) ++ [0]) = some first := by
    rw [Node.get?_snoc _ n (q ++ [i]) 0 hn]; exact hfirst
  obtain ⟨n1, hn1, -, hfp, hfd, -, -⟩ := wf.parent (q ++ [i]) 0 first hfg
  rw [hn] at hn1
  cases hn1
  -- the node `biggestAncestor` picks
  obtain ⟨grand, par1, B, k, bname, hgrand, -, hd, -, -, hB, hk, hBget, hBn, hmax⟩ :=
    wf.biggestAncestor_eq objs q i j c hg
  rw [hpar] at hgrand
  cases hgrand
  obtain ⟨B0, bname0, hB0, hBn0, hident⟩ := wf.identation_eq objs q i 0 first hfg
  have hsame : biggestAncestor objs root first = biggestAncestor objs root c :=
    biggestAncestor_congr objs _ first c n (by rw [hfp, hcp])
      (by rw [hfp, ← hcp]; exact hcd) hnr
  rw [hsame, hB] at hB0
  cases hB0
  rw [hBn] at hBn0
  cases hBn0
  obtain ⟨name, -, hname, -⟩ := wf.name_some objs (q ++ [i]) n hn (by simp)
  -- the indentation of `n` is the one of its sibling `B`
  obtain ⟨par2, hpar2, -, hBp, -, -, -⟩ := wf.parent q k B hBget
  rw [hpar] at hpar2
  cases hpar2
  obtain ⟨w, hw⟩ := wf.recursiveIdentation_some objs _ (q ++ [i]) n rfl (by simp) hn
  have hwB : ∀ fuel : Nat, (q ++ [i]).length ≤ fuel →
      recursiveIdentation objs root fuel B = some (spaces w) := by
    intro fuel hf
    rw [← recursiveIdentation_congr objs _ n B (by rw [hnp, hBp]) fuel]
    exact hw fuel hf
  -- lengths
  obtain ⟨rb, hrb⟩ := Node.name_of_store objs B bname hBn
  have hbl : bname.utf8ByteSize = bname.length := by
    rw [hrb]; exact ascii_utf8ByteSize _ (hascii rb)
  have hle : name.utf8ByteSize ≤ bname.utf8ByteSize :=
    hmax n (List.getElem?_mem hpn) name hname
  have hpad : (spaces ((spaces (bname.length + 1)).utf8ByteSize - name.utf8ByteSize - 1)).utf8ByteSize
      = bname.utf8ByteSize - name.utf8ByteSize := by
    simp only [spaces_utf8ByteSize]
    omega
  refine ⟨n, first, par, B, name, bname, spaces (bname.length + 1),
    spaces ((spaces (bname.length + 1)).utf8ByteSize - name.utf8ByteSize - 1), w,
    hn, hnc, hfirst, hnr, hpar, hname, hident, hfd,
    parentIdentation_eq objs n name _ hnr hname, hw, ?_,
    List.getElem?_mem hk, List.getElem?_mem hpn, hBn, hmax, ?_⟩
  · intro fuel hf
    cases fuel with
    | zero => simp at hf
    | succ fuel =>
      rw [recursiveIdentation_succ, hcd]
      simp only [hnr, Bool.false_eq_true, if_false, hB, hBn]
      rw [hwB fuel (by
        simp only [List.length_append, List.length_singleton] at hf ⊢
        omega)]
      simp only [sameSizeStrWhiteSpaces_eq, spaces_append]
      rw [hpad]
      congr 2
      omega
  · rw [hpad]
    omega

/-- The loop of `displayChildren` past the first child writes, for each child in
order, its `recursiveIdentation` and its rendering. -/
theorem displayLoop_later_eq (objs : Nat → V) (mem : Node) (fuel : Nat) (cursor : String)
    (n : Node) : ∀ (rest : List Node) (lines : List (String × String)) (i : Nat)
    (ret : String), 0 < i →
    List.Forall₂ (fun c x => recursiveIdentation objs mem fuel c = some x.1 ∧
      displayChildren objs mem fuel cursor c = some x.2) rest lines →
    displayLoop objs mem fuel cursor n rest i ret =
      some (ret ++ String.join (lines.map (fun x => x.1 ++ x.2))) := by
  intro rest
  induction rest with
  | nil =>
    intro lines i ret _ h
    cases h
    simp [displayLoop, join_nil]
  | cons c rest ih =>
    intro lines i ret hi h
    cases h with
    | cons hx hrest =>
      rename_i x xs
      rw [displayLoop]
      have hi0 : ¬ i = 0 := by omega
      simp only [hx.2, hi0, if_false, hx.1]
      rw [ih xs (i + 1) _ (by omega) hrest]
      simp only [List.map_cons, join_cons, String.append_assoc]

/-- The text `displayChildren` writes for a node with children: the marker, the
text of `Print`, the padding `parentIdentation` returns for the `identation` of the
first child, the rendering of the first child, then for each later child its
`recursiveIdentation` and its rendering, and a newline. -/
theorem displayChildren_internal (objs : Nat → V) (mem : Node) (fuel : Nat) (cursor : String)
    (n first parent : Node) (later : List Node) (pr ident pad d0 : String)
    (lines : List (String × String))
    (hch : n.Children = first :: later) (hpr : n.Print objs = some pr)
    (hident : identation objs mem first = some ident)
    (hparent : mem.deref first.Parent = some parent)
    (hpad : parentIdentation objs parent ident = some pad)
    (hd0 : displayChildren objs mem fuel cursor first = some d0)
    (hlines : List.Forall₂ (fun c x => recursiveIdentation objs mem fuel c = some x.1 ∧
      displayChildren objs mem fuel cursor c = some x.2) later lines) :
    displayChildren objs mem fuel cursor n =
      some ((if n.ID = cursor then ">" else " ") ++ pr ++ pad ++ d0 ++
        String.join (lines.map (fun x => x.1 ++ x.2)) ++ "\n") := by
  rw [displayChildren_eq, hch]
  simp only [List.length_cons, Nat.add_one_ne_zero, beq_iff_eq, if_false]
  rw [displayLoop]
  simp only [hd0, if_true, hident, hparent, hpad, hpr]
  rw [displayLoop_later_eq objs mem fuel cursor n later lines 1 _ (by omega) hlines]
  simp only [Option.map_some', String.append_assoc]

/-- Every rendering ends with a newline. -/
theorem displayChildren_newline (objs : Nat → V) (mem : Node) (fuel : Nat) (cursor : String)
    (n : Node) (s : String) (h : displayChildren objs mem fuel cursor n = some s) :
    ∃ t, s = t ++ "\n" := by
  rw [displayChildren_eq] at h
  cases hl : (n.Children.length == 0) with
  | true =>
    simp only [hl, if_true] at h
    cases hp : n.Print objs with
    | none => simp [hp] at h
    | some pr =>
      simp only [hp, Option.map_some', Option.some.injEq] at h
      exact ⟨_, h.symm⟩
  | false =>
    simp only [hl, Bool.false_eq_true, if_false] at h
    cases hp : displayLoop objs mem fuel cursor n n.Children 0
        (if n.ID = cursor then ">" else " ") with
    | none => simp [hp] at h
    | some r =>
      simp only [hp, Option.map_some', Option.some.injEq] at h
      exact ⟨_, h.symm⟩

theorem forall₂_of_forall_mem {α β : Type} (P : α → β → Prop) :
    ∀ l : List α, (∀ a ∈ l, ∃ b, P a b) → ∃ bs, List.Forall₂ P l bs := by
  intro l
  induction l with
  | nil => intro _; exact ⟨[], List.Forall₂.nil⟩
  | cons a l ih =>
    intro h
    obtain ⟨b, hb⟩ := h a (List.mem_cons_self _ _)
    obtain ⟨bs, hbs⟩ := ih (fun a ha => h a (List.mem_cons_of_mem _ ha))
    exact ⟨b :: bs, List.Forall₂.cons hb hbs⟩

theorem Node.print_size (objs : Nat → V)
    (hprint : ∀ (r : Nat),
      (NodeInterface.Print (objs r)).utf8ByteSize = (NodeInterface.Name (objs r)).utf8ByteSize)
    (n : Node) (name pr : String) (hn : n.Name objs = some name) (hp : n.Print objs = some pr) :
    pr.utf8ByteSize = name.utf8ByteSize := by
  cases hv : n.Value with
  | none => simp [Node.Name, hv] at hn
  | some r =>
    simp [Node.Name, hv] at hn
    simp [Node.Print, hv] at hp
    rw [← hn, ← hp]
    exact hprint r

theorem forall₂_mem_right {α β : Type} (P : α → β → Prop) :
    ∀ (l : List α) (bs : List β), List.Forall₂ P l bs → ∀ b ∈ bs, ∃ a ∈ l, P a b := by
  intro l bs h
  induction h with
  | nil => intro b hb; cases hb
  | cons hab _ ih =>
    intro b hb
    rcases List.mem_cons.mp hb with rfl | hb
    · exact ⟨_, List.mem_cons_self _ _, hab⟩
    · obtain ⟨a, ha, hp⟩ := ih b hb
      exact ⟨a, List.mem_cons_of_mem _ ha, hp⟩

/-! ## C16: column alignment -/

/-- C16: in a tree `newTree` returned whose labels are ASCII and whose `Print()`
has as many bytes as `Name()`, take a node `n` off the root that has children, and
let `rn` be `recursiveIdentation(n)`, the run of spaces written before `n` when it
starts a line (empty for a top-level node).  The text `displayChildren` writes for
`n` is the marker, `Print()`, the padding `parentIdentation(n, identation(first))`,
the rendering of the first child, then for each later child its
`recursiveIdentation` and its rendering, and a newline; every rendering of a child
ends with a newline, so that each later child starts a line.  The first child and
the later children start in the same column: each later child is preceded by
exactly as many spaces as there are bytes in `rn`, the marker, `Print()` and the
padding; for every child `c`, `recursiveIdentation(c)` is a run of spaces with
`len(rn) + 1 + len(Name()) + len(padding)` bytes; and the padding makes the label
of `n` as long as the longest label among `n` and its siblings. -/
theorem c16_column_alignment (cp : ChildProvider) (objs : Nat → V) (root : Node)
    (next : Nat) (hb : newTree 0 none cp "" = some (root, next))
    (hascii : ∀ (r : Nat), ∀ ch ∈ (NodeInterface.Name (objs r)).data, ch.toNat < 128)
    (hprint : ∀ (r : Nat),
      (NodeInterface.Print (objs r)).utf8ByteSize = (NodeInterface.Name (objs r)).utf8ByteSize)
    (cursor : String) (fuel : Nat) (hfuel : root.height ≤ fuel)
    (q : List Nat) (i : Nat)
    (hc : (root.get? ((q ++ [i]) ++ [0])).isSome = true) :
    ∃ (n first par B : Node) (later : List Node) (name bname pr ident pad rn d0 : String)
      (lines : List (String × String)),
      root.get? (q ++ [i]) = some n ∧ n.isRoot = false ∧ n.Children = first :: later ∧
      root.get? q = some par ∧
      n.Name objs = some name ∧ n.Print objs = some pr ∧
      recursiveIdentation objs root fuel n = some rn ∧ rn = spaces rn.utf8ByteSize ∧
      (q = [] → rn = "") ∧
      identation objs root first = some ident ∧
      parentIdentation objs n ident = some pad ∧
      displayChildren objs root fuel cursor first = some d0 ∧
      List.Forall₂ (fun c x => recursiveIdentation objs root fuel c = some x.1 ∧
        displayChildren objs root fuel cursor c = some x.2) later lines ∧
      displayChildren objs root fuel cursor n =
        some ((if n.ID = cursor then ">" else " ") ++ pr ++ pad ++ d0 ++
          String.join (lines.map (fun x => x.1 ++ x.2)) ++ "\n") ∧
      (∀ d ∈ d0 :: lines.map Prod.snd, ∃ t, d = t ++ "\n") ∧
      (∀ x ∈ lines, x.1 = spaces (rn.utf8ByteSize +
        ((if n.ID = cursor then ">" else " ") ++ pr ++ pad).utf8ByteSize)) ∧
      (∀ c ∈ n.Children, ∃ rc, recursiveIdentation objs root fuel c = some rc ∧
        rc = spaces rc.utf8ByteSize ∧
        rn.utf8ByteSize + 1 + name.utf8ByteSize + pad.utf8ByteSize = rc.utf8ByteSize) ∧
      ((if n.ID = cursor then ">" else " ") ++ pr ++ pad).utf8ByteSize =
        1 + name.utf8ByteSize + pad.utf8ByteSize ∧
      B ∈ par.Children ∧ n ∈ par.Children ∧ B.Name objs = some bname ∧
      (∀ (s : Node), s ∈ par.Children → ∀ nm, s.Name objs = some nm →
        nm.utf8ByteSize ≤ bname.utf8ByteSize) ∧
      name.utf8ByteSize + pad.utf8ByteSize = bname.utf8ByteSize := by
  have wf := newTree_wellFormed cp root next hb
  cases hg : root.get? ((q ++ [i]) ++ [0]) with
  | none => rw [hg] at hc; cases hc
  | some first =>
    obtain ⟨n, first1, par, B, name, bname, ident, pad, w, hn, hnc, hfirst, hnr, hpar, hname,
      hident, hfd, hpad, hw, hwc, hBm, hnm, hBn, hmax, hlen⟩ :=
      wf.column objs hascii q i 0 first hg
    rw [hnc] at hfirst
    cases hfirst
    -- the children of `n`
    have hch : ∃ later, n.Children = first :: later := by
      cases hcs : n.Children with
      | nil => rw [hcs] at hnc; simp at hnc
      | cons c0 later =>
        rw [hcs] at hnc
        simp at hnc
        exact ⟨later, by rw [hnc]⟩
    obtain ⟨later, hch⟩ := hch
    -- the bound is large enough
    have h1 := Node.length_lt_height _ root first hg
    have h2 := first.height_pos
    have hf1 : ((q ++ [i]) ++ [0]).length ≤ fuel := by omega
    have hf0 : (q ++ [i]).length ≤ fuel := by
      simp only [List.length_append, List.length_singleton] at hf1 ⊢
      omega
    have hrn := hw fuel hf0
    obtain ⟨name1, pr, hname1, hpr⟩ := wf.name_some objs (q ++ [i]) n hn (by simp)
    rw [hname] at hname1
    cases hname1
    have hps := Node.print_size objs hprint n name pr hname hpr
    -- every child has the same indentation
    have key : ∀ (j : Nat) (c : Node), n.Children[j]? = some c →
        recursiveIdentation objs root fuel c =
          some (spaces (w + 1 + name.utf8ByteSize + pad.utf8ByteSize)) := by
      intro j c hj
      have hgc : root.get? ((q ++ [i]) ++ [j]) = some c := by
        rw [Node.get?_snoc _ n (q ++ [i]) j hn]; exact hj
      obtain ⟨n2, first2, par2, B2, name2, bname2, ident2, pad2, w2, hn2, -, hfirst2, -, -,
        hname2, hident2, -, hpad2, hw2, hwc2, -⟩ := wf.column objs hascii q i j c hgc
      rw [hn] at hn2
      cases hn2
      rw [hnc] at hfirst2
      cases hfirst2
      rw [hname] at hname2
      cases hname2
      rw [hident] at hident2
      cases hident2
      rw [hpad] at hpad2
      cases hpad2
      have hww : spaces w = spaces w2 := by
        have := hw2 fuel hf0
        rw [hrn] at this
        exact Option.some.inj this
      have hw3 : w = w2 := by
        have := congrArg String.utf8ByteSize hww
        simpa [spaces_utf8ByteSize] using this
      rw [hw3]
      have h3 := Node.length_lt_height _ root c hgc
      have h4 := c.height_pos
      exact hwc2 fuel (by omega)
    -- renderings
    obtain ⟨d0, -, hd0, -⟩ := wf.display_some objs fuel hfuel cursor first _ hg (by simp)
    have hlater : ∀ c ∈ later, ∃ x : String × String,
        recursiveIdentation objs root fuel c = some x.1 ∧
        displayChildren objs root fuel cursor c = some x.2 := by
      intro c hc1
      obtain ⟨k, hk⟩ := List.getElem?_of_mem hc1
      have hj : n.Children[k + 1]? = some c := by rw [hch]; simpa using hk
      have hgc : root.get? ((q ++ [i]) ++ [k + 1]) = some c := by
        rw [Node.get?_snoc _ n (q ++ [i]) (k + 1) hn]; exact hj
      obtain ⟨d, -, hd, -⟩ := wf.display_some objs fuel hfuel cursor c _ hgc (by simp)
      exact ⟨(spaces (w + 1 + name.utf8ByteSize + pad.utf8ByteSize), d), key (k + 1) c hj, hd⟩
    obtain ⟨lines, hlines⟩ := forall₂_of_forall_mem _ later hlater
    have hmark : ((if n.ID = cursor then ">" else " ") ++ pr ++ pad).utf8ByteSize =
        1 + name.utf8ByteSize + pad.utf8ByteSize := by
      rw [utf8ByteSize_append_eq, utf8ByteSize_append_eq, hps]
      by_cases hid : n.ID = cursor
      · simp only [hid, if_true]; rfl
      · simp only [hid, if_false]; rfl
    refine ⟨n, first, par, B, later, name, bname, pr, ident, pad, spaces w, d0, lines,
      hn, hnr, hch, hpar, hname, hpr, hrn, by rw [spaces_utf8ByteSize], ?_, hident, hpad, hd0,
      hlines,
      displayChildren_internal objs root fuel cursor n first n later pr ident pad d0 lines
        hch hpr hident hfd hpad hd0 hlines,
      ?_, ?_, ?_, hmark, hBm, hnm, hBn, hmax, hlen⟩
    · intro hq
      subst hq
      obtain ⟨r0, hr0, -, -, hd, -, -⟩ := wf.parent [] i n hn
      have h5 : recursiveIdentation objs root (fuel - 1 + 1) n = some "" := by
        rw [recursiveIdentation_succ, hd]
        simp [(wf.isRoot_iff [] r0 hr0).mpr rfl]
      have h6 : fuel - 1 + 1 = fuel := by
        simp only [List.length_append, List.length_singleton] at hf0
        omega
      rw [h6, hrn] at h5
      exact Option.some.inj h5
    · intro d hd
      rcases List.mem_cons.mp hd with rfl | hd
      · exact displayChildren_newline objs root fuel cursor first _ hd0
      · obtain ⟨x, hx, rfl⟩ := List.mem_map.mp hd
        obtain ⟨c, -, hP⟩ := forall₂_mem_right _ later lines hlines x hx
        exact displayChildren_newline objs root fuel cursor c _ hP.2
    · intro x hx
      obtain ⟨c, hc1, hP⟩ := forall₂_mem_right _ later lines hlines x hx
      obtain ⟨k, hk⟩ := List.getElem?_of_mem hc1
      have hj : n.Children[k + 1]? = some c := by rw [hch]; simpa using hk
      have := key (k + 1) c hj
      rw [hP.1] at this
      rw [Option.some.inj this, hmark, spaces_utf8ByteSize]
      congr 1
      omega
    · intro c hc1
      obtain ⟨k, hk⟩ := List.getElem?_of_mem hc1
      refine ⟨_, key k c hk, by rw [spaces_utf8ByteSize], ?_⟩
      rw [spaces_utf8ByteSize, spaces_utf8ByteSize]

/-- Witness of C16: `secrets` under `namespace 1` of the sample menu, with its
children `value1` and `value2`. -/
theorem c16_column_alignment_witness :
    newTree 0 none menu "" = some (menuStart.tree, 9) ∧
    (∀ (r : Nat), ∀ ch ∈ (NodeInterface.Name (menuObjs r)).data, ch.toNat < 128) ∧
    (∀ (r : Nat), (NodeInterface.Print (menuObjs r)).utf8ByteSize =
      (NodeInterface.Name (menuObjs r)).utf8ByteSize) ∧
    menuStart.tree.height ≤ 4 ∧
    (menuStart.tree.get? (([0] ++ [0]) ++ [0])).isSome = true ∧
    ∃ (n first par B : Node) (later : List Node) (name bname pr ident pad rn d0 : String)
      (lines : List (String × String)),
      menuStart.tree.get? ([0] ++ [0]) = some n ∧ n.isRoot = false ∧
      n.Children = first :: later ∧
      menuStart.tree.get? [0] = some par ∧
      n.Name menuObjs = some name ∧ n.Print menuObjs = some pr ∧
      recursiveIdentation menuObjs menuStart.tree 4 n = some rn ∧
      rn = spaces rn.utf8ByteSize ∧
      (([0] : List Nat) = [] → rn = "") ∧
      identation menuObjs menuStart.tree first = some ident ∧
      parentIdentation menuObjs n ident = some pad ∧
      displayChildren menuObjs menuStart.tree 4 "001" first = some d0 ∧
      List.Forall₂ (fun c x => recursiveIdentation menuObjs menuStart.tree 4 c = some x.1 ∧
        displayChildren menuObjs menuStart.tree 4 "001" c = some x.2) later lines ∧
      displayChildren menuObjs menuStart.tree 4 "001" n =
        some ((if n.ID = "001" then ">" else " ") ++ pr ++ pad ++ d0 ++
          String.join (lines.map (fun x => x.1 ++ x.2)) ++ "\n") ∧
      (∀ d ∈ d0 :: lines.map Prod.snd, ∃ t, d = t ++ "\n") ∧
      (∀ x ∈ lines, x.1 = spaces (rn.utf8ByteSize +
        ((if n.ID = "001" then ">" else " ") ++ pr ++ pad).utf8ByteSize)) ∧
      (∀ c ∈ n.Children, ∃ rc, recursiveIdentation menuObjs menuStart.tree 4 c = some rc ∧
        rc = spaces rc.utf8ByteSize ∧
        rn.utf8ByteSize + 1 + name.utf8ByteSize + pad.utf8ByteSize = rc.utf8ByteSize) ∧
      ((if n.ID = "001" then ">" else " ") ++ pr ++ pad).utf8ByteSize =
        1 + name.utf8ByteSize + pad.utf8ByteSize ∧
      B ∈ par.Children ∧ n ∈ par.Children ∧ B.Name menuObjs = some bname ∧
      (∀ (s : Node), s ∈ par.Children → ∀ nm, s.Name menuObjs = some nm →
        nm.utf8ByteSize ≤ bname.utf8ByteSize) ∧
      name.utf8ByteSize + pad.utf8ByteSize = bname.utf8ByteSize :=
  ⟨newTree_menu, menuObjs_ascii, fun _ => rfl, by decide, by decide,
    c16_column_alignment menu menuObjs menuStart.tree 9 newTree_menu menuObjs_ascii
      (fun _ => rfl) "001" 4 (by decide) [0] 0 (by decide)⟩

end BubblesTree
